import Mathlib

/-!
BCS codec and Sui transaction helpers of `esp32_sensor`.

A shallow embedding of `bcs.cpp` and `sui_transaction.cpp`.

Conventions of the embedding.

* A byte is a natural number below 256; a byte sequence is a `List Nat`.
* `size_t` is the 32-bit unsigned type of the ESP32 target: arithmetic the
  source performs in `size_t` is reduced modulo `SIZE_MOD`; `uint64_t`
  arithmetic is reduced modulo `U64_MOD`.
* The C allocator is not part of the sources. It is a parameter
  (`Allocator`) saying which requests are granted and what a read of a
  released block yields.
* A function that contains an unbounded loop returns an `Option`; `none`
  stands for a run that does not return.
* Out-parameters are returned as values; the value that accompanies an
  error code is what the out-parameter holds at that point and carries no
  meaning.
-/

/-! ## Data model -/

/-- Error codes of `bcs.h`. -/
inductive bcs_error_t where
  | BCS_OK
  | BCS_ERROR_OUT_OF_MEMORY
  | BCS_ERROR_BUFFER_TOO_SMALL
  | BCS_ERROR_INVALID_INPUT
  | BCS_ERROR_OVERFLOW
  | BCS_ERROR_BUFFER_UNDERFLOW
  deriving DecidableEq, Repr

open bcs_error_t

/-- Number of values of `size_t` on the target (32 bits). -/
def SIZE_MOD : Nat := 4294967296

/-- Number of values of `uint64_t`. -/
def U64_MOD : Nat := 18446744073709551616

/-- The C allocator as seen by the sources: `grants n` tells whether a request
for `n` bytes (`malloc`, `realloc`) is served, and `stale d i` is the byte found
at offset `i` of a block that held the bytes `d` when it was released. -/
structure Allocator where
  grants : Nat → Bool
  stale : List Nat → Nat → Nat

/-- The writer of `bcs.h`. `buffer` is `none` for a null pointer; otherwise it
holds the written span `buffer[0 .. position)`. -/
structure bcs_writer_t where
  buffer : Option (List Nat)
  capacity : Nat
  position : Nat
  max_size : Nat
  allocate_size : Nat
  deriving DecidableEq, Repr

/-- The reader of `bcs.h`: a borrowed byte sequence, its declared length and a cursor. -/
structure bcs_reader_t where
  buffer : List Nat
  length : Nat
  position : Nat
  deriving DecidableEq, Repr

/-- Every element of the sequence is a byte. -/
def IsBytes (l : List Nat) : Prop := ∀ b ∈ l, b < 256

instance (l : List Nat) : Decidable (IsBytes l) := by
  unfold IsBytes; infer_instance

/-! ## Writer -/

/-- The loop `while (new_capacity < required) new_capacity += allocate_size` of
`ensure_capacity`, in `size_t` arithmetic. The loop state is one `size_t`, so a run
that has not ended after `SIZE_MOD` rounds never ends. -/
def grow_capacity : Nat → Nat → Nat → Nat → Option Nat
  | 0, _, _, _ => none
  | fuel + 1, new_capacity, required, allocate_size =>
    if new_capacity < required then
      grow_capacity fuel ((new_capacity + allocate_size) % SIZE_MOD) required allocate_size
    else some new_capacity

/-- Embedding of `ensure_capacity`. -/
def ensure_capacity (h : Allocator) (writer : bcs_writer_t) (additional_bytes : Nat) :
    Option (bcs_error_t × bcs_writer_t) :=
  let required := (writer.position + additional_bytes) % SIZE_MOD
  if required ≤ writer.capacity then some (BCS_OK, writer)
  else if writer.max_size > 0 ∧ required > writer.max_size then
    some (BCS_ERROR_BUFFER_TOO_SMALL, writer)
  else
    match grow_capacity SIZE_MOD writer.capacity required writer.allocate_size with
    | none => none
    | some grown =>
      let new_capacity :=
        if writer.max_size > 0 ∧ grown > writer.max_size then writer.max_size else grown
      if new_capacity < required then some (BCS_ERROR_BUFFER_TOO_SMALL, writer)
      else if h.grants new_capacity then
        some (BCS_OK, { writer with buffer := some (writer.buffer.getD []),
                                    capacity := new_capacity })
      else some (BCS_ERROR_OUT_OF_MEMORY, writer)

/-- Embedding of `bcs_writer_init` on a present writer: the result code and the
initialised writer (meaningful with `BCS_OK`). -/
def bcs_writer_init (h : Allocator) (initial_capacity max_size : Nat) :
    bcs_error_t × bcs_writer_t :=
  if initial_capacity = 0 then (BCS_ERROR_INVALID_INPUT, ⟨none, 0, 0, 0, 0⟩)
  else if h.grants initial_capacity then
    (BCS_OK, ⟨some [], initial_capacity, 0, max_size, initial_capacity⟩)
  else (BCS_ERROR_OUT_OF_MEMORY, ⟨none, 0, 0, 0, 0⟩)

/-- Embedding of `bcs_writer_free`. -/
def bcs_writer_free (writer : bcs_writer_t) : bcs_writer_t :=
  match writer.buffer with
  | some _ => { writer with buffer := none, capacity := 0, position := 0 }
  | none => writer

/-- Embedding of `bcs_writer_get_bytes`: the buffer pointer and `*length`. -/
def bcs_writer_get_bytes (writer : bcs_writer_t) : Option (List Nat) × Nat :=
  (writer.buffer, writer.position)

/-- The stores `buffer[position++] = b` (or `memcpy` and `position += n`) that follow a
successful capacity check: `data` is appended to the written span and the
position advances by `n`. -/
def put_bytes (writer : bcs_writer_t) (data : List Nat) (n : Nat) : bcs_writer_t :=
  { writer with buffer := writer.buffer.map (fun b => b ++ data),
                position := (writer.position + n) % SIZE_MOD }

/-- Embedding of `bcs_write_u8`; the parameter is a `uint8_t`. -/
def bcs_write_u8 (h : Allocator) (writer : bcs_writer_t) (value : Nat) :
    Option (bcs_error_t × bcs_writer_t) :=
  match ensure_capacity h writer 1 with
  | none => none
  | some (err, writer) =>
    if err ≠ BCS_OK then some (err, writer)
    else some (BCS_OK, put_bytes writer [value % 256] 1)

/-- Embedding of `bcs_write_u16`. -/
def bcs_write_u16 (h : Allocator) (writer : bcs_writer_t) (value : Nat) :
    Option (bcs_error_t × bcs_writer_t) :=
  match ensure_capacity h writer 2 with
  | none => none
  | some (err, writer) =>
    if err ≠ BCS_OK then some (err, writer)
    else some (BCS_OK, put_bytes writer [value &&& 0xFF, (value >>> 8) &&& 0xFF] 2)

/-- Embedding of `bcs_write_u32`. -/
def bcs_write_u32 (h : Allocator) (writer : bcs_writer_t) (value : Nat) :
    Option (bcs_error_t × bcs_writer_t) :=
  match ensure_capacity h writer 4 with
  | none => none
  | some (err, writer) =>
    if err ≠ BCS_OK then some (err, writer)
    else some (BCS_OK, put_bytes writer
      [value &&& 0xFF, (value >>> 8) &&& 0xFF, (value >>> 16) &&& 0xFF,
       (value >>> 24) &&& 0xFF] 4)

/-- Embedding of `bcs_write_u64`: bytes `(value >> (i * 8)) & 0xFF` for `i = 0 .. 7`. -/
def bcs_write_u64 (h : Allocator) (writer : bcs_writer_t) (value : Nat) :
    Option (bcs_error_t × bcs_writer_t) :=
  match ensure_capacity h writer 8 with
  | none => none
  | some (err, writer) =>
    if err ≠ BCS_OK then some (err, writer)
    else some (BCS_OK, put_bytes writer
      ((List.range 8).map (fun i => (value >>> (i * 8)) &&& 0xFF)) 8)

/-- Embedding of `bcs_write_u128`: the low half first, then the high half. -/
def bcs_write_u128 (h : Allocator) (writer : bcs_writer_t) (high low : Nat) :
    Option (bcs_error_t × bcs_writer_t) :=
  match bcs_write_u64 h writer low with
  | none => none
  | some (err, writer) =>
    if err ≠ BCS_OK then some (err, writer)
    else
      match bcs_write_u64 h writer high with
      | none => none
      | some (err, writer) =>
        if err ≠ BCS_OK then some (err, writer) else some (BCS_OK, writer)

/-- Embedding of `bcs_write_fixed_bytes`; `data = none` is a null pointer, and a
present `data` holds at least `length` bytes. -/
def bcs_write_fixed_bytes (h : Allocator) (writer : bcs_writer_t)
    (data : Option (List Nat)) (length : Nat) : Option (bcs_error_t × bcs_writer_t) :=
  if data.isNone ∧ length > 0 then some (BCS_ERROR_INVALID_INPUT, writer)
  else
    match ensure_capacity h writer length with
    | none => none
    | some (err, writer) =>
      if err ≠ BCS_OK then some (err, writer)
      else some (BCS_OK, put_bytes writer ((data.getD []).take length) length)

/-- Embedding of `bcs_write_u256`. -/
def bcs_write_u256 (h : Allocator) (writer : bcs_writer_t) (bytes : Option (List Nat)) :
    Option (bcs_error_t × bcs_writer_t) :=
  if bytes.isNone then some (BCS_ERROR_INVALID_INPUT, writer)
  else bcs_write_fixed_bytes h writer bytes 32

/-- Embedding of `bcs_write_bool`. -/
def bcs_write_bool (h : Allocator) (writer : bcs_writer_t) (value : Bool) :
    Option (bcs_error_t × bcs_writer_t) :=
  bcs_write_u8 h writer (if value then 1 else 0)

/-- The `do ... while (value != 0)` loop of `bcs_write_uleb128`; the first argument
bounds the number of rounds. -/
def bcs_write_uleb128_loop (h : Allocator) :
    Nat → bcs_writer_t → Nat → Option (bcs_error_t × bcs_writer_t)
  | 0, _, _ => none
  | fuel + 1, writer, value =>
    let byte := value &&& 0x7F
    let value := value >>> 7
    let byte := if value ≠ 0 then byte ||| 0x80 else byte
    match bcs_write_u8 h writer byte with
    | none => none
    | some (err, writer) =>
      if err ≠ BCS_OK then some (err, writer)
      else if value ≠ 0 then bcs_write_uleb128_loop h fuel writer value
      else some (BCS_OK, writer)

/-- Embedding of `bcs_write_uleb128`; the parameter is a `uint64_t`, for which ten
rounds always suffice. -/
def bcs_write_uleb128 (h : Allocator) (writer : bcs_writer_t) (value : Nat) :
    Option (bcs_error_t × bcs_writer_t) :=
  bcs_write_uleb128_loop h 10 writer (value % U64_MOD)

/-- Embedding of `bcs_write_bytes`. -/
def bcs_write_bytes (h : Allocator) (writer : bcs_writer_t)
    (data : Option (List Nat)) (length : Nat) : Option (bcs_error_t × bcs_writer_t) :=
  if data.isNone ∧ length > 0 then some (BCS_ERROR_INVALID_INPUT, writer)
  else
    match bcs_write_uleb128 h writer length with
    | none => none
    | some (err, writer) =>
      if err ≠ BCS_OK then some (err, writer)
      else bcs_write_fixed_bytes h writer data length

/-- Embedding of `bcs_write_string`; a C string is the list of its bytes before the
terminator, so `strlen` is the length of the list. -/
def bcs_write_string (h : Allocator) (writer : bcs_writer_t) (str : Option (List Nat)) :
    Option (bcs_error_t × bcs_writer_t) :=
  match str with
  | none => some (BCS_ERROR_INVALID_INPUT, writer)
  | some s => bcs_write_bytes h writer (some s) s.length

/-- Embedding of `bcs_write_vec_length`. -/
def bcs_write_vec_length (h : Allocator) (writer : bcs_writer_t) (length : Nat) :
    Option (bcs_error_t × bcs_writer_t) :=
  bcs_write_uleb128 h writer length

/-- Embedding of `bcs_write_option_some`. -/
def bcs_write_option_some (h : Allocator) (writer : bcs_writer_t) :
    Option (bcs_error_t × bcs_writer_t) :=
  bcs_write_u8 h writer 1

/-- Embedding of `bcs_write_option_none`. -/
def bcs_write_option_none (h : Allocator) (writer : bcs_writer_t) :
    Option (bcs_error_t × bcs_writer_t) :=
  bcs_write_u8 h writer 0

/-! ## Reader -/

/-- Embedding of `bcs_reader_init`. -/
def bcs_reader_init (buffer : List Nat) (length : Nat) : bcs_reader_t :=
  ⟨buffer, length, 0⟩

/-- Embedding of `bcs_reader_remaining`. -/
def bcs_reader_remaining (reader : bcs_reader_t) : Nat :=
  if reader.position ≥ reader.length then 0 else reader.length - reader.position

/-- The byte `reader->buffer[i]`. -/
def byte_at (reader : bcs_reader_t) (i : Nat) : Nat := reader.buffer.getD i 0

/-- Embedding of `bcs_read_u8`: result code, reader afterwards, `*value`. -/
def bcs_read_u8 (reader : bcs_reader_t) : bcs_error_t × bcs_reader_t × Nat :=
  if reader.position ≥ reader.length then (BCS_ERROR_BUFFER_UNDERFLOW, reader, 0)
  else (BCS_OK, { reader with position := reader.position + 1 }, byte_at reader reader.position)

/-- Embedding of `bcs_read_u16`. -/
def bcs_read_u16 (reader : bcs_reader_t) : bcs_error_t × bcs_reader_t × Nat :=
  if (reader.position + 2) % SIZE_MOD > reader.length then
    (BCS_ERROR_BUFFER_UNDERFLOW, reader, 0)
  else
    (BCS_OK, { reader with position := (reader.position + 2) % SIZE_MOD },
      byte_at reader reader.position ||| (byte_at reader (reader.position + 1) <<< 8))

/-- Embedding of `bcs_read_u32`. -/
def bcs_read_u32 (reader : bcs_reader_t) : bcs_error_t × bcs_reader_t × Nat :=
  if (reader.position + 4) % SIZE_MOD > reader.length then
    (BCS_ERROR_BUFFER_UNDERFLOW, reader, 0)
  else
    (BCS_OK, { reader with position := (reader.position + 4) % SIZE_MOD },
      byte_at reader reader.position ||| (byte_at reader (reader.position + 1) <<< 8) |||
        (byte_at reader (reader.position + 2) <<< 16) |||
        (byte_at reader (reader.position + 3) <<< 24))

/-- Embedding of `bcs_read_u64`: `*value |= buffer[position + i] << (i * 8)` for
`i = 0 .. 7`, starting from zero. -/
def bcs_read_u64 (reader : bcs_reader_t) : bcs_error_t × bcs_reader_t × Nat :=
  if (reader.position + 8) % SIZE_MOD > reader.length then
    (BCS_ERROR_BUFFER_UNDERFLOW, reader, 0)
  else
    (BCS_OK, { reader with position := (reader.position + 8) % SIZE_MOD },
      (List.range 8).foldl
        (fun value i => value ||| (byte_at reader (reader.position + i) <<< (i * 8))) 0)

/-- Embedding of `bcs_read_u128`: result code, reader afterwards, `*high`, `*low`. -/
def bcs_read_u128 (reader : bcs_reader_t) : bcs_error_t × bcs_reader_t × Nat × Nat :=
  match bcs_read_u64 reader with
  | (err, reader, low) =>
    if err ≠ BCS_OK then (err, reader, 0, low)
    else
      match bcs_read_u64 reader with
      | (err, reader, high) =>
        if err ≠ BCS_OK then (err, reader, high, low) else (BCS_OK, reader, high, low)

/-- Embedding of `bcs_read_bytes`: result code, reader afterwards, the bytes copied
to the destination. `length` is a `size_t`. -/
def bcs_read_bytes (reader : bcs_reader_t) (length : Nat) :
    bcs_error_t × bcs_reader_t × List Nat :=
  if (reader.position + length) % SIZE_MOD > reader.length then
    (BCS_ERROR_BUFFER_UNDERFLOW, reader, [])
  else
    (BCS_OK, { reader with position := (reader.position + length) % SIZE_MOD },
      (reader.buffer.drop reader.position).take length)

/-- Embedding of `bcs_read_u256`. -/
def bcs_read_u256 (reader : bcs_reader_t) : bcs_error_t × bcs_reader_t × List Nat :=
  bcs_read_bytes reader 32

/-- Embedding of `bcs_read_bool`. -/
def bcs_read_bool (reader : bcs_reader_t) : bcs_error_t × bcs_reader_t × Bool :=
  match bcs_read_u8 reader with
  | (err, reader, byte) =>
    if err ≠ BCS_OK then (err, reader, false)
    else if byte > 1 then (BCS_ERROR_INVALID_INPUT, reader, false)
    else (BCS_OK, reader, decide (byte ≠ 0))

/-- The `while (true)` loop of `bcs_read_uleb128` with the running `*value` and
`shift`. Each round either returns or adds 7 to `shift`, and a `shift` of 64 or more
returns, so from `shift = 0` the tenth round always returns; the first argument
counts the rounds still allowed. -/
def bcs_read_uleb128_loop : Nat → bcs_reader_t → Nat → Nat → bcs_error_t × bcs_reader_t × Nat
  | 0, reader, value, _ => (BCS_ERROR_OVERFLOW, reader, value)
  | fuel + 1, reader, value, shift =>
    if reader.position ≥ reader.length then (BCS_ERROR_BUFFER_UNDERFLOW, reader, value)
    else
      let byte := byte_at reader reader.position
      let reader := { reader with position := reader.position + 1 }
      let value := value ||| (((byte &&& 0x7F) <<< shift) % U64_MOD)
      if byte &&& 0x80 = 0 then (BCS_OK, reader, value)
      else
        let shift := shift + 7
        if shift ≥ 64 then (BCS_ERROR_OVERFLOW, reader, value)
        else bcs_read_uleb128_loop fuel reader value shift

/-- Embedding of `bcs_read_uleb128`. -/
def bcs_read_uleb128 (reader : bcs_reader_t) : bcs_error_t × bcs_reader_t × Nat :=
  bcs_read_uleb128_loop 10 reader 0 0

/-- Embedding of `bcs_read_string`: result code, reader afterwards, the bytes copied
before the terminator, `*actual_length`. -/
def bcs_read_string (reader : bcs_reader_t) (max_length : Nat) :
    bcs_error_t × bcs_reader_t × List Nat × Nat :=
  match bcs_read_uleb128 reader with
  | (err, reader, length) =>
    if err ≠ BCS_OK then (err, reader, [], 0)
    else if length ≥ max_length then (BCS_ERROR_BUFFER_TOO_SMALL, reader, [], 0)
    else
      match bcs_read_bytes reader (length % SIZE_MOD) with
      | (err, reader, bytes) =>
        if err ≠ BCS_OK then (err, reader, bytes, 0)
        else (BCS_OK, reader, bytes, length % SIZE_MOD)

/-- Embedding of `bcs_read_vec_length`. -/
def bcs_read_vec_length (reader : bcs_reader_t) : bcs_error_t × bcs_reader_t × Nat :=
  match bcs_read_uleb128 reader with
  | (err, reader, len) =>
    if err ≠ BCS_OK then (err, reader, 0) else (BCS_OK, reader, len % SIZE_MOD)

/-- Embedding of `bcs_read_option_tag`. -/
def bcs_read_option_tag (reader : bcs_reader_t) : bcs_error_t × bcs_reader_t × Bool :=
  match bcs_read_u8 reader with
  | (err, reader, tag) =>
    if err ≠ BCS_OK then (err, reader, false)
    else if tag > 1 then (BCS_ERROR_INVALID_INPUT, reader, false)
    else (BCS_OK, reader, decide (tag ≠ 0))

/-- The read operations of the reader API with their arguments. -/
inductive read_op where
  | u8 | u16 | u32 | u64 | u128 | u256 | bool | uleb128 | vec_length | option_tag
  | bytes (length : Nat)
  | string (max_length : Nat)
  deriving DecidableEq, Repr

/-- One call of a read operation: the result code and the reader afterwards. -/
def read_call (reader : bcs_reader_t) : read_op → bcs_error_t × bcs_reader_t
  | .u8 => ((bcs_read_u8 reader).1, (bcs_read_u8 reader).2.1)
  | .u16 => ((bcs_read_u16 reader).1, (bcs_read_u16 reader).2.1)
  | .u32 => ((bcs_read_u32 reader).1, (bcs_read_u32 reader).2.1)
  | .u64 => ((bcs_read_u64 reader).1, (bcs_read_u64 reader).2.1)
  | .u128 => ((bcs_read_u128 reader).1, (bcs_read_u128 reader).2.1)
  | .u256 => ((bcs_read_u256 reader).1, (bcs_read_u256 reader).2.1)
  | .bool => ((bcs_read_bool reader).1, (bcs_read_bool reader).2.1)
  | .uleb128 => ((bcs_read_uleb128 reader).1, (bcs_read_uleb128 reader).2.1)
  | .vec_length => ((bcs_read_vec_length reader).1, (bcs_read_vec_length reader).2.1)
  | .option_tag => ((bcs_read_option_tag reader).1, (bcs_read_option_tag reader).2.1)
  | .bytes length => ((bcs_read_bytes reader length).1, (bcs_read_bytes reader length).2.1)
  | .string max_length =>
    ((bcs_read_string reader max_length).1, (bcs_read_string reader max_length).2.1)

/-- The reader after a sequence of read calls, successful or not. -/
def read_calls (reader : bcs_reader_t) (ops : List read_op) : bcs_reader_t :=
  ops.foldl (fun r op => (read_call r op).2) reader

/-- The operations that check the remaining bytes once, before any advance. -/
def read_op.single_step : read_op → Bool
  | .u8 | .u16 | .u32 | .u64 | .u256 | .bytes _ => true
  | _ => false

/-- Value of a byte sequence read as a little-endian number. -/
def le_value : List Nat → Nat
  | [] => 0
  | b :: bs => b + 256 * le_value bs

/-- The `n` bytes of the borrowed sequence that start at the cursor. -/
def bytes_ahead (reader : bcs_reader_t) (n : Nat) : List Nat :=
  (reader.buffer.drop reader.position).take n

/-- A reader state the program can hold on the target: the declared length does not
exceed the borrowed sequence, which consists of bytes, and the sequence leaves
eight addresses of the 32-bit address space free. -/
def reader_fits (reader : bcs_reader_t) : Prop :=
  reader.length ≤ reader.buffer.length ∧ IsBytes reader.buffer ∧
    reader.length + 8 < SIZE_MOD

/-- An allocator that serves every request below `2 ^ 31` bytes and whose released
blocks keep their bytes. -/
def plainAllocator : Allocator := ⟨fun n => decide (n < 2147483648), fun d i => d.getD i 0⟩

instance (r : bcs_reader_t) : Decidable (reader_fits r) := by
  unfold reader_fits; infer_instance

/-- The reader `r2` looks at the same sequence as `r1` and its cursor is within the length. -/
def reader_kept (r1 r2 : bcs_reader_t) : Prop :=
  r2.buffer = r1.buffer ∧ r2.length = r1.length ∧ r2.position ≤ r2.length

/-- Requests below `bound` bytes are served. -/
def grants_below (h : Allocator) (bound : Nat) : Prop := ∀ n, n < bound → h.grants n = true

/-- A writer without maximum size, as `bcs_writer_init` creates it and successful
writes keep it: it owns storage whose written span is `written`, and its capacity
lies between the position and the position plus the growth increment `inc`. -/
def unlimited_writer (inc : Nat) (w : bcs_writer_t) (written : List Nat) : Prop :=
  w.buffer = some written ∧ written.length = w.position ∧ w.max_size = 0 ∧
    w.allocate_size = inc ∧ 0 < inc ∧ w.position ≤ w.capacity ∧
    w.capacity ≤ w.position + inc

/-- Little-endian bytes of `v`, `n` of them. -/
def le_bytes (n v : Nat) : List Nat := (List.range n).map (fun i => (v >>> (i * 8)) &&& 0xFF)

/-- Canonical ULEB128 encoding with a bound on the number of groups. -/
def uleb_enc_aux : Nat → Nat → List Nat
  | 0, v => [v]
  | fuel + 1, v => if v < 128 then [v] else (v % 128 + 128) :: uleb_enc_aux fuel (v / 128)

/-- Canonical ULEB128 encoding of `v`: `[v]` if `v < 128`, otherwise the low seven
bits with the continuation bit followed by the encoding of `v / 128`. -/
def uleb_enc (v : Nat) : List Nat := uleb_enc_aux v v

instance (h : Allocator) (bound : Nat) : Decidable (grants_below h bound) := by
  unfold grants_below; infer_instance

/-- Writing with `f` into a fresh writer of capacity `cap` without maximum size
succeeds and leaves exactly the bytes `bs` as the written span. -/
def fresh_write_yields (h : Allocator) (cap : Nat)
    (f : bcs_writer_t → Option (bcs_error_t × bcs_writer_t)) (bs : List Nat) : Prop :=
  (bcs_writer_init h cap 0).1 = BCS_OK ∧
    ∃ w, f (bcs_writer_init h cap 0).2 = some (BCS_OK, w) ∧
      bcs_writer_get_bytes w = (some bs, bs.length)

/-! ## Hex utility -/

/-- C `isxdigit` on the character codes the strings of this program hold. -/
def isxdigit (c : Char) : Bool :=
  (48 ≤ c.toNat && c.toNat ≤ 57) || (97 ≤ c.toNat && c.toNat ≤ 102) ||
    (65 ≤ c.toNat && c.toNat ≤ 70)

/-- C `tolower`, as a character code. -/
def tolower (c : Char) : Nat :=
  if 65 ≤ c.toNat ∧ c.toNat ≤ 90 then c.toNat + 32 else c.toNat

/-- The expression `(c <= '9') ? (c - '0') : (tolower(c) - 'a' + 10)` for a
character that passed `isxdigit`. -/
def hex_digit_value (c : Char) : Nat :=
  if c.toNat ≤ 57 then c.toNat - 48 else tolower c - 97 + 10

/-- The `for` loop of `bcs_hex_to_bytes` over the digit pairs of an even-length
string: `none` when it meets a character that is not a hex digit. -/
def hex_decode_pairs : List Char → Option (List Nat)
  | high :: low :: rest =>
    if !isxdigit high || !isxdigit low then none
    else
      match hex_decode_pairs rest with
      | none => none
      | some bytes => some ((((hex_digit_value high) <<< 4) ||| hex_digit_value low) % 256 :: bytes)
  | _ => some []

/-- The string after `hex += 2` when it starts with `0x` or `0X`. -/
def skip_hex_prefix : List Char → List Char
  | '0' :: 'x' :: rest => rest
  | '0' :: 'X' :: rest => rest
  | hex => hex

/-- Embedding of `bcs_hex_to_bytes`: result code, the bytes stored, `*actual_bytes`.
A C string is the list of its characters before the terminator. -/
def bcs_hex_to_bytes (hex : List Char) (max_bytes : Nat) : bcs_error_t × List Nat × Nat :=
  let hex := skip_hex_prefix hex
  let hex_len := hex.length
  if hex_len % 2 ≠ 0 then (BCS_ERROR_INVALID_INPUT, [], 0)
  else
    let byte_len := hex_len / 2
    if byte_len > max_bytes then (BCS_ERROR_BUFFER_TOO_SMALL, [], 0)
    else
      match hex_decode_pairs hex with
      | none => (BCS_ERROR_INVALID_INPUT, [], 0)
      | some bytes => (BCS_OK, bytes, byte_len)

/-- The table `hex_chars` of `bcs_bytes_to_hex`. -/
def hex_chars (i : Nat) : Char := "0123456789abcdef".toList.getD i '0'

/-- Embedding of `bcs_bytes_to_hex`: the characters stored before the terminator. -/
def bcs_bytes_to_hex (bytes : List Nat) (length : Nat) : List Char :=
  (bytes.take length).flatMap
    (fun b => [hex_chars ((b >>> 4) &&& 0x0F), hex_chars (b &&& 0x0F)])

/-! ## Write calls whose result code is ignored -/

/-- The write calls the transaction helpers make. -/
inductive write_op where
  | u8 (value : Nat)
  | u16 (value : Nat)
  | u64 (value : Nat)
  | uleb128 (value : Nat)
  | fixed_bytes (data : Option (List Nat)) (length : Nat)
  | string (str : Option (List Nat))
  deriving DecidableEq, Repr

/-- One write call. -/
def write_call (h : Allocator) (writer : bcs_writer_t) :
    write_op → Option (bcs_error_t × bcs_writer_t)
  | .u8 value => bcs_write_u8 h writer value
  | .u16 value => bcs_write_u16 h writer value
  | .u64 value => bcs_write_u64 h writer value
  | .uleb128 value => bcs_write_uleb128 h writer value
  | .fixed_bytes data length => bcs_write_fixed_bytes h writer data length
  | .string str => bcs_write_string h writer str

/-- A sequence of write calls made one after the other, none of whose result codes
is looked at: the writer after the last call. -/
def write_all (h : Allocator) : bcs_writer_t → List write_op → Option bcs_writer_t
  | writer, [] => some writer
  | writer, op :: ops =>
    match write_call h writer op with
    | none => none
    | some (_, writer) => write_all h writer ops

/-- The bytes a successful write call appends. -/
def write_op.bytes : write_op → List Nat
  | .u8 value => [value % 256]
  | .u16 value => le_bytes 2 value
  | .u64 value => le_bytes 8 value
  | .uleb128 value => uleb_enc (value % U64_MOD)
  | .fixed_bytes data length => (data.getD []).take length
  | .string str =>
    match str with
    | none => []
    | some s => uleb_enc (s.length % U64_MOD) ++ s

/-- A write call whose source array holds the bytes it is asked to copy. -/
def write_op.fits : write_op → Prop
  | .fixed_bytes (some d) n => n ≤ d.length
  | _ => True

instance (op : write_op) : Decidable op.fits := by
  cases op with
  | fixed_bytes data n =>
    cases data with
    | none => exact isTrue trivial
    | some d => unfold write_op.fits; infer_instance
  | u8 _ => exact isTrue trivial
  | u16 _ => exact isTrue trivial
  | u64 _ => exact isTrue trivial
  | uleb128 _ => exact isTrue trivial
  | string _ => exact isTrue trivial

/-! ## Transaction assembler -/

/-- The record `sensor_data_t`. -/
structure sensor_data_t where
  value1 : Nat
  value2 : Nat
  value3 : Nat
  value4 : Nat
  timestamp : Nat
  deriving DecidableEq, Repr

/-- The record `gas_object_t`. -/
structure gas_object_t where
  object_id : List Nat
  version : Nat
  digest : List Nat
  deriving DecidableEq, Repr

/-- The record `transaction_builder_t`; a name is `none` for a null pointer and
otherwise the bytes of the C string. -/
structure transaction_builder_t where
  package_id : List Nat
  module_name : Option (List Nat)
  function_name : Option (List Nat)
  sensor_object_id : List Nat
  sensor_initial_shared_version : Nat
  sensor_digest : List Nat
  sensor_mutable : Bool
  only_transaction_kind : Bool
  sensor_data : sensor_data_t
  sender : List Nat
  gas_object : gas_object_t
  gas_budget : Nat
  gas_price : Nat
  deriving DecidableEq, Repr

/-- The array `clock_object_id` of `sui_build_sensor_transaction`. -/
def clock_object_id : List Nat := List.replicate 31 0 ++ [0x06]

/-- The bytes of a string literal of the source. -/
def c_str (s : String) : List Nat := s.toList.map Char.toNat

/-- The write calls of `sui_build_sensor_transaction`, in source order. -/
def sensor_transaction_writes (params : transaction_builder_t) : List write_op :=
  [ .u8 0x00,
    .u8 0x00,
    .uleb128 8,
    .u8 0x00, .uleb128 8, .u64 params.sensor_data.value1,
    .u8 0x00, .uleb128 8, .u64 params.sensor_data.value2,
    .u8 0x00, .uleb128 8, .u64 params.sensor_data.value3,
    .u8 0x00, .uleb128 8, .u64 params.sensor_data.value4,
    .u8 0x00, .u8 0x0d, .uleb128 12, .fixed_bytes (some (c_str "esp32-device")) 12,
    .u8 0x00, .u8 0x05, .uleb128 4, .fixed_bytes (some (c_str "soil")) 4,
    .u8 0x00, .u8 0x01, .uleb128 0,
    .u8 0x01, .u8 0x01, .fixed_bytes (some clock_object_id) 32, .u64 1, .u8 0x00,
    .uleb128 1,
    .u8 0x00,
    .fixed_bytes (some params.package_id) 32,
    .string params.module_name,
    .string params.function_name,
    .uleb128 0,
    .uleb128 8 ] ++
  (List.range 8).flatMap (fun i => [.u8 0x01, .u16 i]) ++
  [ .fixed_bytes (some params.sender) 32,
    .uleb128 1,
    .fixed_bytes (some params.gas_object.object_id) 32,
    .u64 params.gas_object.version,
    .u8 0x20,
    .fixed_bytes (some params.gas_object.digest) 32,
    .fixed_bytes (some params.sender) 32,
    .u64 params.gas_price,
    .u64 params.gas_budget,
    .u8 0x00 ]

/-- The part "Get result" shared by the transaction helpers: take the written span,
allocate the hex string and convert. -/
def writer_to_hex (h : Allocator) (writer : bcs_writer_t) :
    bcs_error_t × Option (List Char × Nat) :=
  match bcs_writer_get_bytes writer with
  | (result_bytes, result_length) =>
    if h.grants ((result_length * 2 + 1) % SIZE_MOD) = false then
      (BCS_ERROR_OUT_OF_MEMORY, none)
    else
      (BCS_OK, some (bcs_bytes_to_hex (result_bytes.getD []) result_length,
        (result_length * 2) % SIZE_MOD))

/-- Embedding of `sui_build_sensor_transaction` with present arguments: the result
code and, when the function stored them, `*output_hex` and `*output_length`. The
result of `bcs_writer_init` is not checked by the source; a writer whose
initialisation failed is used uninitialised, which has no defined outcome
(`none`). -/
def sui_build_sensor_transaction (h : Allocator) (params : transaction_builder_t) :
    Option (bcs_error_t × Option (List Char × Nat)) :=
  match bcs_writer_init h 512 0 with
  | (BCS_OK, writer) =>
    match write_all h writer (sensor_transaction_writes params) with
    | none => none
    | some writer => some (writer_to_hex h writer)
  | _ => none

/-- Parameter records the C types admit: 32-byte arrays, 16-bit sensor values,
64-bit gas figures. -/
def params_typed (params : transaction_builder_t) : Prop :=
  params.package_id.length = 32 ∧ IsBytes params.package_id ∧
  params.sender.length = 32 ∧ IsBytes params.sender ∧
  params.gas_object.object_id.length = 32 ∧ IsBytes params.gas_object.object_id ∧
  params.gas_object.digest.length = 32 ∧ IsBytes params.gas_object.digest ∧
  params.sensor_data.value1 < 65536 ∧ params.sensor_data.value2 < 65536 ∧
  params.sensor_data.value3 < 65536 ∧ params.sensor_data.value4 < 65536 ∧
  params.gas_object.version < U64_MOD ∧ params.gas_price < U64_MOD ∧
  params.gas_budget < U64_MOD

instance (params : transaction_builder_t) : Decidable (params_typed params) := by
  unfold params_typed; infer_instance

/-- The byte sequence C7 states for a record with module name `m` and function
name `f`. -/
def sensor_transaction_layout (params : transaction_builder_t) (m f : List Nat) : List Nat :=
  [0x00, 0x00, 0x08] ++
  ([0x00, 0x08] ++ le_bytes 8 params.sensor_data.value1) ++
  ([0x00, 0x08] ++ le_bytes 8 params.sensor_data.value2) ++
  ([0x00, 0x08] ++ le_bytes 8 params.sensor_data.value3) ++
  ([0x00, 0x08] ++ le_bytes 8 params.sensor_data.value4) ++
  ([0x00, 0x0d, 0x0c] ++ c_str "esp32-device") ++
  ([0x00, 0x05, 0x04] ++ c_str "soil") ++
  [0x00, 0x01, 0x00] ++
  ([0x01, 0x01] ++ (List.replicate 31 0 ++ [0x06]) ++ le_bytes 8 1 ++ [0x00]) ++
  [0x01, 0x00] ++ params.package_id ++
  (uleb_enc m.length ++ m) ++ (uleb_enc f.length ++ f) ++
  [0x00] ++
  ([0x08] ++ (List.range 8).flatMap (fun i => 0x01 :: le_bytes 2 i)) ++
  params.sender ++
  [0x01] ++ params.gas_object.object_id ++ le_bytes 8 params.gas_object.version ++
  [0x20] ++ params.gas_object.digest ++ params.sender ++
  le_bytes 8 params.gas_price ++ le_bytes 8 params.gas_budget ++
  [0x00]

/-- The parameter record of the example in `sui_transaction.h`, with arrays filled
with sample bytes. -/
def sample_params : transaction_builder_t :=
  ⟨List.replicate 32 1, some (c_str "sensor"), some (c_str "record_reading"), [], 0, [],
    false, false, ⟨2350, 6540, 10132, 850, 1730822400⟩, List.replicate 32 2,
    ⟨List.replicate 32 3, 77, List.replicate 32 4⟩, 100000000, 1000⟩

/-! ## Transaction mutator -/

/-- The bytes found in the released temporary `old_data` when `n` bytes are copied
out of it. -/
def read_released (h : Allocator) (old_data : List Nat) (n : Nat) : List Nat :=
  (List.range n).map (fun i => h.stale old_data i % 256)

/-- The branch `input_type == 0` of the input loop of
`sui_modify_transaction_with_pure_values`, after the tag was copied: the error that
ends the loop (`BCS_OK` when the round completes), the reader, the writer and
`pure_idx` afterwards. `pures` holds the replacement payloads, each a present
array of the length `pure_lengths` states. -/
def process_pure (h : Allocator) (pures : List (List Nat)) (reader : bcs_reader_t)
    (writer : bcs_writer_t) (pure_idx : Nat) :
    Option (bcs_error_t × bcs_reader_t × bcs_writer_t × Nat) :=
  let len := bcs_read_uleb128 reader
  let old_len := len.2.2
  if len.1 ≠ BCS_OK then some (len.1, len.2.1, writer, pure_idx)
  else if h.grants (old_len % SIZE_MOD) = false then
    some (BCS_ERROR_OUT_OF_MEMORY, len.2.1, writer, pure_idx)
  else
    let old := bcs_read_bytes len.2.1 (old_len % SIZE_MOD)
    let old_data := old.2.2
    if old.1 ≠ BCS_OK then some (old.1, old.2.1, writer, pure_idx)
    else if pure_idx < pures.length then
      (write_all h writer
        [.uleb128 (pures.getD pure_idx []).length,
         .fixed_bytes (some (pures.getD pure_idx [])) (pures.getD pure_idx []).length]).bind
        fun writer => some (BCS_OK, old.2.1, writer, pure_idx + 1)
    else
      (write_all h writer
        [.uleb128 old_len,
         .fixed_bytes (some (read_released h old_data (old_len % SIZE_MOD)))
           (old_len % SIZE_MOD)]).bind
        fun writer => some (BCS_OK, old.2.1, writer, pure_idx + 1)

/-- The part of the branch `input_type == 1` that follows the object id, for the
variants 0 (`ImmOrOwnedObject`) and 2 (`Receiving`), whose code is the same: a
64-bit version and a 32-byte digest are read and written back. -/
def process_versioned_object (h : Allocator) (reader : bcs_reader_t) (writer : bcs_writer_t)
    (pure_idx : Nat) : Option (bcs_error_t × bcs_reader_t × bcs_writer_t × Nat) :=
  let version := bcs_read_u64 reader
  if version.1 ≠ BCS_OK then some (version.1, version.2.1, writer, pure_idx)
  else
    (write_all h writer [.u64 version.2.2]).bind fun writer =>
      let digest := bcs_read_bytes version.2.1 32
      if digest.1 ≠ BCS_OK then some (digest.1, digest.2.1, writer, pure_idx)
      else
        (write_all h writer [.fixed_bytes (some digest.2.2) 32]).bind fun writer =>
          some (BCS_OK, digest.2.1, writer, pure_idx)

/-- The part of the branch `input_type == 1` that follows the object id, for variant
1 (`SharedObject`): the initial shared version and the mutability byte. -/
def process_shared_object (h : Allocator) (reader : bcs_reader_t) (writer : bcs_writer_t)
    (pure_idx : Nat) : Option (bcs_error_t × bcs_reader_t × bcs_writer_t × Nat) :=
  let initial_shared_version := bcs_read_u64 reader
  if initial_shared_version.1 ≠ BCS_OK then
    some (initial_shared_version.1, initial_shared_version.2.1, writer, pure_idx)
  else
    (write_all h writer [.u64 initial_shared_version.2.2]).bind fun writer =>
      let is_mutable := bcs_read_u8 initial_shared_version.2.1
      if is_mutable.1 ≠ BCS_OK then some (is_mutable.1, is_mutable.2.1, writer, pure_idx)
      else
        (write_all h writer [.u8 is_mutable.2.2]).bind fun writer =>
          some (BCS_OK, is_mutable.2.1, writer, pure_idx)

/-- The branch `input_type == 1` of the input loop, after the tag was copied. -/
def process_object (h : Allocator) (reader : bcs_reader_t) (writer : bcs_writer_t)
    (pure_idx : Nat) : Option (bcs_error_t × bcs_reader_t × bcs_writer_t × Nat) :=
  let variant := bcs_read_u8 reader
  if variant.1 ≠ BCS_OK then some (variant.1, variant.2.1, writer, pure_idx)
  else
    (write_all h writer [.u8 variant.2.2]).bind fun writer =>
      let obj_id := bcs_read_bytes variant.2.1 32
      if obj_id.1 ≠ BCS_OK then some (obj_id.1, obj_id.2.1, writer, pure_idx)
      else
        (write_all h writer [.fixed_bytes (some obj_id.2.2) 32]).bind fun writer =>
          if variant.2.2 = 0 then process_versioned_object h obj_id.2.1 writer pure_idx
          else if variant.2.2 = 1 then process_shared_object h obj_id.2.1 writer pure_idx
          else if variant.2.2 = 2 then process_versioned_object h obj_id.2.1 writer pure_idx
          else some (BCS_OK, obj_id.2.1, writer, pure_idx)

/-- One round of the input loop of `sui_modify_transaction_with_pure_values`: the
error that ends the loop (`BCS_OK` when the round completes), the reader, the
writer and `pure_idx` afterwards. -/
def process_input (h : Allocator) (pures : List (List Nat)) (reader : bcs_reader_t)
    (writer : bcs_writer_t) (pure_idx : Nat) :
    Option (bcs_error_t × bcs_reader_t × bcs_writer_t × Nat) :=
  let input_type := bcs_read_u8 reader
  if input_type.1 ≠ BCS_OK then some (input_type.1, input_type.2.1, writer, pure_idx)
  else
    (write_all h writer [.u8 input_type.2.2]).bind fun writer =>
      if input_type.2.2 = 0 then process_pure h pures input_type.2.1 writer pure_idx
      else if input_type.2.2 = 1 then process_object h input_type.2.1 writer pure_idx
      else some (BCS_OK, input_type.2.1, writer, pure_idx)

/-- The loop `for (i = 0; i < num_inputs && success; i++)`: the first argument is the
number of rounds left. -/
def process_inputs (h : Allocator) (pures : List (List Nat)) :
    Nat → bcs_reader_t → bcs_writer_t → Nat → Option (bcs_error_t × bcs_reader_t × bcs_writer_t)
  | 0, reader, writer, _ => some (BCS_OK, reader, writer)
  | n + 1, reader, writer, pure_idx =>
    (process_input h pures reader writer pure_idx).bind fun round =>
      if round.1 ≠ BCS_OK then some (round.1, round.2.1, round.2.2.1)
      else process_inputs h pures n round.2.1 round.2.2.1 round.2.2.2

/-- The part of `sui_modify_transaction_with_pure_values` after the input loop
succeeded: copy the remaining bytes and convert the result to hex. -/
def finish_transaction (h : Allocator) (reader : bcs_reader_t) (writer : bcs_writer_t) :
    Option (bcs_error_t × Option (List Char × Nat)) :=
  let remaining := bcs_reader_remaining reader
  if remaining > 0 then
    if h.grants remaining = false then some (BCS_ERROR_OUT_OF_MEMORY, none)
    else
      let rest := bcs_read_bytes reader remaining
      if rest.1 ≠ BCS_OK then some (rest.1, none)
      else
        (write_all h writer [.fixed_bytes (some rest.2.2) remaining]).bind fun writer =>
          some (writer_to_hex h writer)
  else some (writer_to_hex h writer)

/-- The part of `sui_modify_transaction_with_pure_values` that follows the decoding
of the version byte, the kind byte and the input count. The result of
`bcs_writer_init` is not checked by the source; a writer whose initialisation
failed is used uninitialised, which has no defined outcome (`none`). -/
def rebuild_transaction (h : Allocator) (pures : List (List Nat)) (reader : bcs_reader_t)
    (version kind num_inputs : Nat) : Option (bcs_error_t × Option (List Char × Nat)) :=
  let init := bcs_writer_init h 512 0
  if init.1 ≠ BCS_OK then none
  else
    (write_all h init.2 [.u8 version, .u8 kind, .uleb128 num_inputs]).bind fun writer =>
      (process_inputs h pures num_inputs reader writer 0).bind fun loop =>
        if loop.1 ≠ BCS_OK then some (loop.1, none)
        else finish_transaction h loop.2.1 loop.2.2

/-- Embedding of `sui_modify_transaction_with_pure_values` with present arguments:
the result code and, when the function stored them, `*output_hex` and
`*output_length`. -/
def sui_modify_transaction_with_pure_values (h : Allocator) (hex_tx : List Char)
    (pures : List (List Nat)) : Option (bcs_error_t × Option (List Char × Nat)) :=
  let max_length := hex_tx.length / 2
  if h.grants max_length = false then some (BCS_ERROR_OUT_OF_MEMORY, none)
  else
    let tx := bcs_hex_to_bytes hex_tx max_length
    if tx.1 ≠ BCS_OK then some (tx.1, none)
    else
      let version := bcs_read_u8 (bcs_reader_init tx.2.1 tx.2.2)
      if version.1 ≠ BCS_OK then some (version.1, none)
      else
        let kind := bcs_read_u8 version.2.1
        if kind.1 ≠ BCS_OK then some (kind.1, none)
        else
          let num_inputs := bcs_read_uleb128 kind.2.1
          if num_inputs.1 ≠ BCS_OK then some (num_inputs.1, none)
          else rebuild_transaction h pures num_inputs.2.1 version.2.2 kind.2.2 num_inputs.2.2

/-- An input of a transaction as the Mutator tells them apart by its tag byte: a
Pure value, an Object reference with its variant byte, 32-byte id and the fixed
fields that follow, or a tag that is neither. -/
inductive tx_input where
  | pure (payload : List Nat)
  | object (variant : Nat) (id : List Nat) (fields : List Nat)
  | other (tag : Nat)
  deriving DecidableEq, Repr

/-- Number of bytes that follow the object id: an 8-byte version and a 32-byte
digest for variants 0 and 2, an 8-byte version and a flag for variant 1. -/
def object_fields_length (variant : Nat) : Nat :=
  if variant = 0 ∨ variant = 2 then 40 else if variant = 1 then 9 else 0

/-- The bytes of an input, with the canonical ULEB128 length prefix for Pure. -/
def tx_input.encode : tx_input → List Nat
  | .pure payload => 0x00 :: (uleb_enc payload.length ++ payload)
  | .object variant id fields => 0x01 :: variant :: (id ++ fields)
  | .other tag => [tag]

/-- The shape of an input: an Object has a 32-byte id and the fields of its variant,
any other tag is 2 or more. -/
def tx_input.wf : tx_input → Prop
  | .pure _ => True
  | .object variant id fields => id.length = 32 ∧ fields.length = object_fields_length variant
  | .other tag => 2 ≤ tag

/-- What the Mutator emits for a list of inputs, `pure_idx` Pure inputs having been
met before: a Pure input takes the next replacement if one is left, otherwise the
bytes found in the released temporary; every other input is kept. -/
def mutate_inputs (h : Allocator) (pures : List (List Nat)) : Nat → List tx_input → List tx_input
  | _, [] => []
  | pure_idx, .pure payload :: rest =>
    .pure (if pure_idx < pures.length then pures.getD pure_idx []
      else read_released h payload payload.length) ::
      mutate_inputs h pures (pure_idx + 1) rest
  | pure_idx, .object variant id fields :: rest =>
    .object variant id fields :: mutate_inputs h pures pure_idx rest
  | pure_idx, .other tag :: rest => .other tag :: mutate_inputs h pures pure_idx rest

/-- The value of `pure_idx` after an input. -/
def next_pure_idx (pure_idx : Nat) : tx_input → Nat
  | .pure _ => pure_idx + 1
  | _ => pure_idx

/-- The bytes of a transaction: version byte, kind byte, the canonical ULEB128 input
count, the inputs, and whatever follows them. -/
def tx_bytes (version kind : Nat) (inputs : List tx_input) (rest : List Nat) : List Nat :=
  [version, kind] ++ uleb_enc inputs.length ++ inputs.flatMap tx_input.encode ++ rest

/-- An allocator that serves every request below `2 ^ 31` bytes and overwrites a
block with `0xFE` when it is released. -/
def scrubbingAllocator : Allocator := ⟨fun n => decide (n < 2147483648), fun _ _ => 0xFE⟩

instance (x : tx_input) : Decidable x.wf := by
  cases x <;> unfold tx_input.wf <;> infer_instance

/-- The error codes a decode step of the Mutator can end with. -/
def decode_error (e : bcs_error_t) : Prop :=
  e = BCS_ERROR_BUFFER_UNDERFLOW ∨ e = BCS_ERROR_OVERFLOW ∨ e = BCS_ERROR_OUT_OF_MEMORY

instance (e : bcs_error_t) : Decidable (decode_error e) := by
  unfold decode_error; infer_instance

/-- The `k` bytes at and after the cursor all have the continuation bit `0x80` set. -/
def continuation_bytes (r : bcs_reader_t) (k : Nat) : Prop :=
  ∀ i, i < k → byte_at r (r.position + i) &&& 0x80 ≠ 0

instance (r : bcs_reader_t) (k : Nat) : Decidable (continuation_bytes r k) := by
  unfold continuation_bytes; infer_instance

instance (inc : Nat) (w : bcs_writer_t) (written : List Nat) :
    Decidable (unlimited_writer inc w written) := by
  unfold unlimited_writer; infer_instance

/-- The shape of a ULEB128 encoding `bs` of `v`: every byte but the last has the
continuation bit set, the last has it clear, and the last is zero only for `v = 0`. -/
def uleb_shape (bs : List Nat) (v : Nat) : Prop :=
  (∀ i, i + 1 < bs.length → bs.getD i 0 &&& 0x80 ≠ 0) ∧
    bs.getD (bs.length - 1) 0 &&& 0x80 = 0 ∧
    (v ≠ 0 → bs.getD (bs.length - 1) 0 ≠ 0)

/-! ## Calls of the writer API -/

/-- The calls of the writer API with their arguments. -/
inductive writer_call where
  | write_u8 (value : Nat)
  | write_u16 (value : Nat)
  | write_u32 (value : Nat)
  | write_u64 (value : Nat)
  | write_u128 (high low : Nat)
  | write_u256 (bytes : Option (List Nat))
  | write_bool (value : Bool)
  | write_uleb128 (value : Nat)
  | write_bytes (data : Option (List Nat)) (length : Nat)
  | write_string (str : Option (List Nat))
  | write_fixed_bytes (data : Option (List Nat)) (length : Nat)
  | write_vec_length (length : Nat)
  | write_option_some
  | write_option_none
  | free
  deriving DecidableEq, Repr

/-- One call of the writer API: the result code (`BCS_OK` for `bcs_writer_free`,
which returns nothing) and the writer afterwards. -/
def writer_call.run (h : Allocator) (writer : bcs_writer_t) :
    writer_call → Option (bcs_error_t × bcs_writer_t)
  | .write_u8 value => bcs_write_u8 h writer value
  | .write_u16 value => bcs_write_u16 h writer value
  | .write_u32 value => bcs_write_u32 h writer value
  | .write_u64 value => bcs_write_u64 h writer value
  | .write_u128 high low => bcs_write_u128 h writer high low
  | .write_u256 bytes => bcs_write_u256 h writer bytes
  | .write_bool value => bcs_write_bool h writer value
  | .write_uleb128 value => bcs_write_uleb128 h writer value
  | .write_bytes data length => bcs_write_bytes h writer data length
  | .write_string str => bcs_write_string h writer str
  | .write_fixed_bytes data length => bcs_write_fixed_bytes h writer data length
  | .write_vec_length length => bcs_write_vec_length h writer length
  | .write_option_some => bcs_write_option_some h writer
  | .write_option_none => bcs_write_option_none h writer
  | .free => some (BCS_OK, bcs_writer_free writer)

/-- A sequence of calls of the writer API, successful or failing, made one after
the other: the writer after the last call (`none` when a call does not return). -/
def writer_calls (h : Allocator) : bcs_writer_t → List writer_call → Option bcs_writer_t
  | writer, [] => some writer
  | writer, call :: calls =>
    match call.run h writer with
    | none => none
    | some (_, writer) => writer_calls h writer calls

/-- The bounds the writer keeps: the written length is within the capacity, and,
when `capped` is asked for, a capacity within a configured maximum stays within it. -/
def writer_bounds (capped : Prop) (w : bcs_writer_t) : Prop :=
  w.position ≤ w.capacity ∧ (capped → 0 < w.max_size → w.capacity ≤ w.max_size)

/-- The common shape of the single-step writes (`bcs_write_u8`, `_u16`, `_u32`,
`_u64` and, after its null check, `bcs_write_fixed_bytes`): the capacity check
for `n` bytes, whose error is returned, followed by the stores of `data`. -/
def capacity_then_put (h : Allocator) (writer : bcs_writer_t) (n : Nat) (data : List Nat) :
    Option (bcs_error_t × bcs_writer_t) :=
  match ensure_capacity h writer n with
  | none => none
  | some (err, writer) =>
    if err ≠ BCS_OK then some (err, writer) else some (BCS_OK, put_bytes writer data n)

/-- The character C `tolower` yields. -/
def lower_char (c : Char) : Char := Char.ofNat (tolower c)

/-- The bytes a name contributes to the assembled transaction: its ULEB128 length
and characters when it is present, nothing when it is absent (the failing
`bcs_write_string` appends nothing). -/
def name_field : Option (List Nat) → List Nat
  | none => []
  | some s => uleb_enc s.length ++ s

/-- The byte sequence of C7 with the two name fields given as they were written. -/
def sensor_transaction_layout_fields (params : transaction_builder_t)
    (module_field function_field : List Nat) : List Nat :=
  [0x00, 0x00, 0x08] ++
  ([0x00, 0x08] ++ le_bytes 8 params.sensor_data.value1) ++
  ([0x00, 0x08] ++ le_bytes 8 params.sensor_data.value2) ++
  ([0x00, 0x08] ++ le_bytes 8 params.sensor_data.value3) ++
  ([0x00, 0x08] ++ le_bytes 8 params.sensor_data.value4) ++
  ([0x00, 0x0d, 0x0c] ++ c_str "esp32-device") ++
  ([0x00, 0x05, 0x04] ++ c_str "soil") ++
  [0x00, 0x01, 0x00] ++
  ([0x01, 0x01] ++ (List.replicate 31 0 ++ [0x06]) ++ le_bytes 8 1 ++ [0x00]) ++
  [0x01, 0x00] ++ params.package_id ++
  module_field ++ function_field ++
  [0x00] ++
  ([0x08] ++ (List.range 8).flatMap (fun i => 0x01 :: le_bytes 2 i)) ++
  params.sender ++
  [0x01] ++ params.gas_object.object_id ++ le_bytes 8 params.gas_object.version ++
  [0x20] ++ params.gas_object.digest ++ params.sender ++
  le_bytes 8 params.gas_price ++ le_bytes 8 params.gas_budget ++
  [0x00]

/-- The loop `for (i = 0; i < 8; i++) bytes[i] = (x >> (i * 8)) & 0xFF` of
`sui_modify_transaction_with_sensor_data`. -/
def sensor_value_bytes (x : Nat) : List Nat :=
  (List.range 8).map (fun i => (x >>> (i * 8)) &&& 0xFF)

/-- Embedding of `sui_modify_transaction_with_sensor_data`; `sensor_data = none` is
a null pointer. The arrays are filled from `value1`, `value2`, `value4`,
`value3` and `timestamp`, in this order, as in the source. -/
def sui_modify_transaction_with_sensor_data (h : Allocator) (hex_tx : List Char)
    (sensor_data : Option sensor_data_t) : Option (bcs_error_t × Option (List Char × Nat)) :=
  match sensor_data with
  | none => some (BCS_ERROR_INVALID_INPUT, none)
  | some data =>
    let temperature_bytes := sensor_value_bytes data.value1
    let humidity_bytes := sensor_value_bytes data.value2
    let ec_bytes := sensor_value_bytes data.value4
    let ph_bytes := sensor_value_bytes data.value3
    let timestamp_bytes := sensor_value_bytes data.timestamp
    sui_modify_transaction_with_pure_values h hex_tx
      [temperature_bytes, humidity_bytes, ec_bytes, ph_bytes, timestamp_bytes]

/-- A sensor record the C type admits: 16-bit readings and a 64-bit timestamp. -/
def sensor_data_typed (data : sensor_data_t) : Prop :=
  data.value1 < 65536 ∧ data.value2 < 65536 ∧ data.value3 < 65536 ∧ data.value4 < 65536 ∧
    data.timestamp < U64_MOD

instance (data : sensor_data_t) : Decidable (sensor_data_typed data) := by
  unfold sensor_data_typed; infer_instance

/-- An allocator that serves every request below `2 ^ 31` bytes and whose released
blocks do not keep their contents: a byte read back from a released block is the
byte that was stored plus one. -/
def driftingAllocator : Allocator :=
  ⟨fun n => decide (n < 2147483648), fun d i => d.getD i 0 + 1⟩

/-- The hex characters of the first four inputs of a transaction whose inputs are
ten bytes each (a Pure tag, the length 8 and an 8-byte payload): the 40 bytes
after the version byte, the kind byte and the one-byte input count. -/
def first_four_inputs_hex (hex_tx : List Char) : List Char := (hex_tx.drop 6).take 80

/-- The hex characters of the fifth, sixth and seventh input of a transaction that
`sui_build_sensor_transaction` lays out: the 25 bytes of the three text inputs. -/
def text_inputs_hex (hex_tx : List Char) : List Char := (hex_tx.drop 86).take 50

/-- A terminated ULEB128 byte run: every byte but the last has the continuation
bit set and the last has it clear. -/
def uleb_terminated : List Nat → Prop
  | [] => False
  | [b] => b &&& 0x80 = 0
  | b :: c :: bs => b &&& 0x80 ≠ 0 ∧ uleb_terminated (c :: bs)

/-- The value a ULEB128 byte run encodes: the sum of `(b_i & 0x7F) * 2 ^ (7 i)`. -/
def uleb_value : List Nat → Nat
  | [] => 0
  | b :: bs => b % 128 + 128 * uleb_value bs

/-- The input `y` agrees with the input `x` outside a Pure payload: a Pure input is
matched by a Pure input whose payload has the same length (so the same length
prefix; the payload bytes are not compared), every other input by itself. -/
def tx_input.same_frame : tx_input → tx_input → Prop
  | .pure p, .pure q => q.length = p.length
  | .pure _, _ => False
  | .object variant id fields, y => y = .object variant id fields
  | .other tag, y => y = .other tag

/-- The decode steps of the branch `input_type == 0` of
`sui_modify_transaction_with_pure_values`, in their order in the source and without
the writer: the length prefix, the request for the temporary of that length, the
payload. Result: the error of the first step that fails (`BCS_OK` when none does)
and the reader afterwards. -/
def decode_pure (h : Allocator) (reader : bcs_reader_t) : bcs_error_t × bcs_reader_t :=
  let len := bcs_read_uleb128 reader
  if len.1 ≠ BCS_OK then (len.1, len.2.1)
  else if h.grants (len.2.2 % SIZE_MOD) = false then (BCS_ERROR_OUT_OF_MEMORY, len.2.1)
  else
    let old := bcs_read_bytes len.2.1 (len.2.2 % SIZE_MOD)
    (old.1, old.2.1)

/-- The decode steps that follow the object id for the variants 0 and 2: the 64-bit
version and the 32-byte digest. -/
def decode_versioned_object (reader : bcs_reader_t) : bcs_error_t × bcs_reader_t :=
  let version := bcs_read_u64 reader
  if version.1 ≠ BCS_OK then (version.1, version.2.1)
  else
    let digest := bcs_read_bytes version.2.1 32
    (digest.1, digest.2.1)

/-- The decode steps that follow the object id for variant 1: the initial shared
version and the mutability byte. -/
def decode_shared_object (reader : bcs_reader_t) : bcs_error_t × bcs_reader_t :=
  let initial_shared_version := bcs_read_u64 reader
  if initial_shared_version.1 ≠ BCS_OK then
    (initial_shared_version.1, initial_shared_version.2.1)
  else
    let is_mutable := bcs_read_u8 initial_shared_version.2.1
    (is_mutable.1, is_mutable.2.1)

/-- The decode steps of the branch `input_type == 1`: the variant byte, the 32-byte
object id, and the fields of the variants 0, 1 and 2. -/
def decode_object (reader : bcs_reader_t) : bcs_error_t × bcs_reader_t :=
  let variant := bcs_read_u8 reader
  if variant.1 ≠ BCS_OK then (variant.1, variant.2.1)
  else
    let obj_id := bcs_read_bytes variant.2.1 32
    if obj_id.1 ≠ BCS_OK then (obj_id.1, obj_id.2.1)
    else if variant.2.2 = 0 then decode_versioned_object obj_id.2.1
    else if variant.2.2 = 1 then decode_shared_object obj_id.2.1
    else if variant.2.2 = 2 then decode_versioned_object obj_id.2.1
    else (BCS_OK, obj_id.2.1)

/-- The decode steps of one round of the input loop: the tag byte, then the steps of
a Pure input (tag 0) or of an Object input (tag 1); any other tag has no further
step. -/
def decode_input (h : Allocator) (reader : bcs_reader_t) : bcs_error_t × bcs_reader_t :=
  let input_type := bcs_read_u8 reader
  if input_type.1 ≠ BCS_OK then (input_type.1, input_type.2.1)
  else if input_type.2.2 = 0 then decode_pure h input_type.2.1
  else if input_type.2.2 = 1 then decode_object input_type.2.1
  else (BCS_OK, input_type.2.1)

/-- The decode steps of the declared inputs, one after the other, up to the first
that fails; the first argument is the number of inputs still to decode. -/
def decode_inputs (h : Allocator) : Nat → bcs_reader_t → bcs_error_t × bcs_reader_t
  | 0, reader => (BCS_OK, reader)
  | n + 1, reader =>
    if (decode_input h reader).1 ≠ BCS_OK then decode_input h reader
    else decode_inputs h n (decode_input h reader).2

/-- The error of the first failing decode step of
`sui_modify_transaction_with_pure_values` on the hex string `hex_tx`, `BCS_OK` when
every step succeeds: the hex decoding, the version byte, the kind byte, the input
count, and the steps of as many inputs as the count declares. -/
def decode_transaction (h : Allocator) (hex_tx : List Char) : bcs_error_t :=
  let tx := bcs_hex_to_bytes hex_tx (hex_tx.length / 2)
  if tx.1 ≠ BCS_OK then tx.1
  else
    let version := bcs_read_u8 (bcs_reader_init tx.2.1 tx.2.2)
    if version.1 ≠ BCS_OK then version.1
    else
      let kind := bcs_read_u8 version.2.1
      if kind.1 ≠ BCS_OK then kind.1
      else
        let num_inputs := bcs_read_uleb128 kind.2.1
        if num_inputs.1 ≠ BCS_OK then num_inputs.1
        else (decode_inputs h num_inputs.2.2 num_inputs.2.1).1

/-- An allocator state in which a block of exactly 1024 bytes cannot be had, every
other request is served, and released blocks keep their bytes. -/
def fragmentedAllocator : Allocator := ⟨fun n => decide (n ≠ 1024), fun d i => d.getD i 0⟩

/-! ## Arithmetic of bytes -/

theorem or_shl (a b k : Nat) (ha : a < 2 ^ k) : a ||| (b <<< k) = a + b * 2 ^ k := by
  rw [Nat.shiftLeft_eq, Nat.or_comm, Nat.mul_comm b, ← Nat.mul_add_lt_is_or ha]
  omega

theorem le_value_append (l : List Nat) (b : Nat) :
    le_value (l ++ [b]) = le_value l + 256 ^ l.length * b := by
  induction l with
  | nil => simp [le_value]
  | cons a l ih => simp [le_value, ih, pow_succ]; ring

theorem le_value_lt (l : List Nat) (h : IsBytes l) : le_value l < 256 ^ l.length := by
  induction l with
  | nil => simp [le_value]
  | cons a l ih =>
    have ha : a < 256 := h a (by simp)
    have hl := ih (fun b hb => h b (by simp [hb]))
    simp only [le_value, List.length_cons, pow_succ]
    omega

theorem take_drop_eq_map (l : List Nat) (p n : Nat) (h : p + n ≤ l.length) :
    (l.drop p).take n = (List.range n).map (fun i => l.getD (p + i) 0) := by
  apply List.ext_getElem
  · simp; omega
  · intro i h1 h2
    simp at h1 h2
    have h3 : p + i < l.length := by omega
    simp [List.getD_eq_getElem?_getD, List.getElem?_eq_getElem h3]

theorem le_fold (f : Nat → Nat) (hf : ∀ i, f i < 256) (n : Nat) :
    (List.range n).foldl (fun v i => v ||| (f i <<< (i * 8))) 0
      = le_value ((List.range n).map f) := by
  induction n with
  | zero => simp [le_value]
  | succ n ih =>
    rw [List.range_succ, List.foldl_append, List.map_append, ih]
    simp only [List.foldl_cons, List.foldl_nil, List.map_cons, List.map_nil]
    have h256 : (256 : Nat) ^ n = 2 ^ (n * 8) := by
      rw [Nat.mul_comm, pow_mul]; norm_num
    rw [le_value_append, or_shl]
    · simp [h256, Nat.mul_comm]
    · have := le_value_lt ((List.range n).map f) (by intro b hb; simp at hb; obtain ⟨i, _, rfl⟩ := hb; exact hf i)
      simpa [h256] using this

/-! ## Properties of the reader -/

theorem reader_kept_refl (r : bcs_reader_t) (h : r.position ≤ r.length) : reader_kept r r :=
  ⟨rfl, rfl, h⟩

theorem reader_kept_trans {r1 r2 r3 : bcs_reader_t} (h12 : reader_kept r1 r2)
    (h23 : reader_kept r2 r3) : reader_kept r1 r3 :=
  ⟨h23.1.trans h12.1, h23.2.1.trans h12.2.1, h23.2.2⟩

theorem bcs_read_u8_kept (r : bcs_reader_t) (h : r.position ≤ r.length) :
    reader_kept r (bcs_read_u8 r).2.1 := by
  unfold bcs_read_u8
  split
  · exact reader_kept_refl r h
  · refine ⟨rfl, rfl, ?_⟩
    simp only
    omega

theorem bcs_read_u16_kept (r : bcs_reader_t) (h : r.position ≤ r.length) :
    reader_kept r (bcs_read_u16 r).2.1 := by
  unfold bcs_read_u16
  split
  · exact reader_kept_refl r h
  · refine ⟨rfl, rfl, ?_⟩
    simp only
    omega

theorem bcs_read_u32_kept (r : bcs_reader_t) (h : r.position ≤ r.length) :
    reader_kept r (bcs_read_u32 r).2.1 := by
  unfold bcs_read_u32
  split
  · exact reader_kept_refl r h
  · refine ⟨rfl, rfl, ?_⟩
    simp only
    omega

theorem bcs_read_u64_kept (r : bcs_reader_t) (h : r.position ≤ r.length) :
    reader_kept r (bcs_read_u64 r).2.1 := by
  unfold bcs_read_u64
  split
  · exact reader_kept_refl r h
  · refine ⟨rfl, rfl, ?_⟩
    simp only
    omega

theorem bcs_read_bytes_kept (r : bcs_reader_t) (n : Nat) (h : r.position ≤ r.length) :
    reader_kept r (bcs_read_bytes r n).2.1 := by
  unfold bcs_read_bytes
  split
  · exact reader_kept_refl r h
  · refine ⟨rfl, rfl, ?_⟩
    simp only
    omega

theorem bcs_read_u128_kept (r : bcs_reader_t) (h : r.position ≤ r.length) :
    reader_kept r (bcs_read_u128 r).2.1 := by
  have h1 := bcs_read_u64_kept r h
  have h2 := bcs_read_u64_kept (bcs_read_u64 r).2.1 h1.2.2
  unfold bcs_read_u128
  simp only
  split
  · exact h1
  · split
    · exact reader_kept_trans h1 h2
    · exact reader_kept_trans h1 h2

theorem bcs_read_bool_kept (r : bcs_reader_t) (h : r.position ≤ r.length) :
    reader_kept r (bcs_read_bool r).2.1 := by
  have h1 := bcs_read_u8_kept r h
  unfold bcs_read_bool
  simp only
  split
  · exact h1
  · split <;> exact h1

theorem bcs_read_option_tag_kept (r : bcs_reader_t) (h : r.position ≤ r.length) :
    reader_kept r (bcs_read_option_tag r).2.1 := by
  have h1 := bcs_read_u8_kept r h
  unfold bcs_read_option_tag
  simp only
  split
  · exact h1
  · split <;> exact h1

theorem bcs_read_uleb128_loop_kept (fuel : Nat) :
    ∀ (r : bcs_reader_t) (value shift : Nat), r.position ≤ r.length →
      reader_kept r (bcs_read_uleb128_loop fuel r value shift).2.1 := by
  induction fuel with
  | zero => intro r value shift h; exact reader_kept_refl r h
  | succ fuel ih =>
    intro r value shift h
    unfold bcs_read_uleb128_loop
    split
    · exact reader_kept_refl r h
    · rename_i hlt
      have hstep : reader_kept r { r with position := r.position + 1 } := by
        refine ⟨rfl, rfl, ?_⟩
        simp only
        omega
      simp only
      split
      · exact hstep
      · split
        · exact hstep
        · exact reader_kept_trans hstep (ih _ _ _ hstep.2.2)

theorem bcs_read_uleb128_kept (r : bcs_reader_t) (h : r.position ≤ r.length) :
    reader_kept r (bcs_read_uleb128 r).2.1 :=
  bcs_read_uleb128_loop_kept 10 r 0 0 h

theorem bcs_read_vec_length_kept (r : bcs_reader_t) (h : r.position ≤ r.length) :
    reader_kept r (bcs_read_vec_length r).2.1 := by
  have h1 := bcs_read_uleb128_kept r h
  unfold bcs_read_vec_length
  simp only
  split <;> exact h1

theorem bcs_read_string_kept (r : bcs_reader_t) (m : Nat) (h : r.position ≤ r.length) :
    reader_kept r (bcs_read_string r m).2.1 := by
  have h1 := bcs_read_uleb128_kept r h
  have h2 := fun n => bcs_read_bytes_kept (bcs_read_uleb128 r).2.1 n h1.2.2
  unfold bcs_read_string
  simp only
  split
  · exact h1
  · split
    · exact h1
    · split <;> exact reader_kept_trans h1 (h2 _)

theorem read_call_kept (r : bcs_reader_t) (op : read_op) (h : r.position ≤ r.length) :
    reader_kept r (read_call r op).2 := by
  cases op with
  | u8 => exact bcs_read_u8_kept r h
  | u16 => exact bcs_read_u16_kept r h
  | u32 => exact bcs_read_u32_kept r h
  | u64 => exact bcs_read_u64_kept r h
  | u128 => exact bcs_read_u128_kept r h
  | u256 => exact bcs_read_bytes_kept r 32 h
  | bool => exact bcs_read_bool_kept r h
  | uleb128 => exact bcs_read_uleb128_kept r h
  | vec_length => exact bcs_read_vec_length_kept r h
  | option_tag => exact bcs_read_option_tag_kept r h
  | bytes n => exact bcs_read_bytes_kept r n h
  | string m => exact bcs_read_string_kept r m h

theorem read_calls_kept (ops : List read_op) :
    ∀ r : bcs_reader_t, r.position ≤ r.length → reader_kept r (read_calls r ops) := by
  induction ops with
  | nil => intro r h; exact reader_kept_refl r h
  | cons op ops ih =>
    intro r h
    have h1 := read_call_kept r op h
    exact reader_kept_trans h1 (ih _ h1.2.2)

/-- C9. Reader cursor invariant: starting from `bcs_reader_init` on any sequence and
declared length, after any finite sequence of read calls with any arguments,
successful or not, the cursor is at most the length, and the borrowed sequence
and the length are those given at initialisation. Every prefix of a sequence of
calls is itself such a sequence, so this holds after every call. -/
theorem reader_cursor_invariant (buffer : List Nat) (length : Nat) (ops : List read_op) :
    (read_calls (bcs_reader_init buffer length) ops).position ≤
        (read_calls (bcs_reader_init buffer length) ops).length ∧
      (read_calls (bcs_reader_init buffer length) ops).buffer = buffer ∧
      (read_calls (bcs_reader_init buffer length) ops).length = length := by
  have h := read_calls_kept ops (bcs_reader_init buffer length) (Nat.zero_le _)
  exact ⟨h.2.2, h.1, h.2.1⟩


theorem bcs_read_uleb128_loop_ahead (fuel : Nat) :
    ∀ (r : bcs_reader_t) (value shift : Nat),
      r.position ≤ (bcs_read_uleb128_loop fuel r value shift).2.1.position := by
  induction fuel with
  | zero => intro r value shift; exact Nat.le_refl _
  | succ fuel ih =>
    intro r value shift
    unfold bcs_read_uleb128_loop
    split
    · exact Nat.le_refl _
    · simp only
      split
      · simp
      · split
        · simp
        · exact Nat.le_trans (Nat.le_succ _) (ih { r with position := r.position + 1 } _ _)

theorem bcs_read_bytes_err (r : bcs_reader_t) (n : Nat)
    (h : (bcs_read_bytes r n).1 ≠ BCS_OK) : (bcs_read_bytes r n).2.1 = r := by
  unfold bcs_read_bytes at h ⊢
  split <;> simp_all

/-- C8 fails as stated: `bcs_read_bool` on the one-byte sequence `[0x02]` returns
`BCS_ERROR_INVALID_INPUT` and leaves the cursor at 1, not at 0 where it was. -/
theorem failed_read_bool_moves_cursor :
    (⟨[2], 1, 0⟩ : bcs_reader_t).position ≤ (⟨[2], 1, 0⟩ : bcs_reader_t).length ∧
      (read_call ⟨[2], 1, 0⟩ read_op.bool).1 = BCS_ERROR_INVALID_INPUT ∧
      (read_call ⟨[2], 1, 0⟩ read_op.bool).2.position = 1 ∧
      (read_call ⟨[2], 1, 0⟩ read_op.bool).2.position ≠ (⟨[2], 1, 0⟩ : bcs_reader_t).position := by
  decide

theorem byte_at_lt (r : bcs_reader_t) (hb : IsBytes r.buffer) (i : Nat) : byte_at r i < 256 := by
  unfold byte_at
  by_cases h : i < r.buffer.length
  · rw [List.getD_eq_getElem _ _ h]; exact hb _ (List.getElem_mem _)
  · rw [List.getD_eq_default _ _ (by omega)]; omega

theorem bytes_ahead_eq (r : bcs_reader_t) (n : Nat) (h : r.position + n ≤ r.buffer.length) :
    bytes_ahead r n = (List.range n).map (fun i => byte_at r (r.position + i)) := by
  unfold bytes_ahead byte_at
  exact take_drop_eq_map _ _ _ h

theorem bcs_reader_remaining_lt (r : bcs_reader_t) (n : Nat) (hn : 0 < n)
    (hpos : r.position ≤ r.length) :
    bcs_reader_remaining r < n ↔ r.position + n > r.length := by
  unfold bcs_reader_remaining
  split <;> omega

/-- C10. Fixed-width reads underflow exactly when bytes are missing: on a reader state
with cursor at most the length, `bcs_read_u8`, `_u16`, `_u32`, `_u64` return
`BCS_ERROR_BUFFER_UNDERFLOW` if and only if fewer than 1, 2, 4, 8 bytes remain;
otherwise they return `BCS_OK`, advance the cursor by exactly that width and yield
the little-endian value of the bytes at the old cursor. -/
theorem fixed_width_read_underflow_iff (r : bcs_reader_t) (hpos : r.position ≤ r.length)
    (hfit : reader_fits r) :
    (((bcs_read_u8 r).1 = BCS_ERROR_BUFFER_UNDERFLOW ↔ bcs_reader_remaining r < 1) ∧
      (¬ bcs_reader_remaining r < 1 → bcs_read_u8 r =
        (BCS_OK, { r with position := r.position + 1 }, le_value (bytes_ahead r 1)))) ∧
    (((bcs_read_u16 r).1 = BCS_ERROR_BUFFER_UNDERFLOW ↔ bcs_reader_remaining r < 2) ∧
      (¬ bcs_reader_remaining r < 2 → bcs_read_u16 r =
        (BCS_OK, { r with position := r.position + 2 }, le_value (bytes_ahead r 2)))) ∧
    (((bcs_read_u32 r).1 = BCS_ERROR_BUFFER_UNDERFLOW ↔ bcs_reader_remaining r < 4) ∧
      (¬ bcs_reader_remaining r < 4 → bcs_read_u32 r =
        (BCS_OK, { r with position := r.position + 4 }, le_value (bytes_ahead r 4)))) ∧
    (((bcs_read_u64 r).1 = BCS_ERROR_BUFFER_UNDERFLOW ↔ bcs_reader_remaining r < 8) ∧
      (¬ bcs_reader_remaining r < 8 → bcs_read_u64 r =
        (BCS_OK, { r with position := r.position + 8 }, le_value (bytes_ahead r 8)))) := by
  obtain ⟨hlen, hb, hsz⟩ := hfit
  have hS : SIZE_MOD = 4294967296 := rfl
  have hlt := byte_at_lt r hb
  have b0 := hlt r.position
  have b1 := hlt (r.position + 1)
  have b2 := hlt (r.position + 2)
  have b3 := hlt (r.position + 3)
  have hm : ∀ n, n ≤ 8 → (r.position + n) % SIZE_MOD = r.position + n := by
    intro n hn; apply Nat.mod_eq_of_lt; omega
  refine ⟨⟨?_, ?_⟩, ⟨?_, ?_⟩, ⟨?_, ?_⟩, ⟨?_, ?_⟩⟩
  · rw [bcs_reader_remaining_lt r 1 (by omega) hpos]
    unfold bcs_read_u8
    split <;> simp <;> omega
  · rw [bcs_reader_remaining_lt r 1 (by omega) hpos]
    intro h
    rw [bytes_ahead_eq r 1 (by omega)]
    unfold bcs_read_u8
    rw [if_neg (by omega)]
    simp [le_value]
  · rw [bcs_reader_remaining_lt r 2 (by omega) hpos]
    unfold bcs_read_u16
    rw [hm 2 (by omega)]
    split <;> simp <;> omega
  · rw [bcs_reader_remaining_lt r 2 (by omega) hpos]
    intro h
    rw [bytes_ahead_eq r 2 (by omega)]
    unfold bcs_read_u16
    rw [hm 2 (by omega), if_neg (by omega)]
    simp only [List.range, List.range.loop, List.map_cons, List.map_nil, le_value, Nat.add_zero]
    rw [or_shl _ _ 8 (by omega)]
    simp only [Prod.mk.injEq, true_and]
    omega
  · rw [bcs_reader_remaining_lt r 4 (by omega) hpos]
    unfold bcs_read_u32
    rw [hm 4 (by omega)]
    split <;> simp <;> omega
  · rw [bcs_reader_remaining_lt r 4 (by omega) hpos]
    intro h
    rw [bytes_ahead_eq r 4 (by omega)]
    unfold bcs_read_u32
    rw [hm 4 (by omega), if_neg (by omega)]
    simp only [List.range, List.range.loop, List.map_cons, List.map_nil, le_value, Nat.add_zero]
    rw [or_shl _ _ 8 (by omega), or_shl _ _ 16 (by omega), or_shl _ _ 24 (by omega)]
    simp only [Prod.mk.injEq, true_and]
    omega
  · rw [bcs_reader_remaining_lt r 8 (by omega) hpos]
    unfold bcs_read_u64
    rw [hm 8 (by omega)]
    split <;> simp <;> omega
  · rw [bcs_reader_remaining_lt r 8 (by omega) hpos]
    intro h
    rw [bytes_ahead_eq r 8 (by omega)]
    unfold bcs_read_u64
    rw [hm 8 (by omega), if_neg (by omega)]
    rw [le_fold (fun i => byte_at r (r.position + i)) (fun i => hlt _) 8]

theorem fixed_width_read_underflow_iff_witness :
    reader_fits ⟨[0x34, 0x12], 2, 0⟩ ∧ bcs_read_u16 ⟨[0x34, 0x12], 2, 0⟩ = (BCS_OK, ⟨[0x34, 0x12], 2, 2⟩, 0x1234) :=
  ⟨by decide, by
    have h := (fixed_width_read_underflow_iff ⟨[0x34, 0x12], 2, 0⟩ (by decide) (by decide)).2.1.2
      (by decide)
    simpa [bytes_ahead, le_value] using h⟩

theorem grow_capacity_ok (inc req : Nat) (hinc : 0 < inc) (hreq : req + inc ≤ SIZE_MOD) :
    ∀ fuel nc, req - nc < fuel → nc ≤ req + inc →
      ∃ r, grow_capacity fuel nc req inc = some r ∧ req ≤ r ∧ nc ≤ r ∧ r ≤ req + inc := by
  intro fuel
  induction fuel with
  | zero => intro nc h; omega
  | succ fuel ih =>
    intro nc h hle
    unfold grow_capacity
    split
    · rename_i hlt
      have hm : (nc + inc) % SIZE_MOD = nc + inc := Nat.mod_eq_of_lt (by omega)
      rw [hm]
      obtain ⟨r, h1, h2, h3, h4⟩ := ih (nc + inc) (by omega) (by omega)
      exact ⟨r, h1, h2, by omega, h4⟩
    · exact ⟨nc, rfl, by omega, Nat.le_refl _, hle⟩

theorem ensure_capacity_ok (h : Allocator) (inc bound : Nat) (w : bcs_writer_t) (b : List Nat)
    (n : Nat) (hw : unlimited_writer inc w b) (hg : grants_below h bound)
    (hb : bound ≤ SIZE_MOD) (hsz : b.length + n + inc < bound) :
    ∃ w1, ensure_capacity h w n = some (BCS_OK, w1) ∧ w1.buffer = some b ∧
      w1.position = w.position ∧ w1.max_size = 0 ∧ w1.allocate_size = inc ∧
      w.position + n ≤ w1.capacity ∧ w1.capacity ≤ w.position + n + inc := by
  obtain ⟨hbuf, hlen, hmax, hinc, hpos, hcap1, hcap2⟩ := hw
  have hm : (w.position + n) % SIZE_MOD = w.position + n := Nat.mod_eq_of_lt (by omega)
  unfold ensure_capacity
  simp only [hm]
  split
  · exact ⟨w, rfl, hbuf, rfl, hmax, hinc, by omega, by omega⟩
  · rename_i hgt
    rw [if_neg (by omega)]
    obtain ⟨r, h1, h2, h3, h4⟩ := grow_capacity_ok inc (w.position + n) hpos (by omega)
      SIZE_MOD w.capacity (by omega) (by omega)
    rw [hinc, h1]
    simp only [hmax, Nat.lt_irrefl, false_and, if_false]
    rw [if_neg (by omega), hg r (by omega)]
    simp only [if_true]
    exact ⟨_, rfl, by simp [hbuf], rfl, rfl, rfl, h2, h4⟩

theorem put_bytes_ok (inc bound : Nat) (w w1 : bcs_writer_t) (b d : List Nat)
    (hb : bound ≤ SIZE_MOD) (hsz : b.length + d.length + inc < bound)
    (hlen : b.length = w.position) (hinc : 0 < inc)
    (h1 : w1.buffer = some b ∧ w1.position = w.position ∧ w1.max_size = 0 ∧
      w1.allocate_size = inc ∧ w.position + d.length ≤ w1.capacity ∧
      w1.capacity ≤ w.position + d.length + inc) :
    unlimited_writer inc (put_bytes w1 d d.length) (b ++ d) := by
  obtain ⟨hbuf, hp, hmax, hi, hc1, hc2⟩ := h1
  have hm : (w1.position + d.length) % SIZE_MOD = w1.position + d.length :=
    Nat.mod_eq_of_lt (by omega)
  unfold put_bytes unlimited_writer
  simp only [hbuf, hm, Option.map_some', List.length_append, true_and]
  omega

/-- Writing `n` stored bytes through the capacity check succeeds on an unlimited
writer whose allocator serves the sizes involved. -/
theorem bcs_write_fixed_bytes_ok (h : Allocator) (inc bound : Nat) (w : bcs_writer_t)
    (b d : List Nat) (hw : unlimited_writer inc w b) (hg : grants_below h bound)
    (hb : bound ≤ SIZE_MOD) (hsz : b.length + d.length + inc < bound) :
    ∃ w2, bcs_write_fixed_bytes h w (some d) d.length = some (BCS_OK, w2) ∧
      unlimited_writer inc w2 (b ++ d) := by
  obtain ⟨w1, he, h1⟩ := ensure_capacity_ok h inc bound w b d.length hw hg hb hsz
  refine ⟨put_bytes w1 d d.length, ?_, put_bytes_ok inc bound w w1 b d hb hsz hw.2.1 hw.2.2.2.2.1 h1⟩
  unfold bcs_write_fixed_bytes
  simp [he]

theorem bcs_write_u8_ok (h : Allocator) (inc bound : Nat) (w : bcs_writer_t)
    (b : List Nat) (v : Nat) (hw : unlimited_writer inc w b) (hg : grants_below h bound)
    (hb : bound ≤ SIZE_MOD) (hsz : b.length + 1 + inc < bound) :
    ∃ w2, bcs_write_u8 h w v = some (BCS_OK, w2) ∧
      unlimited_writer inc w2 (b ++ [v % 256]) := by
  obtain ⟨w1, he, h1⟩ := ensure_capacity_ok h inc bound w b 1 hw hg hb hsz
  refine ⟨put_bytes w1 [v % 256] 1, ?_,
    put_bytes_ok inc bound w w1 b [v % 256] hb hsz hw.2.1 hw.2.2.2.2.1 h1⟩
  unfold bcs_write_u8
  simp [he]

theorem bcs_write_u16_ok (h : Allocator) (inc bound : Nat) (w : bcs_writer_t)
    (b : List Nat) (v : Nat) (hw : unlimited_writer inc w b) (hg : grants_below h bound)
    (hb : bound ≤ SIZE_MOD) (hsz : b.length + 2 + inc < bound) :
    ∃ w2, bcs_write_u16 h w v = some (BCS_OK, w2) ∧
      unlimited_writer inc w2 (b ++ le_bytes 2 v) := by
  obtain ⟨w1, he, h1⟩ := ensure_capacity_ok h inc bound w b 2 hw hg hb hsz
  refine ⟨put_bytes w1 (le_bytes 2 v) 2, ?_,
    put_bytes_ok inc bound w w1 b (le_bytes 2 v) hb hsz hw.2.1 hw.2.2.2.2.1 h1⟩
  unfold bcs_write_u16
  simp [he, le_bytes, List.range, List.range.loop]

theorem bcs_write_u32_ok (h : Allocator) (inc bound : Nat) (w : bcs_writer_t)
    (b : List Nat) (v : Nat) (hw : unlimited_writer inc w b) (hg : grants_below h bound)
    (hb : bound ≤ SIZE_MOD) (hsz : b.length + 4 + inc < bound) :
    ∃ w2, bcs_write_u32 h w v = some (BCS_OK, w2) ∧
      unlimited_writer inc w2 (b ++ le_bytes 4 v) := by
  obtain ⟨w1, he, h1⟩ := ensure_capacity_ok h inc bound w b 4 hw hg hb hsz
  refine ⟨put_bytes w1 (le_bytes 4 v) 4, ?_,
    put_bytes_ok inc bound w w1 b (le_bytes 4 v) hb hsz hw.2.1 hw.2.2.2.2.1 h1⟩
  unfold bcs_write_u32
  simp [he, le_bytes, List.range, List.range.loop]

theorem bcs_write_u64_ok (h : Allocator) (inc bound : Nat) (w : bcs_writer_t)
    (b : List Nat) (v : Nat) (hw : unlimited_writer inc w b) (hg : grants_below h bound)
    (hb : bound ≤ SIZE_MOD) (hsz : b.length + 8 + inc < bound) :
    ∃ w2, bcs_write_u64 h w v = some (BCS_OK, w2) ∧
      unlimited_writer inc w2 (b ++ le_bytes 8 v) := by
  obtain ⟨w1, he, h1⟩ := ensure_capacity_ok h inc bound w b 8 hw hg hb hsz
  refine ⟨put_bytes w1 (le_bytes 8 v) 8, ?_,
    put_bytes_ok inc bound w w1 b (le_bytes 8 v) hb hsz hw.2.1 hw.2.2.2.2.1 h1⟩
  unfold bcs_write_u64
  simp [he, le_bytes]

theorem bcs_writer_init_ok (h : Allocator) (cap bound : Nat) (hcap : 0 < cap)
    (hg : grants_below h bound) (hlt : cap < bound) :
    bcs_writer_init h cap 0 = (BCS_OK, ⟨some [], cap, 0, 0, cap⟩) ∧
      unlimited_writer cap ⟨some [], cap, 0, 0, cap⟩ [] := by
  unfold bcs_writer_init
  rw [if_neg (by omega), hg cap hlt]
  simp [unlimited_writer, hcap]

theorem uleb_enc_aux_fuel : ∀ (fuel1 fuel2 v : Nat), v ≤ fuel1 → v ≤ fuel2 →
    uleb_enc_aux fuel1 v = uleb_enc_aux fuel2 v := by
  intro fuel1
  induction fuel1 with
  | zero =>
    intro fuel2 v h1 h2
    have : v = 0 := by omega
    subst this
    cases fuel2 <;> simp [uleb_enc_aux]
  | succ f1 ih =>
    intro fuel2 v h1 h2
    cases fuel2 with
    | zero =>
      have : v = 0 := by omega
      subst this
      simp [uleb_enc_aux]
    | succ f2 =>
      simp only [uleb_enc_aux]
      split
      · rfl
      · rw [ih f2 (v / 128) (by omega) (by omega)]

theorem uleb_enc_eq (v : Nat) :
    uleb_enc v = if v < 128 then [v] else (v % 128 + 128) :: uleb_enc (v / 128) := by
  unfold uleb_enc
  cases v with
  | zero => simp [uleb_enc_aux]
  | succ n =>
    simp only [uleb_enc_aux]
    split
    · rfl
    · rw [uleb_enc_aux_fuel n ((n + 1) / 128) ((n + 1) / 128) (by omega) (Nat.le_refl _)]

theorem uleb_enc_length_le : ∀ (k v : Nat), v < 128 ^ (k + 1) → (uleb_enc v).length ≤ k + 1 := by
  intro k
  induction k with
  | zero => intro v h; rw [uleb_enc_eq, if_pos (by simpa using h)]; simp
  | succ k ih =>
    intro v h
    rw [uleb_enc_eq]
    split
    · simp
    · have : v / 128 < 128 ^ (k + 1) := by
        rw [Nat.div_lt_iff_lt_mul (by decide)]; rw [pow_succ] at h; exact h
      simp only [List.length_cons]
      have := ih (v / 128) this
      omega

theorem uleb_enc_pos (v : Nat) : 0 < (uleb_enc v).length := by
  rw [uleb_enc_eq]; split <;> simp

theorem uleb_enc_isBytes : ∀ (k v : Nat), v < 128 ^ (k + 1) → IsBytes (uleb_enc v) := by
  intro k
  induction k with
  | zero =>
    intro v h
    rw [uleb_enc_eq, if_pos (by simpa using h)]
    intro b hb; simp at hb; subst hb; simp at h; omega
  | succ k ih =>
    intro v h
    rw [uleb_enc_eq]
    split
    · intro b hb; simp at hb; omega
    · have : v / 128 < 128 ^ (k + 1) := by
        rw [Nat.div_lt_iff_lt_mul (by decide)]; rw [pow_succ] at h; exact h
      intro b hb
      simp only [List.mem_cons] at hb
      rcases hb with hb | hb
      · omega
      · exact ih _ this b hb

theorem and_7F (x : Nat) : x &&& 0x7F = x % 128 := Nat.and_pow_two_sub_one_eq_mod x 7

theorem and_FF (x : Nat) : x &&& 0xFF = x % 256 := Nat.and_pow_two_sub_one_eq_mod x 8

theorem shr_7 (x : Nat) : x >>> 7 = x / 128 := Nat.shiftRight_eq_div_pow x 7

theorem or_80 (x : Nat) (h : x < 128) : x ||| 0x80 = x + 128 := by
  have := or_shl x 1 7 (by simpa using h)
  simpa using this

theorem and_80_low : ∀ x, x < 128 → x &&& 0x80 = 0 := by decide

theorem and_80_high : ∀ x, x < 128 → (x + 128) &&& 0x80 ≠ 0 := by decide

theorem bcs_write_uleb128_loop_ok (h : Allocator) (inc bound : Nat)
    (hg : grants_below h bound) (hb : bound ≤ SIZE_MOD) :
    ∀ (fuel v : Nat) (w : bcs_writer_t) (b : List Nat), unlimited_writer inc w b →
      (uleb_enc v).length ≤ fuel → b.length + (uleb_enc v).length + inc < bound →
      ∃ w2, bcs_write_uleb128_loop h fuel w v = some (BCS_OK, w2) ∧
        unlimited_writer inc w2 (b ++ uleb_enc v) := by
  intro fuel
  induction fuel with
  | zero => intro v w b _ hl; have := uleb_enc_pos v; omega
  | succ fuel ih =>
    intro v w b hw hl hsz
    have hpos := uleb_enc_pos v
    unfold bcs_write_uleb128_loop
    simp only [and_7F, shr_7]
    by_cases hv : v < 128
    · have hz : v / 128 = 0 := Nat.div_eq_of_lt hv
      have he : uleb_enc v = [v] := by rw [uleb_enc_eq, if_pos hv]
      obtain ⟨w2, h1, h2⟩ := bcs_write_u8_ok h inc bound w b (v % 128) hw hg hb (by omega)
      simp only [hz, ne_eq, not_true_eq_false, if_false, h1]
      refine ⟨w2, rfl, ?_⟩
      rw [he]
      have : v % 128 % 256 = v := by omega
      rw [this] at h2; exact h2
    · have hz : v / 128 ≠ 0 := by omega
      have he : uleb_enc v = (v % 128 + 128) :: uleb_enc (v / 128) := by
        rw [uleb_enc_eq, if_neg hv]
      rw [he] at hl hsz ⊢
      simp only [List.length_cons] at hl hsz
      have hor : v % 128 ||| 0x80 = v % 128 + 128 := or_80 _ (Nat.mod_lt _ (by decide))
      obtain ⟨w2, h1, h2⟩ := bcs_write_u8_ok h inc bound w b (v % 128 + 128) hw hg hb (by omega)
      have : (v % 128 + 128) % 256 = v % 128 + 128 := by omega
      rw [this] at h2
      simp only [ne_eq, hz, not_false_eq_true, if_true, hor, h1, not_true_eq_false, if_false]
      obtain ⟨w3, h3, h4⟩ := ih (v / 128) w2 _ h2 (by omega)
        (by simp only [List.length_append, List.length_cons, List.length_nil]; omega)
      refine ⟨w3, h3, ?_⟩
      simpa using h4

theorem bcs_write_uleb128_ok (h : Allocator) (inc bound : Nat) (w : bcs_writer_t)
    (b : List Nat) (v : Nat) (hv : v < U64_MOD) (hw : unlimited_writer inc w b)
    (hg : grants_below h bound) (hb : bound ≤ SIZE_MOD)
    (hsz : b.length + (uleb_enc v).length + inc < bound) :
    ∃ w2, bcs_write_uleb128 h w v = some (BCS_OK, w2) ∧
      unlimited_writer inc w2 (b ++ uleb_enc v) := by
  unfold bcs_write_uleb128
  rw [Nat.mod_eq_of_lt hv]
  have hl : (uleb_enc v).length ≤ 10 :=
    uleb_enc_length_le 9 v (Nat.lt_of_lt_of_le hv (by unfold U64_MOD; norm_num))
  exact bcs_write_uleb128_loop_ok h inc bound hg hb 10 v w b hw hl hsz

theorem drop_cons_getD (l : List Nat) (p a : Nat) (t : List Nat) (h : l.drop p = a :: t) :
    l.getD p 0 = a ∧ l.drop (p + 1) = t := by
  constructor
  · have h1 : (l.drop p)[0]? = some a := by rw [h]; simp
    rw [List.getElem?_drop] at h1
    simp only [Nat.add_zero] at h1
    rw [List.getD_eq_getElem?_getD, h1]; rfl
  · have : l.drop (p + 1) = (l.drop p).drop 1 := by rw [List.drop_drop, Nat.add_comm]
    rw [this, h]; rfl

theorem bcs_read_uleb128_loop_enc :
    ∀ (fuel v : Nat) (r : bcs_reader_t) (acc shift : Nat) (rest : List Nat),
      (uleb_enc v).length ≤ fuel → r.buffer.drop r.position = uleb_enc v ++ rest →
      r.position + (uleb_enc v).length ≤ r.length →
      acc < 2 ^ shift → v * 2 ^ shift < U64_MOD →
      bcs_read_uleb128_loop fuel r acc shift =
        (BCS_OK, { r with position := r.position + (uleb_enc v).length }, acc + v * 2 ^ shift) := by
  intro fuel
  induction fuel with
  | zero => intro v r acc shift rest hl; have := uleb_enc_pos v; omega
  | succ fuel ih =>
    intro v r acc shift rest hl hd hlen hacc hv
    have hpos := uleb_enc_pos v
    unfold bcs_read_uleb128_loop
    rw [if_neg (by omega)]
    simp only [and_7F]
    by_cases hv128 : v < 128
    · have he : uleb_enc v = [v] := by rw [uleb_enc_eq, if_pos hv128]
      rw [he] at hd hlen ⊢
      obtain ⟨hb, _⟩ := drop_cons_getD _ _ _ _ hd
      have hbyte : byte_at r r.position = v := hb
      rw [hbyte, and_80_low v hv128, Nat.mod_eq_of_lt hv128]
      have key : acc ||| (v <<< shift) % U64_MOD = acc + v * 2 ^ shift := by
        have e1 : (v <<< shift) % U64_MOD = v <<< shift := by
          rw [Nat.shiftLeft_eq]; exact Nat.mod_eq_of_lt hv
        rw [e1, or_shl _ _ _ hacc]
      rw [key]
      simp
    · have he : uleb_enc v = (v % 128 + 128) :: uleb_enc (v / 128) := by
        rw [uleb_enc_eq, if_neg hv128]
      rw [he] at hd hlen hl ⊢
      simp only [List.length_cons] at hlen hl ⊢
      obtain ⟨hb, hd2⟩ := drop_cons_getD _ _ _ _ hd
      have hbyte : byte_at r r.position = v % 128 + 128 := hb
      have hm : v % 128 < 128 := Nat.mod_lt _ (by decide)
      rw [hbyte, if_neg (and_80_high _ hm)]
      have hmm : (v % 128 + 128) % 128 = v % 128 := by omega
      rw [hmm]
      have hP : 0 < 2 ^ shift := Nat.two_pow_pos shift
      have hle : v % 128 * 2 ^ shift ≤ v * 2 ^ shift :=
        Nat.mul_le_mul_right _ (Nat.mod_le _ _)
      have hsh : shift + 7 < 64 := by
        have h1 : 128 * 2 ^ shift ≤ v * 2 ^ shift := Nat.mul_le_mul_right _ (by omega)
        have h2 : 2 ^ (shift + 7) < 2 ^ 64 := by
          rw [pow_add]; unfold U64_MOD at hv; norm_num at hv ⊢; omega
        exact (Nat.pow_lt_pow_iff_right (by decide)).mp h2
      have key : acc ||| ((v % 128) <<< shift) % U64_MOD = acc + v % 128 * 2 ^ shift := by
        have e1 : ((v % 128) <<< shift) % U64_MOD = (v % 128) <<< shift := by
          rw [Nat.shiftLeft_eq]; exact Nat.mod_eq_of_lt (by omega)
        rw [e1, or_shl _ _ _ hacc]
      rw [key, if_neg (by omega)]
      have hacc2 : acc + v % 128 * 2 ^ shift < 2 ^ (shift + 7) := by
        rw [pow_add]
        have : v % 128 * 2 ^ shift ≤ 127 * 2 ^ shift := Nat.mul_le_mul_right _ (by omega)
        norm_num; omega
      have hq : v / 128 * 2 ^ (shift + 7) = (v / 128 * 128) * 2 ^ shift := by
        rw [pow_add]; ring
      have hv2 : v / 128 * 2 ^ (shift + 7) < U64_MOD := by
        rw [hq]
        have : v / 128 * 128 * 2 ^ shift ≤ v * 2 ^ shift :=
          Nat.mul_le_mul_right _ (Nat.div_mul_le_self v 128)
        omega
      rw [ih (v / 128) { r with position := r.position + 1 } _ (shift + 7) rest (by omega)
        (by simpa using hd2) (by simp only; omega) hacc2 hv2]
      have hsum : acc + v % 128 * 2 ^ shift + v / 128 * 2 ^ (shift + 7) = acc + v * 2 ^ shift := by
        rw [hq, Nat.add_assoc, ← Nat.add_mul]
        congr 2
        have := Nat.div_add_mod v 128
        omega
      rw [hsum]
      simp only [Prod.mk.injEq, bcs_reader_t.mk.injEq, true_and, and_true]
      omega

theorem bcs_read_uleb128_enc (v : Nat) (hv : v < U64_MOD) (r : bcs_reader_t) (rest : List Nat)
    (hd : r.buffer.drop r.position = uleb_enc v ++ rest)
    (hlen : r.position + (uleb_enc v).length ≤ r.length) :
    bcs_read_uleb128 r =
      (BCS_OK, { r with position := r.position + (uleb_enc v).length }, v) := by
  have hl : (uleb_enc v).length ≤ 10 :=
    uleb_enc_length_le 9 v (Nat.lt_of_lt_of_le hv (by unfold U64_MOD; norm_num))
  have := bcs_read_uleb128_loop_enc 10 v r 0 0 rest hl hd hlen (by simp) (by simpa using hv)
  simpa [bcs_read_uleb128] using this

theorem le_bytes_length (n v : Nat) : (le_bytes n v).length = n := by
  simp [le_bytes]

theorem le_bytes_isBytes (n v : Nat) : IsBytes (le_bytes n v) := by
  intro b hb
  simp only [le_bytes, List.mem_map] at hb
  obtain ⟨i, _, rfl⟩ := hb
  rw [and_FF]; exact Nat.mod_lt _ (by decide)

theorem le_value_le_bytes (n v : Nat) : le_value (le_bytes n v) = v % 256 ^ n := by
  induction n with
  | zero => simp [le_bytes, le_value, Nat.mod_one]
  | succ n ih =>
    have h256 : (256 : Nat) ^ n = 2 ^ (n * 8) := by
      rw [Nat.mul_comm, pow_mul]; norm_num
    have : le_bytes (n + 1) v = le_bytes n v ++ [(v >>> (n * 8)) &&& 0xFF] := by
      simp [le_bytes, List.range_succ]
    rw [this, le_value_append, ih, le_bytes_length, and_FF, Nat.shiftRight_eq_div_pow,
      ← h256, Nat.mod_pow_succ]

theorem fresh_write_of_ok (h : Allocator) (cap bound : Nat) (hcap : 0 < cap)
    (hg : grants_below h bound) (hlt : cap < bound)
    (f : bcs_writer_t → Option (bcs_error_t × bcs_writer_t)) (bs : List Nat)
    (hf : ∀ w, unlimited_writer cap w [] →
      ∃ w2, f w = some (BCS_OK, w2) ∧ unlimited_writer cap w2 ([] ++ bs)) :
    fresh_write_yields h cap f bs := by
  obtain ⟨hi, hw⟩ := bcs_writer_init_ok h cap bound hcap hg hlt
  obtain ⟨w2, h1, h2⟩ := hf _ hw
  refine ⟨by rw [hi], w2, by rw [hi]; exact h1, ?_⟩
  simp only [List.nil_append] at h2
  unfold bcs_writer_get_bytes
  rw [h2.1, h2.2.1]

theorem bcs_read_u8_ok (r : bcs_reader_t) (h : r.position < r.length) :
    bcs_read_u8 r = (BCS_OK, { r with position := r.position + 1 }, byte_at r r.position) := by
  unfold bcs_read_u8
  rw [if_neg (by omega)]

theorem bcs_read_u16_ok (r : bcs_reader_t) (hb : IsBytes r.buffer)
    (hlen : r.length ≤ r.buffer.length) (hsz : r.length < SIZE_MOD)
    (h : r.position + 2 ≤ r.length) :
    bcs_read_u16 r =
      (BCS_OK, { r with position := r.position + 2 }, le_value (bytes_ahead r 2)) := by
  have hlt := byte_at_lt r hb
  have b0 := hlt r.position
  rw [bytes_ahead_eq r 2 (by omega)]
  unfold bcs_read_u16
  rw [Nat.mod_eq_of_lt (by omega), if_neg (by omega)]
  simp only [List.range, List.range.loop, List.map_cons, List.map_nil, le_value, Nat.add_zero]
  rw [or_shl _ _ 8 (by omega)]
  simp only [Prod.mk.injEq, true_and]
  omega

theorem bcs_read_u32_ok (r : bcs_reader_t) (hb : IsBytes r.buffer)
    (hlen : r.length ≤ r.buffer.length) (hsz : r.length < SIZE_MOD)
    (h : r.position + 4 ≤ r.length) :
    bcs_read_u32 r =
      (BCS_OK, { r with position := r.position + 4 }, le_value (bytes_ahead r 4)) := by
  have hlt := byte_at_lt r hb
  have b0 := hlt r.position
  have b1 := hlt (r.position + 1)
  have b2 := hlt (r.position + 2)
  rw [bytes_ahead_eq r 4 (by omega)]
  unfold bcs_read_u32
  rw [Nat.mod_eq_of_lt (by omega), if_neg (by omega)]
  simp only [List.range, List.range.loop, List.map_cons, List.map_nil, le_value, Nat.add_zero]
  rw [or_shl _ _ 8 (by omega), or_shl _ _ 16 (by omega), or_shl _ _ 24 (by omega)]
  simp only [Prod.mk.injEq, true_and]
  omega

theorem bcs_read_u64_ok (r : bcs_reader_t) (hb : IsBytes r.buffer)
    (hlen : r.length ≤ r.buffer.length) (hsz : r.length < SIZE_MOD)
    (h : r.position + 8 ≤ r.length) :
    bcs_read_u64 r =
      (BCS_OK, { r with position := r.position + 8 }, le_value (bytes_ahead r 8)) := by
  rw [bytes_ahead_eq r 8 (by omega)]
  unfold bcs_read_u64
  rw [Nat.mod_eq_of_lt (by omega), if_neg (by omega)]
  rw [le_fold (fun i => byte_at r (r.position + i)) (fun i => byte_at_lt r hb _) 8]

theorem bcs_read_bytes_ok (r : bcs_reader_t) (n : Nat) (hsz : r.length < SIZE_MOD)
    (h : r.position + n ≤ r.length) :
    bcs_read_bytes r n = (BCS_OK, { r with position := r.position + n }, bytes_ahead r n) := by
  unfold bcs_read_bytes bytes_ahead
  rw [Nat.mod_eq_of_lt (by omega), if_neg (by omega)]

/-- C1. ULEB128 round trip: for every 64-bit value `v`, `bcs_write_uleb128` into a
fresh writer without maximum size (any non-zero initial capacity, allocation
being served) succeeds, and `bcs_read_uleb128` on the written bytes from cursor 0
returns `BCS_OK` with exactly `v` and the cursor at the end of the written bytes.
The written bytes number at most ten, and exactly ten for `v = 2^64 - 1`. -/
theorem uleb128_round_trip (h : Allocator) (cap v : Nat) (hcap : 0 < cap)
    (hv : v < U64_MOD) (hsz : cap + 11 ≤ SIZE_MOD) (hg : grants_below h (cap + 11)) :
    ∃ bs, fresh_write_yields h cap (fun w => bcs_write_uleb128 h w v) bs ∧
      bcs_read_uleb128 (bcs_reader_init bs bs.length) =
        (BCS_OK, ⟨bs, bs.length, bs.length⟩, v) ∧
      bs.length ≤ 10 ∧ (v = U64_MOD - 1 → bs.length = 10) := by
  have hl : (uleb_enc v).length ≤ 10 :=
    uleb_enc_length_le 9 v (Nat.lt_of_lt_of_le hv (by unfold U64_MOD; norm_num))
  refine ⟨uleb_enc v, ?_, ?_, hl, ?_⟩
  · apply fresh_write_of_ok h cap (cap + 11) hcap hg (by omega)
    intro w hw
    exact bcs_write_uleb128_ok h cap (cap + 11) w [] v hv hw hg hsz
      (by simp only [List.length_nil]; omega)
  · have := bcs_read_uleb128_enc v hv (bcs_reader_init (uleb_enc v) (uleb_enc v).length) []
      (by simp [bcs_reader_init]) (by simp [bcs_reader_init])
    simpa [bcs_reader_init] using this
  · intro hv2
    subst hv2
    decide

theorem uleb128_round_trip_witness :
    ∃ bs, fresh_write_yields plainAllocator 8
        (fun w => bcs_write_uleb128 plainAllocator w 18446744073709551615) bs ∧
      bcs_read_uleb128 (bcs_reader_init bs bs.length) =
        (BCS_OK, ⟨bs, bs.length, bs.length⟩, 18446744073709551615) ∧
      bs.length ≤ 10 ∧ (18446744073709551615 = U64_MOD - 1 → bs.length = 10) :=
  uleb128_round_trip plainAllocator 8 18446744073709551615 (by decide) (by decide)
    (by decide) (by decide)

theorem bcs_write_u128_ok (h : Allocator) (inc bound : Nat) (w : bcs_writer_t)
    (b : List Nat) (high low : Nat) (hw : unlimited_writer inc w b) (hg : grants_below h bound)
    (hb : bound ≤ SIZE_MOD) (hsz : b.length + 16 + inc < bound) :
    ∃ w2, bcs_write_u128 h w high low = some (BCS_OK, w2) ∧
      unlimited_writer inc w2 (b ++ (le_bytes 8 low ++ le_bytes 8 high)) := by
  obtain ⟨w1, h1, hw1⟩ := bcs_write_u64_ok h inc bound w b low hw hg hb (by omega)
  obtain ⟨w2, h2, hw2⟩ := bcs_write_u64_ok h inc bound w1 _ high hw1 hg hb
    (by simp only [List.length_append, le_bytes_length]; omega)
  refine ⟨w2, ?_, by simpa using hw2⟩
  unfold bcs_write_u128
  simp [h1, h2]

theorem bytes_ahead_prefix (r : bcs_reader_t) (d rest : List Nat)
    (hd : r.buffer.drop r.position = d ++ rest) : bytes_ahead r d.length = d := by
  unfold bytes_ahead
  rw [hd]; simp

theorem read_back_u64 (v : Nat) (hv : v < U64_MOD) (r : bcs_reader_t) (rest : List Nat)
    (hb : IsBytes r.buffer) (hlen : r.length ≤ r.buffer.length) (hsz : r.length < SIZE_MOD)
    (hd : r.buffer.drop r.position = le_bytes 8 v ++ rest) (h : r.position + 8 ≤ r.length) :
    bcs_read_u64 r = (BCS_OK, { r with position := r.position + 8 }, v) := by
  rw [bcs_read_u64_ok r hb hlen hsz h]
  have := bytes_ahead_prefix r (le_bytes 8 v) rest hd
  rw [le_bytes_length] at this
  rw [this, le_value_le_bytes]
  have : v % 256 ^ 8 = v := Nat.mod_eq_of_lt (by unfold U64_MOD at hv; norm_num; omega)
  rw [this]

/-- C2. Fixed-width round trip: for every value of `u8`, `u16`, `u32`, `u64`, `u128`
(a pair of 64-bit halves) and `bool`, the matching `bcs_write_*` into a fresh writer
without maximum size succeeds, and the matching `bcs_read_*` on the written bytes
returns `BCS_OK` with the same value and the cursor at the end of the bytes, whose
number is the width of the type. -/
theorem fixed_width_round_trip (h : Allocator) (cap : Nat) (hcap : 0 < cap)
    (hsz : cap + 17 ≤ SIZE_MOD) (hg : grants_below h (cap + 17))
    (v8 v16 v32 v64 high low : Nat) (flag : Bool)
    (h8 : v8 < 256) (h16 : v16 < 65536) (h32 : v32 < 4294967296) (h64 : v64 < U64_MOD)
    (hhigh : high < U64_MOD) (hlow : low < U64_MOD) :
    (∃ bs, fresh_write_yields h cap (fun w => bcs_write_u8 h w v8) bs ∧ bs.length = 1 ∧
      bcs_read_u8 (bcs_reader_init bs bs.length) = (BCS_OK, ⟨bs, bs.length, bs.length⟩, v8)) ∧
    (∃ bs, fresh_write_yields h cap (fun w => bcs_write_u16 h w v16) bs ∧ bs.length = 2 ∧
      bcs_read_u16 (bcs_reader_init bs bs.length) = (BCS_OK, ⟨bs, bs.length, bs.length⟩, v16)) ∧
    (∃ bs, fresh_write_yields h cap (fun w => bcs_write_u32 h w v32) bs ∧ bs.length = 4 ∧
      bcs_read_u32 (bcs_reader_init bs bs.length) = (BCS_OK, ⟨bs, bs.length, bs.length⟩, v32)) ∧
    (∃ bs, fresh_write_yields h cap (fun w => bcs_write_u64 h w v64) bs ∧ bs.length = 8 ∧
      bcs_read_u64 (bcs_reader_init bs bs.length) = (BCS_OK, ⟨bs, bs.length, bs.length⟩, v64)) ∧
    (∃ bs, fresh_write_yields h cap (fun w => bcs_write_u128 h w high low) bs ∧
      bs.length = 16 ∧
      bcs_read_u128 (bcs_reader_init bs bs.length) =
        (BCS_OK, ⟨bs, bs.length, bs.length⟩, high, low)) ∧
    (∃ bs, fresh_write_yields h cap (fun w => bcs_write_bool h w flag) bs ∧ bs.length = 1 ∧
      bcs_read_bool (bcs_reader_init bs bs.length) =
        (BCS_OK, ⟨bs, bs.length, bs.length⟩, flag)) := by
  have hS : SIZE_MOD = 4294967296 := rfl
  refine ⟨?_, ?_, ?_, ?_, ?_, ?_⟩
  · refine ⟨[v8], ?_, rfl, ?_⟩
    · apply fresh_write_of_ok h cap (cap + 17) hcap hg (by omega)
      intro w hw
      have := bcs_write_u8_ok h cap (cap + 17) w [] v8 hw hg hsz (by simp only [List.length_nil]; omega)
      rwa [Nat.mod_eq_of_lt h8] at this
    · rw [bcs_read_u8_ok _ (by simp [bcs_reader_init])]
      simp [bcs_reader_init, byte_at]
  · refine ⟨le_bytes 2 v16, ?_, le_bytes_length _ _, ?_⟩
    · apply fresh_write_of_ok h cap (cap + 17) hcap hg (by omega)
      intro w hw
      exact bcs_write_u16_ok h cap (cap + 17) w [] v16 hw hg hsz (by simp only [List.length_nil]; omega)
    · rw [bcs_read_u16_ok _ (le_bytes_isBytes _ _) (by simp [bcs_reader_init])
        (by simp [bcs_reader_init, le_bytes_length, hS])
        (by simp [bcs_reader_init, le_bytes_length])]
      have := bytes_ahead_prefix (bcs_reader_init (le_bytes 2 v16) (le_bytes 2 v16).length)
        (le_bytes 2 v16) [] (by simp [bcs_reader_init])
      rw [le_bytes_length] at this ⊢
      rw [this, le_value_le_bytes, Nat.mod_eq_of_lt (by norm_num; omega)]
      simp [bcs_reader_init]
  · refine ⟨le_bytes 4 v32, ?_, le_bytes_length _ _, ?_⟩
    · apply fresh_write_of_ok h cap (cap + 17) hcap hg (by omega)
      intro w hw
      exact bcs_write_u32_ok h cap (cap + 17) w [] v32 hw hg hsz (by simp only [List.length_nil]; omega)
    · rw [bcs_read_u32_ok _ (le_bytes_isBytes _ _) (by simp [bcs_reader_init])
        (by simp [bcs_reader_init, le_bytes_length, hS])
        (by simp [bcs_reader_init, le_bytes_length])]
      have := bytes_ahead_prefix (bcs_reader_init (le_bytes 4 v32) (le_bytes 4 v32).length)
        (le_bytes 4 v32) [] (by simp [bcs_reader_init])
      rw [le_bytes_length] at this ⊢
      rw [this, le_value_le_bytes, Nat.mod_eq_of_lt (by norm_num; omega)]
      simp [bcs_reader_init]
  · refine ⟨le_bytes 8 v64, ?_, le_bytes_length _ _, ?_⟩
    · apply fresh_write_of_ok h cap (cap + 17) hcap hg (by omega)
      intro w hw
      exact bcs_write_u64_ok h cap (cap + 17) w [] v64 hw hg hsz (by simp only [List.length_nil]; omega)
    · rw [read_back_u64 v64 h64 _ [] (le_bytes_isBytes _ _) (by simp [bcs_reader_init])
        (by simp [bcs_reader_init, le_bytes_length, hS]) (by simp [bcs_reader_init])
        (by simp [bcs_reader_init, le_bytes_length])]
      simp [bcs_reader_init, le_bytes_length]
  · refine ⟨le_bytes 8 low ++ le_bytes 8 high, ?_, by simp [le_bytes_length], ?_⟩
    · apply fresh_write_of_ok h cap (cap + 17) hcap hg (by omega)
      intro w hw
      exact bcs_write_u128_ok h cap (cap + 17) w [] high low hw hg hsz (by simp only [List.length_nil]; omega)
    · have hbs : IsBytes (le_bytes 8 low ++ le_bytes 8 high) := by
        intro b hb
        rcases List.mem_append.mp hb with hb | hb
        · exact le_bytes_isBytes _ _ b hb
        · exact le_bytes_isBytes _ _ b hb
      have h1 := read_back_u64 low hlow
        (bcs_reader_init (le_bytes 8 low ++ le_bytes 8 high)
          (le_bytes 8 low ++ le_bytes 8 high).length) (le_bytes 8 high) hbs
        (by simp [bcs_reader_init]) (by simp [bcs_reader_init, le_bytes_length, hS])
        (by simp [bcs_reader_init]) (by simp [bcs_reader_init, le_bytes_length])
      have h2 := read_back_u64 high hhigh
        { bcs_reader_init (le_bytes 8 low ++ le_bytes 8 high)
            (le_bytes 8 low ++ le_bytes 8 high).length with position := 0 + 8 } [] hbs
        (by simp [bcs_reader_init]) (by simp [bcs_reader_init, le_bytes_length, hS])
        (by
          simp only [bcs_reader_init, Nat.zero_add, List.append_nil]
          rw [List.drop_append_of_le_length (by simp [le_bytes_length])]
          have : List.drop 8 (le_bytes 8 low) = [] := by simp [le_bytes_length]
          rw [this]; rfl)
        (by simp [bcs_reader_init, le_bytes_length])
      unfold bcs_read_u128
      simp only [bcs_reader_init] at h1 h2 ⊢
      rw [h1]
      simp only [ne_eq, not_true_eq_false, if_false]
      rw [h2]
      simp [le_bytes_length]
  · refine ⟨[if flag then 1 else 0], ?_, rfl, ?_⟩
    · apply fresh_write_of_ok h cap (cap + 17) hcap hg (by omega)
      intro w hw
      have := bcs_write_u8_ok h cap (cap + 17) w [] (if flag then 1 else 0) hw hg hsz (by simp only [List.length_nil]; omega)
      have hm : (if flag then 1 else 0) % 256 = (if flag then 1 else 0 : Nat) := by
        cases flag <;> rfl
      rw [hm] at this
      exact this
    · cases flag <;> decide

theorem fixed_width_round_trip_witness :
    (∃ bs, fresh_write_yields plainAllocator 8 (fun w => bcs_write_u8 plainAllocator w 255) bs ∧
      bs.length = 1 ∧
      bcs_read_u8 (bcs_reader_init bs bs.length) = (BCS_OK, ⟨bs, bs.length, bs.length⟩, 255)) ∧
    (∃ bs, fresh_write_yields plainAllocator 8
        (fun w => bcs_write_u128 plainAllocator w 18446744073709551615 0) bs ∧
      bs.length = 16 ∧
      bcs_read_u128 (bcs_reader_init bs bs.length) =
        (BCS_OK, ⟨bs, bs.length, bs.length⟩, 18446744073709551615, 0)) :=
  have w := fixed_width_round_trip plainAllocator 8 (by decide) (by decide) (by decide)
    255 65535 4294967295 18446744073709551615 18446744073709551615 0 true
    (by decide) (by decide) (by decide) (by decide) (by decide) (by decide)
  ⟨w.1, w.2.2.2.2.1⟩

theorem uleb_enc_u64_length (v : Nat) : (uleb_enc (v % U64_MOD)).length ≤ 10 :=
  uleb_enc_length_le 9 _ (Nat.lt_of_lt_of_le (Nat.mod_lt _ (by decide))
    (by unfold U64_MOD; norm_num))

theorem bcs_write_uleb128_ok_mod (h : Allocator) (inc bound : Nat) (w : bcs_writer_t)
    (b : List Nat) (v : Nat) (hw : unlimited_writer inc w b)
    (hg : grants_below h bound) (hb : bound ≤ SIZE_MOD)
    (hsz : b.length + (uleb_enc (v % U64_MOD)).length + inc < bound) :
    ∃ w2, bcs_write_uleb128 h w v = some (BCS_OK, w2) ∧
      unlimited_writer inc w2 (b ++ uleb_enc (v % U64_MOD)) := by
  have := bcs_write_uleb128_ok h inc bound w b (v % U64_MOD) (Nat.mod_lt _ (by decide)) hw hg hb hsz
  unfold bcs_write_uleb128 at this ⊢
  rwa [Nat.mod_mod] at this

theorem bcs_write_fixed_bytes_take (h : Allocator) (inc bound : Nat) (w : bcs_writer_t)
    (b d : List Nat) (n : Nat) (hn : n ≤ d.length) (hw : unlimited_writer inc w b)
    (hg : grants_below h bound) (hb : bound ≤ SIZE_MOD) (hsz : b.length + n + inc < bound) :
    ∃ w2, bcs_write_fixed_bytes h w (some d) n = some (BCS_OK, w2) ∧
      unlimited_writer inc w2 (b ++ d.take n) := by
  have hl : (d.take n).length = n := by simp [hn]
  obtain ⟨w1, he, h1⟩ := ensure_capacity_ok h inc bound w b n hw hg hb hsz
  have hp := put_bytes_ok inc bound w w1 b (d.take n) hb (by rw [hl]; exact hsz) hw.2.1
    hw.2.2.2.2.1 (by rw [hl]; exact h1)
  rw [hl] at hp
  refine ⟨put_bytes w1 (d.take n) n, ?_, hp⟩
  unfold bcs_write_fixed_bytes
  simp [he]

theorem write_call_ok (h : Allocator) (inc bound : Nat) (w : bcs_writer_t) (b : List Nat)
    (op : write_op) (hw : unlimited_writer inc w b) (hg : grants_below h bound)
    (hb : bound ≤ SIZE_MOD) (hfit : op.fits) (hsz : b.length + op.bytes.length + inc < bound) :
    ∃ e w2, write_call h w op = some (e, w2) ∧ unlimited_writer inc w2 (b ++ op.bytes) := by
  cases op with
  | u8 v =>
    obtain ⟨w2, h1, h2⟩ := bcs_write_u8_ok h inc bound w b v hw hg hb (by simpa [write_op.bytes] using hsz)
    exact ⟨_, w2, h1, h2⟩
  | u16 v =>
    obtain ⟨w2, h1, h2⟩ := bcs_write_u16_ok h inc bound w b v hw hg hb
      (by simpa [write_op.bytes, le_bytes_length] using hsz)
    exact ⟨_, w2, h1, h2⟩
  | u64 v =>
    obtain ⟨w2, h1, h2⟩ := bcs_write_u64_ok h inc bound w b v hw hg hb
      (by simpa [write_op.bytes, le_bytes_length] using hsz)
    exact ⟨_, w2, h1, h2⟩
  | uleb128 v =>
    obtain ⟨w2, h1, h2⟩ := bcs_write_uleb128_ok_mod h inc bound w b v hw hg hb
      (by simpa [write_op.bytes] using hsz)
    exact ⟨_, w2, h1, h2⟩
  | fixed_bytes data n =>
    cases data with
    | none =>
      simp only [write_op.bytes, Option.getD_none, List.take_nil, List.append_nil,
        List.length_nil] at hsz ⊢
      by_cases hn : n > 0
      · refine ⟨BCS_ERROR_INVALID_INPUT, w, ?_, hw⟩
        simp [write_call, bcs_write_fixed_bytes, hn]
      · have hn0 : n = 0 := by omega
        subst hn0
        obtain ⟨w1, he, h1⟩ := ensure_capacity_ok h inc bound w b 0 hw hg hb (by omega)
        have hp := put_bytes_ok inc bound w w1 b [] hb (by simpa using hsz) hw.2.1
          hw.2.2.2.2.1 (by simpa using h1)
        refine ⟨BCS_OK, put_bytes w1 [] 0, ?_, by simpa using hp⟩
        simp [write_call, bcs_write_fixed_bytes, he]
    | some d =>
      have hn : n ≤ d.length := hfit
      have hl : (d.take n).length = n := by simp [hn]
      obtain ⟨w2, h1, h2⟩ := bcs_write_fixed_bytes_take h inc bound w b d n hn hw hg hb
        (by simpa [write_op.bytes, hl] using hsz)
      exact ⟨_, w2, h1, h2⟩
  | string str =>
    cases str with
    | none =>
      refine ⟨BCS_ERROR_INVALID_INPUT, w, rfl, ?_⟩
      simpa [write_op.bytes] using hw
    | some s =>
      simp only [write_op.bytes, List.length_append] at hsz
      obtain ⟨w1, h1, hw1⟩ := bcs_write_uleb128_ok_mod h inc bound w b s.length hw hg hb
        (by omega)
      obtain ⟨w2, h2, hw2⟩ := bcs_write_fixed_bytes_ok h inc bound w1 _ s hw1 hg hb
        (by simp only [List.length_append]; omega)
      refine ⟨BCS_OK, w2, ?_, by simpa [write_op.bytes] using hw2⟩
      simp [write_call, bcs_write_string, bcs_write_bytes, h1, h2]

theorem write_all_ok (h : Allocator) (inc bound : Nat) (hg : grants_below h bound)
    (hb : bound ≤ SIZE_MOD) :
    ∀ (ops : List write_op) (w : bcs_writer_t) (b : List Nat), unlimited_writer inc w b →
      (∀ op ∈ ops, op.fits) →
      b.length + (ops.flatMap write_op.bytes).length + inc < bound →
      ∃ w2, write_all h w ops = some w2 ∧
        unlimited_writer inc w2 (b ++ ops.flatMap write_op.bytes) := by
  intro ops
  induction ops with
  | nil => intro w b hw _ _; exact ⟨w, rfl, by simpa using hw⟩
  | cons op ops ih =>
    intro w b hw hfit hsz
    simp only [List.flatMap_cons, List.length_append] at hsz
    obtain ⟨e, w1, h1, hw1⟩ := write_call_ok h inc bound w b op hw hg hb
      (hfit op (by simp)) (by omega)
    obtain ⟨w2, h2, hw2⟩ := ih w1 _ hw1 (fun o ho => hfit o (by simp [ho]))
      (by simp only [List.length_append]; omega)
    refine ⟨w2, ?_, by simpa using hw2⟩
    simp only [write_all, h1]
    exact h2

theorem uleb_enc_small (v : Nat) (h : v < 128) : uleb_enc v = [v] := by
  rw [uleb_enc_eq, if_pos h]

theorem u64_mod_small (v : Nat) (h : v < SIZE_MOD) : v % U64_MOD = v :=
  Nat.mod_eq_of_lt (Nat.lt_trans h (by decide))

theorem sensor_transaction_writes_fit (params : transaction_builder_t)
    (ht : params_typed params) : ∀ op ∈ sensor_transaction_writes params, op.fits := by
  obtain ⟨h1, _, h2, _, h3, _, h4, _, _⟩ := ht
  intro op hop
  simp only [sensor_transaction_writes, List.mem_append, List.mem_cons, List.mem_flatMap,
    List.mem_range, List.mem_singleton, List.not_mem_nil, or_false] at hop
  rcases hop with (hop | ⟨i, _, hop⟩) | hop
  · rcases hop with hop | hop | hop | hop | hop | hop | hop | hop | hop | hop | hop | hop |
      hop | hop | hop | hop | hop | hop | hop | hop | hop | hop | hop | hop | hop | hop |
      hop | hop | hop | hop | hop | hop | hop | hop | hop | hop | hop | hop <;> subst hop <;>
      first
        | trivial
        | (show (_ : Nat) ≤ _; simp [c_str, clock_object_id, h1])
  · rcases hop with hop | hop <;> subst hop <;> trivial
  · rcases hop with hop | hop | hop | hop | hop | hop | hop | hop | hop | hop <;> subst hop <;>
      first
        | trivial
        | (show (_ : Nat) ≤ _; simp [h2, h3, h4])

theorem sensor_transaction_writes_bytes (params : transaction_builder_t) (m f : List Nat)
    (hm : params.module_name = some m) (hf : params.function_name = some f)
    (ht : params_typed params) (hml : m.length < SIZE_MOD) (hfl : f.length < SIZE_MOD) :
    (sensor_transaction_writes params).flatMap write_op.bytes =
      sensor_transaction_layout params m f := by
  obtain ⟨h1, _, h2, _, h3, _, h4, _, _⟩ := ht
  have hloop : ((List.range 8).flatMap (fun i => [write_op.u8 0x01, write_op.u16 i])).flatMap
      write_op.bytes = (List.range 8).flatMap (fun i => 0x01 :: le_bytes 2 i) := by decide
  have e8 : uleb_enc (8 % U64_MOD) = [8] := by decide
  have e12 : uleb_enc (12 % U64_MOD) = [12] := by decide
  have e4 : uleb_enc (4 % U64_MOD) = [4] := by decide
  have e0 : uleb_enc 0 = [0] := by decide
  have e1 : uleb_enc (1 % U64_MOD) = [1] := by decide
  have t1 : List.take 32 params.package_id = params.package_id :=
    List.take_of_length_le (by omega)
  have t2 : List.take 32 params.sender = params.sender := List.take_of_length_le (by omega)
  have t3 : List.take 32 params.gas_object.object_id = params.gas_object.object_id :=
    List.take_of_length_le (by omega)
  have t4 : List.take 32 params.gas_object.digest = params.gas_object.digest :=
    List.take_of_length_le (by omega)
  have t5 : List.take 32 clock_object_id = List.replicate 31 0 ++ [0x06] := by decide
  have t6 : List.take 12 (c_str "esp32-device") = c_str "esp32-device" := by decide
  have t7 : List.take 4 (c_str "soil") = c_str "soil" := by decide
  unfold sensor_transaction_writes sensor_transaction_layout
  rw [List.flatMap_append, List.flatMap_append, hloop]
  simp only [List.flatMap_cons, List.flatMap_nil, write_op.bytes, hm, hf, e8, e12, e4, e0, e1,
    t1, t2, t3, t4, t5, t6, t7, Option.getD_some, u64_mod_small _ hml, u64_mod_small _ hfl,
    Nat.zero_mod, Nat.reduceMod]
  simp only [List.append_assoc, List.cons_append, List.nil_append, List.append_nil]

theorem sensor_transaction_layout_length (params : transaction_builder_t) (m f : List Nat)
    (ht : params_typed params) :
    (sensor_transaction_layout params m f).length =
      326 + m.length + f.length + (uleb_enc m.length).length + (uleb_enc f.length).length := by
  obtain ⟨h1, _, h2, _, h3, _, h4, _, _⟩ := ht
  have hloop : ((List.range 8).flatMap (fun i => 0x01 :: le_bytes 2 i)).length = 24 := by decide
  have c1 : (c_str "esp32-device").length = 12 := by decide
  have c2 : (c_str "soil").length = 4 := by decide
  unfold sensor_transaction_layout
  simp only [List.length_append, List.length_cons, List.length_nil, le_bytes_length, hloop,
    c1, c2, h1, h2, h3, h4, List.length_replicate]
  omega

theorem plainAllocator_grants (bound : Nat) (hb : bound ≤ 2147483648) :
    grants_below plainAllocator bound := by
  intro n hn
  simp only [plainAllocator, decide_eq_true_eq]
  omega

theorem writer_to_hex_ok (h : Allocator) (inc bound : Nat) (w : bcs_writer_t) (b : List Nat)
    (hw : unlimited_writer inc w b) (hg : grants_below h bound) (hb : bound ≤ SIZE_MOD)
    (hsz : 2 * b.length + 1 < bound) :
    writer_to_hex h w = (BCS_OK, some (bcs_bytes_to_hex b b.length, 2 * b.length)) := by
  obtain ⟨hbuf, hlen, _⟩ := hw
  unfold writer_to_hex bcs_writer_get_bytes
  simp only [hbuf, ← hlen, Option.getD_some]
  have h1 : (b.length * 2 + 1) % SIZE_MOD = b.length * 2 + 1 := Nat.mod_eq_of_lt (by omega)
  have h2 : (b.length * 2) % SIZE_MOD = 2 * b.length := by
    rw [Nat.mod_eq_of_lt (by omega)]; omega
  rw [h1, h2, hg _ (by omega)]
  simp

/-- C7. Assembler layout: for every parameter record with present module and function
names `m` and `f`, `sui_build_sensor_transaction` returns `BCS_OK`, its output is the
hex of `sensor_transaction_layout params m f` (version, kind, input count 8, the
seven Pure inputs, the clock object, the Move call with arguments 0..7, sender, gas
data, no expiration), and `output_length` is
`2 * (326 + |m| + |f| + uleb-length(|m|) + uleb-length(|f|))`. -/
theorem assembler_layout (h : Allocator) (bound : Nat) (params : transaction_builder_t)
    (m f : List Nat) (hm : params.module_name = some m) (hf : params.function_name = some f)
    (ht : params_typed params) (hg : grants_below h bound) (hb : bound ≤ SIZE_MOD)
    (hsz : 2 * (m.length + f.length) + 900 < bound) :
    sui_build_sensor_transaction h params =
      some (BCS_OK, some
        (bcs_bytes_to_hex (sensor_transaction_layout params m f)
          (sensor_transaction_layout params m f).length,
         2 * (326 + m.length + f.length + (uleb_enc m.length).length +
           (uleb_enc f.length).length))) := by
  have hml : m.length < SIZE_MOD := by omega
  have hfl : f.length < SIZE_MOD := by omega
  have hlen := sensor_transaction_layout_length params m f ht
  have hum : (uleb_enc m.length).length ≤ 10 := by
    have := uleb_enc_u64_length m.length; rwa [u64_mod_small _ hml] at this
  have huf : (uleb_enc f.length).length ≤ 10 := by
    have := uleb_enc_u64_length f.length; rwa [u64_mod_small _ hfl] at this
  obtain ⟨hi, hw⟩ := bcs_writer_init_ok h 512 bound (by decide) hg (by omega)
  obtain ⟨w2, h2, hw2⟩ := write_all_ok h 512 bound hg hb (sensor_transaction_writes params) _ []
    hw (sensor_transaction_writes_fit params ht)
    (by rw [sensor_transaction_writes_bytes params m f hm hf ht hml hfl, hlen]
        simp only [List.length_nil]; omega)
  rw [sensor_transaction_writes_bytes params m f hm hf ht hml hfl, List.nil_append] at hw2
  unfold sui_build_sensor_transaction
  rw [hi]
  simp only [h2]
  rw [writer_to_hex_ok h 512 bound w2 _ hw2 hg hb (by rw [hlen]; omega), hlen]

theorem assembler_layout_witness :
    sui_build_sensor_transaction plainAllocator sample_params =
      some (BCS_OK, some
        (bcs_bytes_to_hex
          (sensor_transaction_layout sample_params (c_str "sensor") (c_str "record_reading"))
          (sensor_transaction_layout sample_params (c_str "sensor")
            (c_str "record_reading")).length,
         2 * (326 + (c_str "sensor").length + (c_str "record_reading").length +
           (uleb_enc (c_str "sensor").length).length +
           (uleb_enc (c_str "record_reading").length).length))) :=
  assembler_layout plainAllocator 2147483648 sample_params (c_str "sensor")
    (c_str "record_reading") rfl rfl (by decide)
    (plainAllocator_grants _ (Nat.le_refl _)) (by decide) (by decide)

theorem hex_chars_spec : ∀ i, i < 16 →
    isxdigit (hex_chars i) = true ∧ hex_digit_value (hex_chars i) = i ∧
      hex_chars i ≠ 'x' ∧ hex_chars i ≠ 'X' := by decide

set_option maxRecDepth 100000 in

theorem byte_nibbles : ∀ b, b < 256 →
    ((((b >>> 4) &&& 0x0F) <<< 4) ||| (b &&& 0x0F)) % 256 = b ∧
      (b >>> 4) &&& 0x0F < 16 ∧ b &&& 0x0F < 16 := by decide

theorem bcs_bytes_to_hex_cons (b : Nat) (bs : List Nat) :
    bcs_bytes_to_hex (b :: bs) (b :: bs).length =
      hex_chars ((b >>> 4) &&& 0x0F) :: hex_chars (b &&& 0x0F) ::
        bcs_bytes_to_hex bs bs.length := by
  simp [bcs_bytes_to_hex]

theorem bcs_bytes_to_hex_length (bs : List Nat) :
    (bcs_bytes_to_hex bs bs.length).length = 2 * bs.length := by
  induction bs with
  | nil => rfl
  | cons b bs ih => rw [bcs_bytes_to_hex_cons]; simp only [List.length_cons, ih]; omega

theorem hex_decode_encode (bs : List Nat) (hb : IsBytes bs) :
    hex_decode_pairs (bcs_bytes_to_hex bs bs.length) = some bs := by
  induction bs with
  | nil => rfl
  | cons b bs ih =>
    have hb1 : b < 256 := hb b (by simp)
    obtain ⟨h1, h2, h3⟩ := byte_nibbles b hb1
    obtain ⟨x1, x2, _, _⟩ := hex_chars_spec _ h2
    obtain ⟨y1, y2, _, _⟩ := hex_chars_spec _ h3
    rw [bcs_bytes_to_hex_cons]
    simp only [hex_decode_pairs, x1, y1, x2, y2, h1, Bool.not_true, Bool.or_self,
      Bool.false_eq_true, if_false, ih (fun c hc => hb c (by simp [hc]))]

theorem skip_hex_prefix_hex (bs : List Nat) (hb : IsBytes bs) :
    skip_hex_prefix (bcs_bytes_to_hex bs bs.length) = bcs_bytes_to_hex bs bs.length := by
  cases bs with
  | nil => rfl
  | cons b bs =>
    have hb1 : b < 256 := hb b (by simp)
    obtain ⟨_, _, h3⟩ := byte_nibbles b hb1
    obtain ⟨_, _, y3, y4⟩ := hex_chars_spec _ h3
    rw [bcs_bytes_to_hex_cons]
    generalize hex_chars (b &&& 0x0F) = c2 at y3 y4
    unfold skip_hex_prefix
    split
    · rename_i heq; simp only [List.cons.injEq] at heq; exact absurd heq.2.1 y3
    · rename_i heq; simp only [List.cons.injEq] at heq; exact absurd heq.2.1 y4
    · rfl

/-- Decoding the hex string that `bcs_bytes_to_hex` produces gives the bytes back. -/
theorem hex_round_trip (bs : List Nat) (hb : IsBytes bs) (m : Nat) (hm : bs.length ≤ m) :
    bcs_hex_to_bytes (bcs_bytes_to_hex bs bs.length) m = (BCS_OK, bs, bs.length) := by
  unfold bcs_hex_to_bytes
  simp only [skip_hex_prefix_hex bs hb, bcs_bytes_to_hex_length, hex_decode_encode bs hb]
  rw [if_neg (by omega), if_neg (by omega)]
  simp

theorem drop_advance (l d t : List Nat) (p : Nat) (h : l.drop p = d ++ t) :
    l.drop (p + d.length) = t := by
  rw [← List.drop_drop, h]; simp

theorem drop_length_le (l d t : List Nat) (p : Nat) (h : l.drop p = d ++ t)
    (hd : 0 < d.length) : p + d.length + t.length = l.length := by
  have := congrArg List.length h
  simp only [List.length_drop, List.length_append] at this
  omega

theorem isBytes_append {a b : List Nat} : IsBytes (a ++ b) ↔ IsBytes a ∧ IsBytes b := by
  unfold IsBytes
  constructor
  · intro h; exact ⟨fun x hx => h x (by simp [hx]), fun x hx => h x (by simp [hx])⟩
  · rintro ⟨h1, h2⟩ x hx
    rcases List.mem_append.mp hx with hx | hx
    · exact h1 x hx
    · exact h2 x hx

theorem isBytes_drop {l : List Nat} (h : IsBytes l) (p : Nat) : IsBytes (l.drop p) :=
  fun x hx => h x (List.mem_of_mem_drop hx)

theorem le_value_inj : ∀ (a b : List Nat), IsBytes a → IsBytes b → a.length = b.length →
    le_value a = le_value b → a = b := by
  intro a
  induction a with
  | nil => intro b _ _ hl _; cases b with
    | nil => rfl
    | cons _ _ => simp at hl
  | cons x a ih =>
    intro b ha hb hl hv
    cases b with
    | nil => simp at hl
    | cons y b =>
      have hx : x < 256 := ha x (by simp)
      have hy : y < 256 := hb y (by simp)
      simp only [le_value] at hv
      have h1 : x = y := by omega
      have h2 : le_value a = le_value b := by omega
      rw [h1, ih b (fun c hc => ha c (by simp [hc])) (fun c hc => hb c (by simp [hc]))
        (by simpa using hl) h2]

theorem le_bytes_le_value (d : List Nat) (hd : IsBytes d) :
    le_bytes d.length (le_value d) = d := by
  apply le_value_inj _ _ (le_bytes_isBytes _ _) hd (le_bytes_length _ _)
  rw [le_value_le_bytes]
  exact Nat.mod_eq_of_lt (le_value_lt d hd)

theorem read_u8_drop (r : bcs_reader_t) (a : Nat) (t : List Nat)
    (hlen : r.length = r.buffer.length) (hd : r.buffer.drop r.position = a :: t) :
    bcs_read_u8 r = (BCS_OK, { r with position := r.position + 1 }, a) := by
  have := drop_length_le _ [a] t _ hd (by simp)
  simp only [List.length_cons, List.length_nil] at this
  rw [bcs_read_u8_ok r (by omega)]
  have := (drop_cons_getD _ _ _ _ hd).1
  unfold byte_at
  rw [this]

theorem read_bytes_drop (r : bcs_reader_t) (d t : List Nat)
    (hlen : r.length = r.buffer.length) (hsz : r.length < SIZE_MOD)
    (hpos : r.position ≤ r.length) (hd : r.buffer.drop r.position = d ++ t) :
    bcs_read_bytes r d.length = (BCS_OK, { r with position := r.position + d.length }, d) := by
  by_cases h0 : d.length = 0
  · have : d = [] := List.length_eq_zero.mp h0
    subst this
    unfold bcs_read_bytes
    simp only [List.length_nil, Nat.add_zero, List.take_zero]
    rw [Nat.mod_eq_of_lt (by omega), if_neg (by omega)]
  · have := drop_length_le _ d t _ hd (by omega)
    rw [bcs_read_bytes_ok r d.length hsz (by omega), bytes_ahead_prefix r d t hd]

theorem read_u64_drop (r : bcs_reader_t) (d t : List Nat) (h8 : d.length = 8)
    (hb : IsBytes r.buffer) (hlen : r.length = r.buffer.length) (hsz : r.length < SIZE_MOD)
    (hd : r.buffer.drop r.position = d ++ t) :
    bcs_read_u64 r = (BCS_OK, { r with position := r.position + 8 }, le_value d) := by
  have := drop_length_le _ d t _ hd (by omega)
  rw [bcs_read_u64_ok r hb (by omega) hsz (by omega), ← h8, bytes_ahead_prefix r d t hd]

theorem read_released_length (h : Allocator) (d : List Nat) (n : Nat) :
    (read_released h d n).length = n := by
  simp [read_released]

theorem write_all_one (h : Allocator) (bound : Nat) (hg : grants_below h bound)
    (hb : bound ≤ SIZE_MOD) (op : write_op) (w : bcs_writer_t) (b : List Nat)
    (hw : unlimited_writer 512 w b) (hfit : op.fits)
    (hsz : b.length + op.bytes.length + 512 < bound) :
    ∃ w2, write_all h w [op] = some w2 ∧ unlimited_writer 512 w2 (b ++ op.bytes) := by
  have := write_all_ok h 512 bound hg hb [op] w b hw (by simpa using hfit) (by simpa using hsz)
  simpa using this

theorem process_pure_spec (h : Allocator) (bound : Nat) (pures : List (List Nat))
    (hg : grants_below h bound) (hb : bound ≤ SIZE_MOD) (payload : List Nat)
    (r : bcs_reader_t) (w : bcs_writer_t) (b : List Nat) (idx : Nat) (rest : List Nat)
    (hlen : r.length = r.buffer.length) (hfit : r.buffer.length < bound)
    (hd : r.buffer.drop r.position = uleb_enc payload.length ++ (payload ++ rest))
    (hw : unlimited_writer 512 w b)
    (hsz : b.length + ((mutate_inputs h pures idx [.pure payload]).flatMap
      tx_input.encode).tail.length + 512 < bound) :
    ∃ w2, process_pure h pures r w idx =
        some (BCS_OK,
          { r with position := r.position + ((uleb_enc payload.length).length + payload.length) },
          w2, idx + 1) ∧
      unlimited_writer 512 w2
        (b ++ ((mutate_inputs h pures idx [.pure payload]).flatMap tx_input.encode).tail) := by
  have htot := drop_length_le _ (uleb_enc payload.length) (payload ++ rest) _ hd (uleb_enc_pos _)
  simp only [List.length_append] at htot
  have hpl : payload.length < bound := by omega
  have r2 := bcs_read_uleb128_enc payload.length (by
      have : SIZE_MOD < U64_MOD := by decide
      omega) r (payload ++ rest) hd (by omega)
  have hd2 : List.drop (r.position + (uleb_enc payload.length).length) r.buffer =
      payload ++ rest := drop_advance _ _ _ _ hd
  have r3 := read_bytes_drop
    { r with position := r.position + (uleb_enc payload.length).length } payload rest
    hlen (by simp only; omega) (by simp only; omega) hd2
  simp only at r3
  have hmod : payload.length % SIZE_MOD = payload.length := Nat.mod_eq_of_lt (by omega)
  have hgp := hg _ hpl
  simp only [mutate_inputs, List.flatMap_cons, List.flatMap_nil, List.append_nil,
    tx_input.encode, List.length_cons, List.length_append, List.tail_cons] at hsz ⊢
  by_cases hidx : idx < pures.length
  · simp only [hidx, if_true] at hsz ⊢
    have hvl : (pures.getD idx []).length < SIZE_MOD := by omega
    obtain ⟨w2, e2, hw2⟩ := write_all_ok h 512 bound hg hb
      [.uleb128 (pures.getD idx []).length,
       .fixed_bytes (some (pures.getD idx [])) (pures.getD idx []).length] w _ hw
      (by intro op hop
          simp only [List.mem_cons, List.mem_singleton, List.not_mem_nil, or_false] at hop
          rcases hop with hop | hop <;> subst hop
          · trivial
          · exact Nat.le_refl _)
      (by simp only [List.flatMap_cons, List.flatMap_nil, write_op.bytes, Option.getD_some,
            List.take_length, List.append_nil, List.length_append, List.length_cons,
            List.length_nil, u64_mod_small _ hvl]
          omega)
    simp only [List.flatMap_cons, List.flatMap_nil, write_op.bytes, Option.getD_some,
      List.take_length, List.append_nil, u64_mod_small _ hvl] at hw2
    refine ⟨w2, ?_, hw2⟩
    unfold process_pure
    simp only [r2, ne_eq, not_true_eq_false, if_false, hmod, hgp, Bool.true_eq_false, r3,
      hidx, if_true, e2, Option.some_bind, Nat.add_assoc]
  · simp only [hidx, if_false, read_released_length] at hsz ⊢
    have hvl : payload.length < SIZE_MOD := by omega
    obtain ⟨w2, e2, hw2⟩ := write_all_ok h 512 bound hg hb
      [.uleb128 payload.length,
       .fixed_bytes (some (read_released h payload payload.length)) payload.length] w _ hw
      (by intro op hop
          simp only [List.mem_cons, List.mem_singleton, List.not_mem_nil, or_false] at hop
          rcases hop with hop | hop <;> subst hop
          · trivial
          · show payload.length ≤ _
            rw [read_released_length])
      (by simp only [List.flatMap_cons, List.flatMap_nil, write_op.bytes, Option.getD_some,
            List.append_nil, List.length_append, List.length_cons, List.length_take,
            List.length_nil, u64_mod_small _ hvl, read_released_length]
          omega)
    have htk : List.take payload.length (read_released h payload payload.length) =
        read_released h payload payload.length :=
      List.take_of_length_le (by rw [read_released_length])
    simp only [List.flatMap_cons, List.flatMap_nil, write_op.bytes, Option.getD_some,
      List.append_nil, u64_mod_small _ hvl, htk] at hw2
    refine ⟨w2, ?_, hw2⟩
    unfold process_pure
    simp only [r2, ne_eq, not_true_eq_false, if_false, hmod, hgp, Bool.true_eq_false, r3,
      hidx, e2, Option.some_bind, Nat.add_assoc]

theorem isBytes_of_drop {l d t : List Nat} {p : Nat} (hb : IsBytes l)
    (hd : l.drop p = d ++ t) : IsBytes d ∧ IsBytes t := by
  have := isBytes_drop hb p
  rw [hd] at this
  exact isBytes_append.mp this

theorem process_versioned_object_spec (h : Allocator) (bound : Nat)
    (hg : grants_below h bound) (hb : bound ≤ SIZE_MOD) (fields : List Nat)
    (r : bcs_reader_t) (w : bcs_writer_t) (b : List Nat) (idx : Nat) (rest : List Nat)
    (hf : fields.length = 40)
    (hbytes : IsBytes r.buffer) (hlen : r.length = r.buffer.length)
    (hfit : r.buffer.length < bound)
    (hd : r.buffer.drop r.position = fields ++ rest)
    (hw : unlimited_writer 512 w b) (hsz : b.length + 40 + 512 < bound) :
    ∃ w2, process_versioned_object h r w idx =
        some (BCS_OK, { r with position := r.position + 40 }, w2, idx) ∧
      unlimited_writer 512 w2 (b ++ fields) := by
  have htot := drop_length_le _ fields rest _ hd (by omega)
  have hsplit : fields = fields.take 8 ++ fields.drop 8 := (List.take_append_drop 8 fields).symm
  have h8 : (fields.take 8).length = 8 := by simp [hf]
  have h32 : (fields.drop 8).length = 32 := by simp [hf]
  have hd1 : r.buffer.drop r.position = fields.take 8 ++ (fields.drop 8 ++ rest) := by
    rw [hd, ← List.append_assoc, ← hsplit]
  have hb8 : IsBytes (fields.take 8) := (isBytes_of_drop hbytes hd1).1
  have r1 := read_u64_drop r _ _ h8 hbytes hlen (by omega) hd1
  have hd2 : r.buffer.drop (r.position + 8) = fields.drop 8 ++ rest := by
    have := drop_advance _ _ _ _ hd1
    rwa [h8] at this
  have r2 := read_bytes_drop { r with position := r.position + 8 } (fields.drop 8) rest
    hlen (by simp only; omega) (by simp only; omega) hd2
  simp only [h32] at r2
  obtain ⟨w1, e1, hw1⟩ := write_all_one h bound hg hb (.u64 (le_value (fields.take 8))) w b hw
    trivial (by simp only [write_op.bytes, le_bytes_length]; omega)
  have hle : le_bytes 8 (le_value (fields.take 8)) = fields.take 8 := by
    have := le_bytes_le_value _ hb8
    rwa [h8] at this
  simp only [write_op.bytes, hle] at hw1
  obtain ⟨w2, e2, hw2⟩ := write_all_one h bound hg hb (.fixed_bytes (some (fields.drop 8)) 32)
    w1 _ hw1 (by show 32 ≤ _; omega)
    (by simp only [write_op.bytes, Option.getD_some, List.length_append, List.length_take,
          h8, h32]; omega)
  have htk : List.take 32 (fields.drop 8) = fields.drop 8 := List.take_of_length_le (by omega)
  simp only [write_op.bytes, Option.getD_some, htk, List.append_assoc, ← hsplit] at hw2
  refine ⟨w2, ?_, hw2⟩
  unfold process_versioned_object
  simp only [r1, ne_eq, not_true_eq_false, if_false, e1, Option.some_bind, r2, e2,
    Nat.add_assoc]

theorem process_shared_object_spec (h : Allocator) (bound : Nat)
    (hg : grants_below h bound) (hb : bound ≤ SIZE_MOD) (fields : List Nat)
    (r : bcs_reader_t) (w : bcs_writer_t) (b : List Nat) (idx : Nat) (rest : List Nat)
    (hf : fields.length = 9)
    (hbytes : IsBytes r.buffer) (hlen : r.length = r.buffer.length)
    (hfit : r.buffer.length < bound)
    (hd : r.buffer.drop r.position = fields ++ rest)
    (hw : unlimited_writer 512 w b) (hsz : b.length + 9 + 512 < bound) :
    ∃ w2, process_shared_object h r w idx =
        some (BCS_OK, { r with position := r.position + 9 }, w2, idx) ∧
      unlimited_writer 512 w2 (b ++ fields) := by
  have htot := drop_length_le _ fields rest _ hd (by omega)
  have hsplit : fields = fields.take 8 ++ fields.drop 8 := (List.take_append_drop 8 fields).symm
  have h8 : (fields.take 8).length = 8 := by simp [hf]
  have h1 : (fields.drop 8).length = 1 := by simp [hf]
  obtain ⟨m, hm⟩ : ∃ m, fields.drop 8 = [m] := List.length_eq_one.mp h1
  have hd1 : r.buffer.drop r.position = fields.take 8 ++ (m :: rest) := by
    rw [hd]; conv_lhs => rw [hsplit, hm]
    simp
  have hb8 := isBytes_of_drop hbytes hd1
  have hm256 : m < 256 := hb8.2 m (by simp)
  have r1 := read_u64_drop r _ _ h8 hbytes hlen (by omega) hd1
  have hd2 : r.buffer.drop (r.position + 8) = m :: rest := by
    have := drop_advance _ _ _ _ hd1
    rwa [h8] at this
  have r2 := read_u8_drop { r with position := r.position + 8 } m rest hlen hd2
  simp only at r2
  obtain ⟨w1, e1, hw1⟩ := write_all_one h bound hg hb (.u64 (le_value (fields.take 8))) w b hw
    trivial (by simp only [write_op.bytes, le_bytes_length]; omega)
  have hle : le_bytes 8 (le_value (fields.take 8)) = fields.take 8 := by
    have := le_bytes_le_value _ hb8.1
    rwa [h8] at this
  simp only [write_op.bytes, hle] at hw1
  obtain ⟨w2, e2, hw2⟩ := write_all_one h bound hg hb (.u8 m) w1 _ hw1 trivial
    (by simp only [write_op.bytes, List.length_append, List.length_take, h8,
          List.length_cons, List.length_nil]; omega)
  simp only [write_op.bytes, Nat.mod_eq_of_lt hm256, List.append_assoc, ← hm, ← hsplit] at hw2
  refine ⟨w2, ?_, hw2⟩
  unfold process_shared_object
  simp only [r1, ne_eq, not_true_eq_false, if_false, e1, Option.some_bind, r2, e2,
    Nat.add_assoc]

theorem process_object_spec (h : Allocator) (bound : Nat)
    (hg : grants_below h bound) (hb : bound ≤ SIZE_MOD) (variant : Nat) (id fields : List Nat)
    (r : bcs_reader_t) (w : bcs_writer_t) (b : List Nat) (idx : Nat) (rest : List Nat)
    (hid : id.length = 32) (hf : fields.length = object_fields_length variant)
    (hbytes : IsBytes r.buffer) (hlen : r.length = r.buffer.length)
    (hfit : r.buffer.length < bound)
    (hd : r.buffer.drop r.position = variant :: (id ++ fields) ++ rest)
    (hw : unlimited_writer 512 w b)
    (hsz : b.length + (1 + 32 + fields.length) + 512 < bound) :
    ∃ w2, process_object h r w idx =
        some (BCS_OK, { r with position := r.position + (1 + 32 + fields.length) }, w2, idx) ∧
      unlimited_writer 512 w2 (b ++ variant :: (id ++ fields)) := by
  simp only [List.cons_append, List.append_assoc] at hd
  have htot := drop_length_le _ (variant :: (id ++ fields)) rest _ (by simpa using hd) (by simp)
  simp only [List.length_cons, List.length_append] at htot
  have hv256 : variant < 256 :=
    (isBytes_of_drop (d := [variant]) hbytes (by simpa using hd)).1 variant (by simp)
  have r1 := read_u8_drop r variant _ hlen hd
  have hd1 : r.buffer.drop (r.position + 1) = id ++ (fields ++ rest) :=
    (drop_cons_getD _ _ _ _ hd).2
  have r2 := read_bytes_drop { r with position := r.position + 1 } id (fields ++ rest)
    hlen (by simp only; omega) (by simp only; omega) hd1
  simp only [hid] at r2
  have hd2 : r.buffer.drop (r.position + 1 + 32) = fields ++ rest := by
    have := drop_advance _ _ _ _ hd1
    rwa [hid] at this
  obtain ⟨w1, e1, hw1⟩ := write_all_one h bound hg hb (.u8 variant) w b hw trivial
    (by simp only [write_op.bytes, List.length_cons, List.length_nil]; omega)
  simp only [write_op.bytes, Nat.mod_eq_of_lt hv256] at hw1
  obtain ⟨w2, e2, hw2⟩ := write_all_one h bound hg hb (.fixed_bytes (some id) 32) w1 _ hw1
    (by show 32 ≤ _; omega)
    (by simp only [write_op.bytes, Option.getD_some, List.length_append, List.length_take,
          List.length_cons, List.length_nil, hid]; omega)
  have htk : List.take 32 id = id := List.take_of_length_le (by omega)
  simp only [write_op.bytes, Option.getD_some, htk] at hw2
  have hcat : ∀ x : List Nat, b ++ [variant] ++ id ++ x = b ++ variant :: (id ++ x) := by
    intro x; simp
  unfold object_fields_length at hf
  by_cases hv0 : variant = 0
  · rw [if_pos (Or.inl hv0)] at hf
    obtain ⟨w3, e3, hw3⟩ := process_versioned_object_spec h bound hg hb fields
      { r with position := r.position + 1 + 32 } w2 _ idx rest hf hbytes hlen hfit hd2 hw2
      (by simp only [List.length_append, List.length_cons, List.length_nil, hid]; omega)
    rw [hcat] at hw3
    refine ⟨w3, ?_, hw3⟩
    simp only [Nat.add_assoc] at e3 r2
    subst hv0
    unfold process_object
    simp only [r1, ne_eq, not_true_eq_false, if_false, e1, Option.some_bind, r2, e2,
      if_true, e3, hf, Nat.add_assoc]
  · by_cases hv1 : variant = 1
    · rw [if_neg (by omega), if_pos hv1] at hf
      obtain ⟨w3, e3, hw3⟩ := process_shared_object_spec h bound hg hb fields
        { r with position := r.position + 1 + 32 } w2 _ idx rest hf hbytes hlen hfit hd2 hw2
        (by simp only [List.length_append, List.length_cons, List.length_nil, hid]; omega)
      rw [hcat] at hw3
      refine ⟨w3, ?_, hw3⟩
      simp only [Nat.add_assoc] at e3 r2
      subst hv1
      unfold process_object
      simp only [r1, ne_eq, not_true_eq_false, if_false, e1, Option.some_bind, r2, e2,
        if_true, e3, hf, Nat.add_assoc, one_ne_zero]
    · by_cases hv2 : variant = 2
      · rw [if_pos (Or.inr hv2)] at hf
        obtain ⟨w3, e3, hw3⟩ := process_versioned_object_spec h bound hg hb fields
          { r with position := r.position + 1 + 32 } w2 _ idx rest hf hbytes hlen hfit hd2 hw2
          (by simp only [List.length_append, List.length_cons, List.length_nil, hid]; omega)
        rw [hcat] at hw3
        refine ⟨w3, ?_, hw3⟩
        simp only [Nat.add_assoc] at e3 r2
        subst hv2
        unfold process_object
        simp only [r1, ne_eq, not_true_eq_false, if_false, e1, Option.some_bind, r2, e2,
          if_true, e3, hf, Nat.add_assoc, OfNat.ofNat_ne_zero, OfNat.ofNat_ne_one]
      · rw [if_neg (by omega), if_neg hv1] at hf
        have hnil : fields = [] := List.length_eq_zero.mp hf
        subst hnil
        refine ⟨w2, ?_, by simpa using hw2⟩
        simp only [Nat.add_assoc] at r2
        unfold process_object
        simp only [r1, ne_eq, not_true_eq_false, if_false, e1, Option.some_bind, r2, e2, hv0,
          hv1, hv2, List.length_nil, Nat.add_zero, Nat.add_assoc]

theorem mutate_inputs_cons (h : Allocator) (pures : List (List Nat)) (idx : Nat)
    (x : tx_input) (xs : List tx_input) :
    mutate_inputs h pures idx (x :: xs) =
      mutate_inputs h pures idx [x] ++ mutate_inputs h pures (next_pure_idx idx x) xs := by
  cases x <;> simp [mutate_inputs, next_pure_idx]

theorem process_input_spec (h : Allocator) (bound : Nat) (pures : List (List Nat))
    (hg : grants_below h bound) (hb : bound ≤ SIZE_MOD) (x : tx_input) (hx : x.wf)
    (r : bcs_reader_t) (w : bcs_writer_t) (b : List Nat) (idx : Nat) (rest : List Nat)
    (hbytes : IsBytes r.buffer) (hlen : r.length = r.buffer.length)
    (hfit : r.buffer.length < bound)
    (hd : r.buffer.drop r.position = x.encode ++ rest)
    (hw : unlimited_writer 512 w b)
    (hsz : b.length + ((mutate_inputs h pures idx [x]).flatMap tx_input.encode).length + 512
      < bound) :
    ∃ w2, process_input h pures r w idx =
        some (BCS_OK, { r with position := r.position + x.encode.length }, w2,
          next_pure_idx idx x) ∧
      unlimited_writer 512 w2 (b ++ (mutate_inputs h pures idx [x]).flatMap tx_input.encode) := by
  cases x with
  | pure payload =>
    have hd0 : r.buffer.drop r.position =
        0 :: (uleb_enc payload.length ++ (payload ++ rest)) := by
      simpa [tx_input.encode] using hd
    have r1 := read_u8_drop r 0 _ hlen hd0
    have hd1 := (drop_cons_getD _ _ _ _ hd0).2
    obtain ⟨w1, e1, hw1⟩ := write_all_one h bound hg hb (.u8 0) w b hw trivial
      (by simp only [write_op.bytes, List.length_cons, List.length_nil]
          simp only [mutate_inputs, List.flatMap_cons, List.flatMap_nil, List.append_nil,
            tx_input.encode, List.length_cons] at hsz
          omega)
    simp only [write_op.bytes, Nat.zero_mod] at hw1
    have hfm : (mutate_inputs h pures idx [.pure payload]).flatMap tx_input.encode =
        0 :: ((mutate_inputs h pures idx [.pure payload]).flatMap tx_input.encode).tail := by
      simp [mutate_inputs, tx_input.encode]
    obtain ⟨w2, e2, hw2⟩ := process_pure_spec h bound pures hg hb payload
      { r with position := r.position + 1 } w1 _ idx rest hlen hfit hd1 hw1
      (by rw [hfm] at hsz
          simp only [List.length_append, List.length_cons, List.length_nil] at hsz ⊢
          omega)
    refine ⟨w2, ?_, ?_⟩
    · simp only [Nat.add_assoc] at e2
      unfold process_input
      simp only [r1, ne_eq, not_true_eq_false, if_false, e1, Option.some_bind, if_true, e2,
        tx_input.encode, next_pure_idx, List.length_cons, List.length_append]
      simp only [Nat.add_comm, Nat.add_left_comm]
    · rw [hfm]
      simpa using hw2
  | object variant id fields =>
    obtain ⟨hid, hf⟩ := hx
    have hd0 : r.buffer.drop r.position = 1 :: (variant :: (id ++ fields) ++ rest) := by
      simpa [tx_input.encode] using hd
    have r1 := read_u8_drop r 1 _ hlen hd0
    have hd1 := (drop_cons_getD _ _ _ _ hd0).2
    simp only [mutate_inputs, List.flatMap_cons, List.flatMap_nil, List.append_nil,
      tx_input.encode, List.length_cons, List.length_append] at hsz ⊢
    obtain ⟨w1, e1, hw1⟩ := write_all_one h bound hg hb (.u8 1) w b hw trivial
      (by simp only [write_op.bytes, List.length_cons, List.length_nil]; omega)
    simp only [write_op.bytes, Nat.one_mod] at hw1
    obtain ⟨w2, e2, hw2⟩ := process_object_spec h bound hg hb variant id fields
      { r with position := r.position + 1 } w1 _ idx rest hid hf hbytes hlen hfit hd1 hw1
      (by simp only [List.length_append, List.length_cons, List.length_nil]; omega)
    refine ⟨w2, ?_, by simpa using hw2⟩
    simp only [Nat.add_assoc] at e2
    unfold process_input
    simp only [r1, ne_eq, not_true_eq_false, if_false, e1, Option.some_bind, if_true, e2,
      next_pure_idx, one_ne_zero, hid]
    simp only [Nat.add_comm, Nat.add_left_comm]
  | other tag =>
    have h2 : 2 ≤ tag := hx
    have hd0 : r.buffer.drop r.position = tag :: rest := by
      simpa [tx_input.encode] using hd
    have ht256 : tag < 256 :=
      (isBytes_of_drop (d := [tag]) hbytes (by simpa using hd0)).1 tag (by simp)
    have r1 := read_u8_drop r tag _ hlen hd0
    simp only [mutate_inputs, List.flatMap_cons, List.flatMap_nil, List.append_nil,
      tx_input.encode, List.length_cons, List.length_nil] at hsz ⊢
    obtain ⟨w1, e1, hw1⟩ := write_all_one h bound hg hb (.u8 tag) w b hw trivial
      (by simp only [write_op.bytes, List.length_cons, List.length_nil]; omega)
    simp only [write_op.bytes, Nat.mod_eq_of_lt ht256] at hw1
    refine ⟨w1, ?_, hw1⟩
    unfold process_input
    have t0 : tag ≠ 0 := by omega
    have t1 : tag ≠ 1 := by omega
    simp only [r1, ne_eq, not_true_eq_false, if_false, e1, Option.some_bind, t0, t1,
      next_pure_idx]

theorem process_inputs_spec (h : Allocator) (bound : Nat) (pures : List (List Nat))
    (hg : grants_below h bound) (hb : bound ≤ SIZE_MOD) :
    ∀ (inputs : List tx_input) (r : bcs_reader_t) (w : bcs_writer_t) (b : List Nat)
      (idx : Nat) (rest : List Nat),
      (∀ x ∈ inputs, x.wf) → IsBytes r.buffer → r.length = r.buffer.length →
      r.buffer.length < bound →
      r.buffer.drop r.position = inputs.flatMap tx_input.encode ++ rest →
      unlimited_writer 512 w b →
      b.length + ((mutate_inputs h pures idx inputs).flatMap tx_input.encode).length + 512
        < bound →
      ∃ w2, process_inputs h pures inputs.length r w idx =
          some (BCS_OK,
            { r with position := r.position + (inputs.flatMap tx_input.encode).length }, w2) ∧
        unlimited_writer 512 w2
          (b ++ (mutate_inputs h pures idx inputs).flatMap tx_input.encode) := by
  intro inputs
  induction inputs with
  | nil =>
    intro r w b idx rest _ _ _ _ _ hw _
    exact ⟨w, by simp [process_inputs], by simpa [mutate_inputs] using hw⟩
  | cons x xs ih =>
    intro r w b idx rest hwf hbytes hlen hfit hd hw hsz
    rw [mutate_inputs_cons] at hsz ⊢
    simp only [List.flatMap_append, List.length_append, List.flatMap_cons,
      List.append_assoc] at hsz hd ⊢
    obtain ⟨w1, e1, hw1⟩ := process_input_spec h bound pures hg hb x (hwf x (by simp)) r w b idx
      (xs.flatMap tx_input.encode ++ rest) hbytes hlen hfit hd hw (by omega)
    have hd1 := drop_advance _ _ _ _ hd
    obtain ⟨w2, e2, hw2⟩ := ih { r with position := r.position + x.encode.length } w1 _
      (next_pure_idx idx x) rest (fun y hy => hwf y (by simp [hy])) hbytes hlen hfit hd1 hw1
      (by simp only [List.length_append]; omega)
    refine ⟨w2, ?_, by simpa using hw2⟩
    simp only [Nat.add_assoc] at e2
    simp only [List.length_cons, process_inputs, e1, Option.some_bind, ne_eq,
      not_true_eq_false, if_false, e2]

theorem finish_transaction_spec (h : Allocator) (bound : Nat)
    (hg : grants_below h bound) (hb : bound ≤ SIZE_MOD)
    (r : bcs_reader_t) (w : bcs_writer_t) (b rest : List Nat)
    (hlen : r.length = r.buffer.length) (hfit : r.buffer.length < bound)
    (hpos : r.position ≤ r.length)
    (hd : r.buffer.drop r.position = rest)
    (hw : unlimited_writer 512 w b)
    (hsz : 2 * (b ++ rest).length + 513 < bound) :
    finish_transaction h r w =
      some (BCS_OK, some (bcs_bytes_to_hex (b ++ rest) (b ++ rest).length,
        2 * (b ++ rest).length)) := by
  have hrl : rest.length = r.length - r.position := by
    have := congrArg List.length hd
    simp only [List.length_drop] at this
    omega
  simp only [List.length_append] at hsz
  unfold finish_transaction
  by_cases h0 : rest.length = 0
  · have hnil : rest = [] := List.length_eq_zero.mp h0
    have hrem : bcs_reader_remaining r = 0 := by
      unfold bcs_reader_remaining; split <;> omega
    simp only [hrem, Nat.lt_irrefl, if_false, gt_iff_lt]
    rw [writer_to_hex_ok h 512 bound w b hw hg hb (by omega)]
    simp [hnil]
  · have hrem : bcs_reader_remaining r = rest.length := by
      unfold bcs_reader_remaining; split <;> omega
    have r1 := read_bytes_drop r rest [] hlen (by omega) hpos (by simpa using hd)
    obtain ⟨w1, e1, hw1⟩ := write_all_one h bound hg hb
      (.fixed_bytes (some rest) rest.length) w b hw (Nat.le_refl _)
      (by simp only [write_op.bytes, Option.getD_some, List.take_length]; omega)
    simp only [write_op.bytes, Option.getD_some, List.take_length] at hw1
    have hgr := hg rest.length (by omega)
    simp only [hrem, gt_iff_lt, Nat.pos_of_ne_zero h0, if_true, hgr, Bool.true_eq_false,
      if_false, r1, ne_eq, not_true_eq_false, e1, Option.some_bind]
    rw [writer_to_hex_ok h 512 bound w1 _ hw1 hg hb
      (by simp only [List.length_append]; omega)]

/-- What `sui_modify_transaction_with_pure_values` does on a hex string that decodes
to a transaction made of a version byte, a kind byte, a canonical input count,
well-shaped inputs and arbitrary trailing bytes: it returns `BCS_OK` with the hex
of the same transaction in which the inputs are those `mutate_inputs` states. -/
theorem mutate_spec_hex (h : Allocator) (bound : Nat) (pures : List (List Nat))
    (hg : grants_below h bound) (hb : bound ≤ SIZE_MOD) (hex_tx : List Char)
    (version kind : Nat) (inputs : List tx_input) (rest : List Nat)
    (hhex : bcs_hex_to_bytes hex_tx (hex_tx.length / 2) =
      (BCS_OK, tx_bytes version kind inputs rest, (tx_bytes version kind inputs rest).length))
    (hhl : hex_tx.length / 2 < bound)
    (hwf : ∀ x ∈ inputs, x.wf) (hbytes : IsBytes (tx_bytes version kind inputs rest))
    (hin : (tx_bytes version kind inputs rest).length < bound)
    (hout : 2 * (tx_bytes version kind (mutate_inputs h pures 0 inputs) rest).length + 513
      < bound)
    (hcount : (mutate_inputs h pures 0 inputs).length = inputs.length) :
    sui_modify_transaction_with_pure_values h hex_tx pures =
      some (BCS_OK, some
        (bcs_bytes_to_hex (tx_bytes version kind (mutate_inputs h pures 0 inputs) rest)
          (tx_bytes version kind (mutate_inputs h pures 0 inputs) rest).length,
         2 * (tx_bytes version kind (mutate_inputs h pures 0 inputs) rest).length)) := by
  have hS : SIZE_MOD < U64_MOD := by decide
  have hgl := hg _ hhl
  -- version, kind, count
  have hv256 : version < 256 := hbytes version (by simp [tx_bytes])
  have hk256 : kind < 256 := hbytes kind (by simp [tx_bytes])
  have hd0 : (tx_bytes version kind inputs rest).drop 0 =
      version :: (kind :: (uleb_enc inputs.length ++
        (inputs.flatMap tx_input.encode ++ rest))) := by
    simp [tx_bytes]
  have hlen_in : (tx_bytes version kind inputs rest).length =
      2 + (uleb_enc inputs.length).length + (inputs.flatMap tx_input.encode).length +
        rest.length := by
    simp [tx_bytes]; omega
  have r1 := read_u8_drop (bcs_reader_init (tx_bytes version kind inputs rest)
    (tx_bytes version kind inputs rest).length) version _ rfl hd0
  have hd1 := (drop_cons_getD _ _ _ _ hd0).2
  have r2 := read_u8_drop ⟨tx_bytes version kind inputs rest,
    (tx_bytes version kind inputs rest).length, 0 + 1⟩ kind _ rfl hd1
  have hd2 := (drop_cons_getD _ _ _ _ hd1).2
  have hn : inputs.length < bound := by
    have : ∀ l : List tx_input, l.length ≤ (l.flatMap tx_input.encode).length := by
      intro l
      induction l with
      | nil => simp
      | cons x xs ih =>
        simp only [List.flatMap_cons, List.length_append, List.length_cons]
        have : 1 ≤ x.encode.length := by cases x <;> simp [tx_input.encode]
        omega
    have := this inputs
    omega
  have r3 := bcs_read_uleb128_enc inputs.length (by omega)
    ⟨tx_bytes version kind inputs rest, (tx_bytes version kind inputs rest).length, 0 + 1 + 1⟩
    _ hd2 (by simp only; omega)
  have hd3 := drop_advance _ _ _ _ hd2
  -- the writer
  obtain ⟨hi, hw0⟩ := bcs_writer_init_ok h 512 bound (by decide) hg (by omega)
  have hlen_out : (tx_bytes version kind (mutate_inputs h pures 0 inputs) rest).length =
      2 + (uleb_enc inputs.length).length +
        ((mutate_inputs h pures 0 inputs).flatMap tx_input.encode).length + rest.length := by
    simp [tx_bytes, hcount]; omega
  obtain ⟨w1, e1, hw1⟩ := write_all_ok h 512 bound hg hb
    [.u8 version, .u8 kind, .uleb128 inputs.length] _ [] hw0
    (by intro op hop
        simp only [List.mem_cons, List.mem_singleton, List.not_mem_nil, or_false] at hop
        rcases hop with hop | hop | hop <;> subst hop <;> trivial)
    (by simp only [List.flatMap_cons, List.flatMap_nil, write_op.bytes, List.append_nil,
          List.length_append, List.length_cons, List.length_nil,
          u64_mod_small _ (Nat.lt_of_lt_of_le hn hb)]
        omega)
  simp only [List.flatMap_cons, List.flatMap_nil, write_op.bytes, List.append_nil,
    u64_mod_small _ (Nat.lt_of_lt_of_le hn hb), Nat.mod_eq_of_lt hv256,
    Nat.mod_eq_of_lt hk256, List.nil_append] at hw1
  -- the inputs
  obtain ⟨w2, e2, hw2⟩ := process_inputs_spec h bound pures hg hb inputs
    ⟨tx_bytes version kind inputs rest, (tx_bytes version kind inputs rest).length,
      0 + 1 + 1 + (uleb_enc inputs.length).length⟩ w1 _ 0 rest hwf hbytes rfl hin hd3 hw1
    (by simp only [List.length_append, List.length_cons, List.length_nil]; omega)
  -- the rest
  have hd4 := drop_advance _ _ _ _ hd3
  have hfin := finish_transaction_spec h bound hg hb
    ⟨tx_bytes version kind inputs rest, (tx_bytes version kind inputs rest).length,
      0 + 1 + 1 + (uleb_enc inputs.length).length +
        (inputs.flatMap tx_input.encode).length⟩ w2 _ rest rfl hin
    (by simp only; omega) hd4 hw2
    (by simp only [List.length_append, List.length_cons, List.length_nil]; omega)
  simp only [bcs_reader_init, Nat.zero_add] at r1 r2 r3 e2 hfin
  have hreb : rebuild_transaction h pures
      ⟨tx_bytes version kind inputs rest, (tx_bytes version kind inputs rest).length,
        1 + 1 + (uleb_enc inputs.length).length⟩ version kind inputs.length =
      some (BCS_OK, some
        (bcs_bytes_to_hex (tx_bytes version kind (mutate_inputs h pures 0 inputs) rest)
          (tx_bytes version kind (mutate_inputs h pures 0 inputs) rest).length,
         2 * (tx_bytes version kind (mutate_inputs h pures 0 inputs) rest).length)) := by
    unfold rebuild_transaction
    simp only [hi, ne_eq, not_true_eq_false, if_false]
    rw [e1]
    simp only [Option.some_bind]
    rw [e2]
    simp only [Option.some_bind, ne_eq, not_true_eq_false, if_false]
    rw [hfin]
    simp [tx_bytes, hcount]
  unfold sui_modify_transaction_with_pure_values
  simp only []
  rw [hgl]
  simp only [Bool.true_eq_false, if_false]
  rw [hhex]
  simp only [ne_eq, not_true_eq_false, if_false, bcs_reader_init]
  rw [r1]
  simp only [ne_eq, not_true_eq_false, if_false]
  rw [r2]
  simp only [ne_eq, not_true_eq_false, if_false]
  rw [r3]
  simp only [ne_eq, not_true_eq_false, if_false]
  exact hreb

theorem mutate_inputs_length (h : Allocator) (pures : List (List Nat)) :
    ∀ (inputs : List tx_input) (idx : Nat),
      (mutate_inputs h pures idx inputs).length = inputs.length := by
  intro inputs
  induction inputs with
  | nil => intro idx; rfl
  | cons x xs ih => intro idx; cases x <;> simp [mutate_inputs, ih]

/-- The specification of the Mutator on the hex that `bcs_bytes_to_hex` gives for
the transaction. -/
theorem mutate_spec (h : Allocator) (bound : Nat) (pures : List (List Nat))
    (hg : grants_below h bound) (hb : bound ≤ SIZE_MOD)
    (version kind : Nat) (inputs : List tx_input) (rest : List Nat)
    (hwf : ∀ x ∈ inputs, x.wf) (hbytes : IsBytes (tx_bytes version kind inputs rest))
    (hin : (tx_bytes version kind inputs rest).length < bound)
    (hout : 2 * (tx_bytes version kind (mutate_inputs h pures 0 inputs) rest).length + 513
      < bound) :
    sui_modify_transaction_with_pure_values h
        (bcs_bytes_to_hex (tx_bytes version kind inputs rest)
          (tx_bytes version kind inputs rest).length) pures =
      some (BCS_OK, some
        (bcs_bytes_to_hex (tx_bytes version kind (mutate_inputs h pures 0 inputs) rest)
          (tx_bytes version kind (mutate_inputs h pures 0 inputs) rest).length,
         2 * (tx_bytes version kind (mutate_inputs h pures 0 inputs) rest).length)) := by
  have hhl : (bcs_bytes_to_hex (tx_bytes version kind inputs rest)
      (tx_bytes version kind inputs rest).length).length / 2 =
      (tx_bytes version kind inputs rest).length := by
    rw [bcs_bytes_to_hex_length]; omega
  apply mutate_spec_hex h bound pures hg hb _ version kind inputs rest _ _ hwf hbytes hin hout
    (mutate_inputs_length h pures inputs 0)
  · rw [hhl]
    exact hex_round_trip _ hbytes _ (Nat.le_refl _)
  · rw [hhl]; exact hin

/-- C3, the code at the failing input. The transaction `00 00 01 | 00 01 aa` has one
Pure input with payload `aa`; with no replacement the claim keeps the input as it
is, but the Mutator copies the payload out of the temporary it has already
released: on an allocator that overwrites released blocks the output payload is
`fe`. -/
theorem mutator_fallback_reads_released_block :
    bcs_bytes_to_hex (tx_bytes 0 0 [.pure [0xAA]] []) 6 = "0000010001aa".toList ∧
      sui_modify_transaction_with_pure_values scrubbingAllocator "0000010001aa".toList [] =
        some (BCS_OK, some ("0000010001fe".toList, 12)) := by
  decide

theorem scrubbingAllocator_grants (bound : Nat) (hb : bound ≤ 2147483648) :
    grants_below scrubbingAllocator bound := by
  intro n hn
  simp only [scrubbingAllocator, decide_eq_true_eq]
  omega

/-- C4. Mutator selectivity: on a transaction made of a version byte, a kind byte,
input count 2, one Pure input, one Shared-object input (tag `01`, variant `01`,
32-byte id, 8-byte initial shared version, mutability byte) and arbitrary trailing
bytes, with a single replacement payload `rep`, the Mutator returns `BCS_OK` and the
output is the input with the Pure length prefix and payload replaced by
`uleb(|rep|) ++ rep`; the 43 bytes of the Shared-object input and the trailing
bytes follow unchanged, in the same order. -/
theorem mutator_selectivity (h : Allocator) (bound : Nat) (hg : grants_below h bound)
    (hb : bound ≤ SIZE_MOD) (version kind : Nat)
    (payload id shared_version rest rep : List Nat) (is_mutable : Nat)
    (hid : id.length = 32) (hver : shared_version.length = 8)
    (hbytes : IsBytes ([version, kind, 0x02, 0x00] ++ uleb_enc payload.length ++ payload ++
      ([0x01, 0x01] ++ id ++ shared_version ++ [is_mutable]) ++ rest))
    (hin : 49 + (uleb_enc payload.length).length + payload.length + rest.length < bound)
    (hout : 2 * (49 + (uleb_enc rep.length).length + rep.length + rest.length) + 513 < bound) :
    sui_modify_transaction_with_pure_values h
        (bcs_bytes_to_hex
          ([version, kind, 0x02, 0x00] ++ uleb_enc payload.length ++ payload ++
            ([0x01, 0x01] ++ id ++ shared_version ++ [is_mutable]) ++ rest)
          ([version, kind, 0x02, 0x00] ++ uleb_enc payload.length ++ payload ++
            ([0x01, 0x01] ++ id ++ shared_version ++ [is_mutable]) ++ rest).length) [rep] =
      some (BCS_OK, some
        (bcs_bytes_to_hex
          ([version, kind, 0x02, 0x00] ++ uleb_enc rep.length ++ rep ++
            ([0x01, 0x01] ++ id ++ shared_version ++ [is_mutable]) ++ rest)
          ([version, kind, 0x02, 0x00] ++ uleb_enc rep.length ++ rep ++
            ([0x01, 0x01] ++ id ++ shared_version ++ [is_mutable]) ++ rest).length,
         2 * ([version, kind, 0x02, 0x00] ++ uleb_enc rep.length ++ rep ++
            ([0x01, 0x01] ++ id ++ shared_version ++ [is_mutable]) ++ rest).length)) := by
  have e2 : uleb_enc 2 = [2] := by decide
  have hin_eq : tx_bytes version kind
      [.pure payload, .object 1 id (shared_version ++ [is_mutable])] rest =
      [version, kind, 0x02, 0x00] ++ uleb_enc payload.length ++ payload ++
        ([0x01, 0x01] ++ id ++ shared_version ++ [is_mutable]) ++ rest := by
    simp [tx_bytes, tx_input.encode, e2]
  have hmut : mutate_inputs h [rep] 0
      [.pure payload, .object 1 id (shared_version ++ [is_mutable])] =
      [.pure rep, .object 1 id (shared_version ++ [is_mutable])] := by
    simp [mutate_inputs]
  have hout_eq : tx_bytes version kind
      [.pure rep, .object 1 id (shared_version ++ [is_mutable])] rest =
      [version, kind, 0x02, 0x00] ++ uleb_enc rep.length ++ rep ++
        ([0x01, 0x01] ++ id ++ shared_version ++ [is_mutable]) ++ rest := by
    simp [tx_bytes, tx_input.encode, e2]
  have := mutate_spec h bound [rep] hg hb version kind
    [.pure payload, .object 1 id (shared_version ++ [is_mutable])] rest
    (by intro x hx
        simp only [List.mem_cons, List.mem_singleton, List.not_mem_nil, or_false] at hx
        rcases hx with hx | hx <;> subst hx
        · trivial
        · exact ⟨hid, by simp [object_fields_length, hver]⟩)
    (by rw [hin_eq]; exact hbytes)
    (by rw [hin_eq]
        simp only [List.length_append, List.length_cons, List.length_nil, hid, hver]
        omega)
    (by rw [hmut, hout_eq]
        simp only [List.length_append, List.length_cons, List.length_nil, hid, hver]
        omega)
  rw [hmut, hin_eq, hout_eq] at this
  exact this

theorem mutator_selectivity_witness :
    sui_modify_transaction_with_pure_values plainAllocator
        (bcs_bytes_to_hex
          ([0, 0, 0x02, 0x00] ++ uleb_enc [0xAA].length ++ [0xAA] ++
            ([0x01, 0x01] ++ (List.replicate 31 0 ++ [6]) ++ le_bytes 8 1 ++ [0]) ++ [9, 9])
          ([0, 0, 0x02, 0x00] ++ uleb_enc [0xAA].length ++ [0xAA] ++
            ([0x01, 0x01] ++ (List.replicate 31 0 ++ [6]) ++ le_bytes 8 1 ++ [0]) ++
              [9, 9]).length) [[1, 2, 3]] =
      some (BCS_OK, some
        (bcs_bytes_to_hex
          ([0, 0, 0x02, 0x00] ++ uleb_enc [1, 2, 3].length ++ [1, 2, 3] ++
            ([0x01, 0x01] ++ (List.replicate 31 0 ++ [6]) ++ le_bytes 8 1 ++ [0]) ++ [9, 9])
          ([0, 0, 0x02, 0x00] ++ uleb_enc [1, 2, 3].length ++ [1, 2, 3] ++
            ([0x01, 0x01] ++ (List.replicate 31 0 ++ [6]) ++ le_bytes 8 1 ++ [0]) ++
              [9, 9]).length,
         2 * ([0, 0, 0x02, 0x00] ++ uleb_enc [1, 2, 3].length ++ [1, 2, 3] ++
            ([0x01, 0x01] ++ (List.replicate 31 0 ++ [6]) ++ le_bytes 8 1 ++ [0]) ++
              [9, 9]).length)) :=
  mutator_selectivity plainAllocator 2147483648 (plainAllocator_grants _ (Nat.le_refl _))
    (by decide) 0 0 [0xAA] (List.replicate 31 0 ++ [6]) (le_bytes 8 1) [9, 9] [1, 2, 3] 0
    (by decide) (by decide) (by decide) (by decide) (by decide)

theorem hex_decode_pairs_isBytes : ∀ (n : Nat) (s : List Char) (bs : List Nat),
    s.length ≤ n → hex_decode_pairs s = some bs → IsBytes bs := by
  intro n
  induction n using Nat.strong_induction_on with
  | _ n ih =>
    intro s bs hn hs
    match s, hs with
    | [], hs => simp [hex_decode_pairs] at hs; subst hs; intro b hb; simp at hb
    | [_], hs => simp [hex_decode_pairs] at hs; subst hs; intro b hb; simp at hb
    | c1 :: c2 :: t, hs =>
      simp only [hex_decode_pairs] at hs
      split at hs
      · simp at hs
      · split at hs
        · simp at hs
        · rename_i bytes hb
          simp only [Option.some.injEq] at hs
          subst hs
          simp only [List.length_cons] at hn
          have := ih (n - 2) (by omega) t bytes (by omega) hb
          intro b hb
          simp only [List.mem_cons] at hb
          rcases hb with hb | hb
          · subst hb; exact Nat.mod_lt _ (by decide)
          · exact this b hb

theorem bcs_hex_to_bytes_isBytes (s : List Char) (m : Nat) (bs : List Nat) (n : Nat)
    (h : bcs_hex_to_bytes s m = (BCS_OK, bs, n)) : IsBytes bs := by
  unfold bcs_hex_to_bytes at h
  simp only at h
  split at h
  · simp at h
  · split at h
    · simp at h
    · split at h
      · simp at h
      · rename_i bytes hb
        simp only [Prod.mk.injEq, true_and] at h
        rw [← h.1]
        exact hex_decode_pairs_isBytes _ _ _ (Nat.le_refl _) hb

theorem read_released_faithful (h : Allocator)
    (hstale : ∀ (d : List Nat) (i : Nat), i < d.length → h.stale d i = d.getD i 0)
    (p : List Nat) (hp : IsBytes p) : read_released h p p.length = p := by
  apply List.ext_getElem
  · simp [read_released]
  · intro i h1 h2
    simp only [read_released, List.getElem_map, List.getElem_range]
    rw [hstale p i h2, List.getD_eq_getElem _ _ h2]
    exact Nat.mod_eq_of_lt (hp _ (List.getElem_mem _))

theorem mutate_inputs_none (h : Allocator)
    (hstale : ∀ (d : List Nat) (i : Nat), i < d.length → h.stale d i = d.getD i 0) :
    ∀ (inputs : List tx_input) (idx : Nat), IsBytes (inputs.flatMap tx_input.encode) →
      mutate_inputs h [] idx inputs = inputs := by
  intro inputs
  induction inputs with
  | nil => intro idx _; rfl
  | cons x xs ih =>
    intro idx hb
    simp only [List.flatMap_cons] at hb
    have hb2 := isBytes_append.mp hb
    cases x with
    | pure p =>
      have hp : IsBytes p := by
        intro c hc
        exact hb2.1 c (by simp [tx_input.encode, hc])
      simp [mutate_inputs, ih _ hb2.2, read_released_faithful h hstale p hp]
    | object v id f => simp [mutate_inputs, ih _ hb2.2]
    | other t => simp [mutate_inputs, ih _ hb2.2]

/-- C5 fails as stated: the hex `00008000` decodes to the bytes `00 00 80 00`, whose
input count 0 is written as the two-byte ULEB128 `80 00`. With no replacements the
Mutator returns `BCS_OK` with the hex `000000`, three bytes, not the four input
bytes. -/
theorem mutator_recodes_input_count :
    bcs_hex_to_bytes "00008000".toList 4 = (BCS_OK, [0x00, 0x00, 0x80, 0x00], 4) ∧
      sui_modify_transaction_with_pure_values plainAllocator "00008000".toList [] =
        some (BCS_OK, some ("000000".toList, 6)) ∧
      bcs_hex_to_bytes "000000".toList 3 = (BCS_OK, [0x00, 0x00, 0x00], 3) := by
  decide

theorem bcs_read_bytes_cases (r : bcs_reader_t) (n : Nat) (hpos : r.position ≤ r.length)
    (hl : r.length < 2147483648) (hn : n < 2147483648) :
    (r.length < r.position + n ∧ bcs_read_bytes r n = (BCS_ERROR_BUFFER_UNDERFLOW, r, [])) ∨
      (r.position + n ≤ r.length ∧
        bcs_read_bytes r n = (BCS_OK, { r with position := r.position + n }, bytes_ahead r n)) := by
  have hm : (r.position + n) % SIZE_MOD = r.position + n :=
    Nat.mod_eq_of_lt (by unfold SIZE_MOD; omega)
  unfold bcs_read_bytes bytes_ahead
  rw [hm]
  by_cases h : r.position + n > r.length
  · left; exact ⟨h, by rw [if_pos h]⟩
  · right; exact ⟨by omega, by rw [if_neg h]⟩

theorem bytes_ahead_length (r : bcs_reader_t) (n : Nat) (h : r.position + n ≤ r.buffer.length) :
    (bytes_ahead r n).length = n := by
  unfold bytes_ahead
  simp only [List.length_take, List.length_drop]
  omega

theorem writer_to_hex_cases (h : Allocator) (w : bcs_writer_t) :
    ((writer_to_hex h w).1 = BCS_OK ↔ (writer_to_hex h w).2.isSome = true) ∧
      ((writer_to_hex h w).1 ≠ BCS_OK → decode_error (writer_to_hex h w).1) := by
  unfold writer_to_hex
  simp only
  split <;> simp [decode_error]

theorem finish_transaction_total (h : Allocator) (bound : Nat)
    (hg : grants_below h bound) (hb : bound ≤ SIZE_MOD) (r : bcs_reader_t) (w : bcs_writer_t)
    (b : List Nat) (hpos : r.position ≤ r.length) (hl : r.length < 2147483648)
    (hbuf : r.length ≤ r.buffer.length) (hw : unlimited_writer 512 w b)
    (hsz : b.length + 12 * (r.length - r.position) + 512 < bound) :
    ∃ res, finish_transaction h r w = some res ∧ (res.1 = BCS_OK ↔ res.2.isSome = true) ∧
      (res.1 ≠ BCS_OK → decode_error res.1) := by
  have hrem : bcs_reader_remaining r = r.length - r.position := by
    unfold bcs_reader_remaining; split <;> omega
  unfold finish_transaction
  simp only [hrem]
  split
  · rename_i hpos2
    split
    · exact ⟨_, rfl, by simp, fun _ => Or.inr (Or.inr rfl)⟩
    · rename_i hgr
      have hn : r.length - r.position < 2147483648 := by omega
      rcases bcs_read_bytes_cases r (r.length - r.position) hpos hl hn with
        ⟨_, hrb⟩ | ⟨hfit, hrb⟩
      · rw [hrb]
        simp only [ne_eq, reduceCtorEq, not_false_eq_true, if_true]
        exact ⟨_, rfl, by simp, fun _ => Or.inl rfl⟩
      · rw [hrb]
        simp only [ne_eq, not_true_eq_false, if_false]
        obtain ⟨w1, e1, hw1⟩ := write_all_one h bound hg hb
          (.fixed_bytes (some (bytes_ahead r (r.length - r.position))) (r.length - r.position))
          w b hw (by
            show r.length - r.position ≤ (bytes_ahead _ _).length
            rw [bytes_ahead_length _ _ (by omega)])
          (by simp only [write_op.bytes, Option.getD_some, List.length_take]; omega)
        rw [e1]
        simp only [Option.some_bind]
        exact ⟨_, rfl, writer_to_hex_cases h w1⟩
  · exact ⟨_, rfl, writer_to_hex_cases h w⟩

theorem hex_decode_pairs_length : ∀ (n : Nat) (s : List Char) (bs : List Nat),
    s.length ≤ n → hex_decode_pairs s = some bs → bs.length = s.length / 2 := by
  intro n
  induction n using Nat.strong_induction_on with
  | _ n ih =>
    intro s bs hn hs
    match s, hs with
    | [], hs => simp [hex_decode_pairs] at hs; subst hs; rfl
    | [_], hs => simp [hex_decode_pairs] at hs; subst hs; simp
    | c1 :: c2 :: t, hs =>
      simp only [hex_decode_pairs] at hs
      split at hs
      · simp at hs
      · split at hs
        · simp at hs
        · rename_i bytes hb
          simp only [Option.some.injEq] at hs
          subst hs
          simp only [List.length_cons] at hn ⊢
          have := ih (n - 2) (by omega) t bytes (by omega) hb
          omega

theorem bcs_hex_to_bytes_length (s : List Char) (m : Nat) (bs : List Nat) (n : Nat)
    (h : bcs_hex_to_bytes s m = (BCS_OK, bs, n)) : n = bs.length ∧ bs.length ≤ m := by
  unfold bcs_hex_to_bytes at h
  simp only at h
  split at h
  · simp at h
  · split at h
    · simp at h
    · split at h
      · simp at h
      · rename_i h1 h2 bytes hb
        simp only [Prod.mk.injEq, true_and] at h
        have := hex_decode_pairs_length _ _ _ (Nat.le_refl _) hb
        rw [← h.1, ← h.2]
        omega

theorem bcs_hex_to_bytes_error (s : List Char) (m : Nat) :
    (bcs_hex_to_bytes s m).1 = BCS_OK ∨ (bcs_hex_to_bytes s m).1 = BCS_ERROR_INVALID_INPUT ∨
      (bcs_hex_to_bytes s m).1 = BCS_ERROR_BUFFER_TOO_SMALL := by
  unfold bcs_hex_to_bytes
  simp only
  split
  · simp
  · split
    · simp
    · split <;> simp

/-- C11, the code at the failing input. A reader over two bytes with the cursor at
1 has one byte left; a request for `2 ^ 32 - 1` bytes exceeds it, yet the sum
`position + length` wraps to 0 in `size_t`, the check passes, and
`bcs_read_bytes` returns `BCS_OK` with the cursor moved back to 0. -/
theorem read_bytes_length_check_wraps :
    (⟨[0xAA, 0xBB], 2, 1⟩ : bcs_reader_t).position ≤ 2 ∧
      4294967295 < SIZE_MOD ∧ 2 - 1 < 4294967295 ∧
      (bcs_read_bytes ⟨[0xAA, 0xBB], 2, 1⟩ 4294967295).1 = BCS_OK ∧
      (bcs_read_bytes ⟨[0xAA, 0xBB], 2, 1⟩ 4294967295).2.1 = ⟨[0xAA, 0xBB], 2, 0⟩ := by
  decide

/-- C13, the code at the failing input. Nine bytes `0x80` followed by `0x02` encode
`2 * 2 ^ 63 = 2 ^ 64`; the tenth group is shifted by 63 inside a `uint64_t`, its
bit falls off, and `bcs_read_uleb128` returns `BCS_OK` with the value 0. -/
theorem uleb128_wide_value_accepted :
    ((List.range 10).map
        (fun i => ((List.replicate 9 0x80 ++ [0x02]).getD i 0 &&& 0x7F) * 2 ^ (7 * i))).sum =
        2 ^ 64 ∧
      bcs_read_uleb128 ⟨List.replicate 9 0x80 ++ [0x02], 10, 0⟩ =
        (BCS_OK, ⟨List.replicate 9 0x80 ++ [0x02], 10, 10⟩, 0) := by
  decide

/-- C16. Boolean strictness: with at least one byte left, `bcs_read_bool` consumes
the next byte and returns `BCS_OK` with `false` for `0x00`, `BCS_OK` with `true`
for `0x01`, and `BCS_ERROR_INVALID_INPUT` for every other byte. -/
theorem read_bool_strict (r : bcs_reader_t) (h : r.position < r.length) :
    (byte_at r r.position = 0 →
        bcs_read_bool r = (BCS_OK, { r with position := r.position + 1 }, false)) ∧
      (byte_at r r.position = 1 →
        bcs_read_bool r = (BCS_OK, { r with position := r.position + 1 }, true)) ∧
      (1 < byte_at r r.position → (bcs_read_bool r).1 = BCS_ERROR_INVALID_INPUT) := by
  unfold bcs_read_bool
  rw [bcs_read_u8_ok r h]
  refine ⟨fun h0 => ?_, fun h1 => ?_, fun h2 => ?_⟩
  · simp [h0]
  · simp [h1]
  · simp [h2]

theorem read_bool_strict_witness :
    bcs_read_bool ⟨[0x01, 0x02], 2, 0⟩ = (BCS_OK, ⟨[0x01, 0x02], 2, 1⟩, true) ∧
      (bcs_read_bool ⟨[0x01, 0x02], 2, 1⟩).1 = BCS_ERROR_INVALID_INPUT :=
  ⟨(read_bool_strict ⟨[0x01, 0x02], 2, 0⟩ (by decide)).2.1 (by decide),
    (read_bool_strict ⟨[0x01, 0x02], 2, 1⟩ (by decide)).2.2 (by decide)⟩

/-- C19. Writer initialisation: `bcs_writer_init` on a present writer returns
`BCS_ERROR_INVALID_INPUT` exactly when `initial_capacity` is zero; otherwise, the
allocation being served, it returns `BCS_OK` with an empty written span, position
0, capacity and growth increment `initial_capacity`, and maximum size `max_size`. -/
theorem writer_init_contract (h : Allocator) (initial_capacity max_size : Nat) :
    ((bcs_writer_init h initial_capacity max_size).1 = BCS_ERROR_INVALID_INPUT ↔
        initial_capacity = 0) ∧
      (initial_capacity ≠ 0 → h.grants initial_capacity = true →
        bcs_writer_init h initial_capacity max_size =
          (BCS_OK, ⟨some [], initial_capacity, 0, max_size, initial_capacity⟩)) := by
  unfold bcs_writer_init
  refine ⟨?_, fun h0 hg => ?_⟩
  · by_cases h0 : initial_capacity = 0
    · simp [h0]
    · rw [if_neg h0]
      cases h.grants initial_capacity <;> simp [h0]
  · rw [if_neg h0, hg]
    simp

theorem writer_init_contract_witness :
    bcs_writer_init plainAllocator 8 16 = (BCS_OK, ⟨some [], 8, 0, 16, 8⟩) :=
  (writer_init_contract plainAllocator 8 16).2 (by decide) (by decide)

theorem continuation_bytes_succ (r : bcs_reader_t) (k : Nat) :
    continuation_bytes r (k + 1) ↔
      byte_at r r.position &&& 0x80 ≠ 0 ∧
        continuation_bytes { r with position := r.position + 1 } k := by
  unfold continuation_bytes byte_at
  constructor
  · intro h
    refine ⟨by simpa using h 0 (by omega), fun i hi => ?_⟩
    have := h (i + 1) (by omega)
    simpa [Nat.add_assoc, Nat.add_comm 1 i] using this
  · rintro ⟨h0, h1⟩ i hi
    cases i with
    | zero => simpa using h0
    | succ i =>
      have := h1 i (by omega)
      simpa [Nat.add_assoc, Nat.add_comm 1 i] using this

theorem bcs_reader_remaining_advance (r : bcs_reader_t) (h : r.position < r.length) :
    bcs_reader_remaining r =
      bcs_reader_remaining { r with position := r.position + 1 } + 1 := by
  unfold bcs_reader_remaining
  simp only
  split <;> split <;> omega

theorem bcs_read_uleb128_loop_errors (fuel : Nat) :
    ∀ (r : bcs_reader_t) (value shift : Nat), shift + 7 * (fuel + 1) = 70 →
      ((bcs_read_uleb128_loop (fuel + 1) r value shift).1 = BCS_ERROR_OVERFLOW ↔
        r.position + (fuel + 1) ≤ r.length ∧ continuation_bytes r (fuel + 1)) ∧
      ((bcs_read_uleb128_loop (fuel + 1) r value shift).1 = BCS_ERROR_BUFFER_UNDERFLOW ↔
        bcs_reader_remaining r < fuel + 1 ∧
          continuation_bytes r (bcs_reader_remaining r)) := by
  induction fuel with
  | zero =>
    intro r value shift hs
    unfold bcs_read_uleb128_loop
    by_cases hp : r.position ≥ r.length
    · rw [if_pos hp]
      have hr : bcs_reader_remaining r = 0 := by unfold bcs_reader_remaining; rw [if_pos hp]
      rw [hr]
      refine ⟨⟨fun h => by simp at h, fun h => by omega⟩,
        ⟨fun _ => ⟨by omega, fun i hi => by omega⟩, fun _ => rfl⟩⟩
    · rw [if_neg hp]
      have hr := bcs_reader_remaining_advance r (by omega)
      simp only
      rw [continuation_bytes_succ]
      by_cases hc : byte_at r r.position &&& 0x80 = 0
      · rw [if_pos hc]
        refine ⟨⟨fun h => by simp at h, fun h => absurd hc h.2.1⟩,
          ⟨fun h => by simp at h, fun h => ?_⟩⟩
        rw [hr, continuation_bytes_succ] at h
        exact absurd hc h.2.1
      · rw [if_neg hc, if_pos (by omega)]
        refine ⟨⟨fun _ => ⟨by omega, hc, fun i hi => by omega⟩, fun _ => rfl⟩,
          ⟨fun h => by simp at h, fun h => by omega⟩⟩
  | succ fuel ih =>
    intro r value shift hs
    unfold bcs_read_uleb128_loop
    by_cases hp : r.position ≥ r.length
    · rw [if_pos hp]
      have hr : bcs_reader_remaining r = 0 := by unfold bcs_reader_remaining; rw [if_pos hp]
      rw [hr]
      refine ⟨⟨fun h => by simp at h, fun h => by omega⟩,
        ⟨fun _ => ⟨by omega, fun i hi => by omega⟩, fun _ => rfl⟩⟩
    · rw [if_neg hp]
      have hr := bcs_reader_remaining_advance r (by omega)
      simp only
      rw [continuation_bytes_succ]
      by_cases hc : byte_at r r.position &&& 0x80 = 0
      · rw [if_pos hc]
        refine ⟨⟨fun h => by simp at h, fun h => absurd hc h.2.1⟩,
          ⟨fun h => by simp at h, fun h => ?_⟩⟩
        rw [hr, continuation_bytes_succ] at h
        exact absurd hc h.2.1
      · rw [if_neg hc, if_neg (by omega)]
        have := ih { r with position := r.position + 1 }
          (value ||| ((byte_at r r.position &&& 0x7F) <<< shift) % U64_MOD) (shift + 7)
          (by omega)
        rw [this.1, this.2, hr, continuation_bytes_succ r (bcs_reader_remaining _)]
        simp only
        refine ⟨⟨fun h => ⟨by omega, hc, h.2⟩, fun h => ⟨by omega, h.2.2⟩⟩,
          ⟨fun h => ⟨by omega, hc, h.2⟩, fun h => ⟨by omega, h.2.2⟩⟩⟩

/-- C12. ULEB128 error conditions, for every reader state: `bcs_read_uleb128` returns
`BCS_ERROR_OVERFLOW` exactly when the ten bytes at the cursor all exist and all
have the continuation bit set, and `BCS_ERROR_BUFFER_UNDERFLOW` exactly when
fewer than ten bytes remain and every one of them has the continuation bit set
(the input ends before a terminating byte and before a tenth continuation byte). -/
theorem uleb128_error_conditions (r : bcs_reader_t) :
    ((bcs_read_uleb128 r).1 = BCS_ERROR_OVERFLOW ↔
        r.position + 10 ≤ r.length ∧ continuation_bytes r 10) ∧
      ((bcs_read_uleb128 r).1 = BCS_ERROR_BUFFER_UNDERFLOW ↔
        bcs_reader_remaining r < 10 ∧ continuation_bytes r (bcs_reader_remaining r)) :=
  bcs_read_uleb128_loop_errors 9 r 0 0 (by decide)

theorem uleb_enc_length_ge : ∀ (k v : Nat), 128 ^ k ≤ v → k + 1 ≤ (uleb_enc v).length := by
  intro k
  induction k with
  | zero => intro v _; exact uleb_enc_pos v
  | succ k ih =>
    intro v h
    have h128 : 128 ≤ v := by
      have : 128 ^ 1 ≤ 128 ^ (k + 1) := Nat.pow_le_pow_right (by decide) (by omega)
      omega
    rw [uleb_enc_eq, if_neg (by omega)]
    have : 128 ^ k ≤ v / 128 := by
      rw [Nat.le_div_iff_mul_le (by decide)]
      rw [pow_succ] at h; exact h
    have := ih (v / 128) this
    simp only [List.length_cons]
    omega

theorem uleb_enc_shape : ∀ (k v : Nat), v < 128 ^ (k + 1) → uleb_shape (uleb_enc v) v := by
  intro k
  induction k with
  | zero =>
    intro v h
    have hv : v < 128 := by simpa using h
    rw [uleb_enc_eq, if_pos hv]
    refine ⟨fun i hi => by simp at hi, ?_, fun h0 => by simpa using h0⟩
    simpa using and_80_low v hv
  | succ k ih =>
    intro v h
    rw [uleb_enc_eq]
    split
    · rename_i hv
      refine ⟨fun i hi => by simp at hi, ?_, fun h0 => by simpa using h0⟩
      simpa using and_80_low v hv
    · rename_i hv
      have hd : v / 128 < 128 ^ (k + 1) := by
        rw [Nat.div_lt_iff_lt_mul (by decide)]; rw [pow_succ] at h; exact h
      obtain ⟨s1, s2, s3⟩ := ih (v / 128) hd
      have hpos := uleb_enc_pos (v / 128)
      have hlast : (uleb_enc (v / 128)).length + 1 - 1 =
          ((uleb_enc (v / 128)).length - 1) + 1 := by omega
      refine ⟨fun i hi => ?_, ?_, fun _ => ?_⟩
      · cases i with
        | zero =>
          simpa using and_80_high (v % 128) (Nat.mod_lt _ (by decide))
        | succ i =>
          simp only [List.length_cons] at hi
          simpa using s1 i (by omega)
      · simp only [List.length_cons]
        rw [hlast]
        simpa using s2
      · simp only [List.length_cons]
        rw [hlast]
        have : v / 128 ≠ 0 := by
          intro h0
          have := (Nat.div_eq_zero_iff (by decide : 0 < 128)).mp h0
          omega
        simpa using s3 this

/-- C14. The ULEB128 encoder equals the reference definition: for every 64-bit
value `v`, `bcs_write_uleb128` on a writer without maximum size succeeds and
appends exactly `uleb_enc v`, where `uleb_enc v = [v]` if `v < 128` and
`[(v mod 128) + 128] ++ uleb_enc (v div 128)` otherwise; in particular the
encodings of 0, 127, 128 and 300 are `00`, `7f`, `80 01` and `ac 02`. -/
theorem uleb128_encoder_reference (h : Allocator) (inc bound : Nat) (w : bcs_writer_t)
    (written : List Nat) (v : Nat) (hv : v < U64_MOD) (hw : unlimited_writer inc w written)
    (hg : grants_below h bound) (hb : bound ≤ SIZE_MOD)
    (hsz : written.length + 10 + inc < bound) :
    (∃ w2, bcs_write_uleb128 h w v = some (BCS_OK, w2) ∧
        unlimited_writer inc w2 (written ++ uleb_enc v)) ∧
      (∀ u, uleb_enc u = if u < 128 then [u] else [u % 128 + 128] ++ uleb_enc (u / 128)) ∧
      uleb_enc 0 = [0x00] ∧ uleb_enc 127 = [0x7F] ∧ uleb_enc 128 = [0x80, 0x01] ∧
      uleb_enc 300 = [0xAC, 0x02] := by
  have hl : (uleb_enc v).length ≤ 10 :=
    uleb_enc_length_le 9 v (Nat.lt_of_lt_of_le hv (by unfold U64_MOD; norm_num))
  refine ⟨bcs_write_uleb128_ok h inc bound w written v hv hw hg hb (by omega),
    fun u => ?_, by decide, by decide, by decide, by decide⟩
  rw [uleb_enc_eq u]
  rfl

theorem uleb128_encoder_reference_witness :
    ∃ w2, bcs_write_uleb128 plainAllocator ⟨some [], 8, 0, 0, 8⟩ 300 = some (BCS_OK, w2) ∧
      unlimited_writer 8 w2 ([] ++ uleb_enc 300) :=
  (uleb128_encoder_reference plainAllocator 8 2147483648 ⟨some [], 8, 0, 0, 8⟩ [] 300
    (by decide) (by decide) (plainAllocator_grants _ (Nat.le_refl _)) (by decide)
    (by decide)).1

/-- C15. ULEB128 encoding length and shape: for every 64-bit value `v` the bytes
`bcs_write_uleb128` appends number between 1 and 10, exactly 1 if and only if
`v < 128` and exactly 10 if and only if `v ≥ 2^63`; every byte but the last has
the high bit set, the last byte has it clear, and the last byte is non-zero
unless `v = 0`. -/
theorem uleb128_encoding_shape (h : Allocator) (inc bound : Nat) (w : bcs_writer_t)
    (written : List Nat) (v : Nat) (hv : v < U64_MOD) (hw : unlimited_writer inc w written)
    (hg : grants_below h bound) (hb : bound ≤ SIZE_MOD)
    (hsz : written.length + 10 + inc < bound) :
    ∃ w2 bs, bcs_write_uleb128 h w v = some (BCS_OK, w2) ∧
      unlimited_writer inc w2 (written ++ bs) ∧
      1 ≤ bs.length ∧ bs.length ≤ 10 ∧ (bs.length = 1 ↔ v < 128) ∧
      (bs.length = 10 ↔ 2 ^ 63 ≤ v) ∧
      (∀ i, i + 1 < bs.length → bs.getD i 0 &&& 0x80 ≠ 0) ∧
      bs.getD (bs.length - 1) 0 &&& 0x80 = 0 ∧
      (v ≠ 0 → bs.getD (bs.length - 1) 0 ≠ 0) := by
  have h70 : v < 128 ^ (9 + 1) := Nat.lt_of_lt_of_le hv (by unfold U64_MOD; norm_num)
  have hl : (uleb_enc v).length ≤ 10 := uleb_enc_length_le 9 v h70
  obtain ⟨w2, h1, h2⟩ := bcs_write_uleb128_ok h inc bound w written v hv hw hg hb (by omega)
  obtain ⟨s1, s2, s3⟩ := uleb_enc_shape 9 v h70
  refine ⟨w2, uleb_enc v, h1, h2, uleb_enc_pos v, hl, ⟨fun h1 => ?_, fun h1 => ?_⟩,
    ⟨fun h10 => ?_, fun h10 => ?_⟩, s1, s2, s3⟩
  · by_contra hc
    have := uleb_enc_length_ge 1 v (by simpa using hc)
    omega
  · have := uleb_enc_length_le 0 v (by simpa using h1)
    have := uleb_enc_pos v
    omega
  · by_contra hc
    have := uleb_enc_length_le 8 v (by
      have e : (128 : Nat) ^ (8 + 1) = 2 ^ 63 := by norm_num
      rw [e]; omega)
    omega
  · have := uleb_enc_length_ge 9 v (by
      have e : (128 : Nat) ^ 9 = 2 ^ 63 := by norm_num
      rw [e]; exact h10)
    omega

theorem uleb128_encoding_shape_witness :
    ∃ w2 bs, bcs_write_uleb128 plainAllocator ⟨some [], 8, 0, 0, 8⟩ 9223372036854775808 =
        some (BCS_OK, w2) ∧
      unlimited_writer 8 w2 ([] ++ bs) ∧
      1 ≤ bs.length ∧ bs.length ≤ 10 ∧ (bs.length = 1 ↔ 9223372036854775808 < 128) ∧
      (bs.length = 10 ↔ 2 ^ 63 ≤ 9223372036854775808) ∧
      (∀ i, i + 1 < bs.length → bs.getD i 0 &&& 0x80 ≠ 0) ∧
      bs.getD (bs.length - 1) 0 &&& 0x80 = 0 ∧
      (9223372036854775808 ≠ 0 → bs.getD (bs.length - 1) 0 ≠ 0) :=
  uleb128_encoding_shape plainAllocator 8 2147483648 ⟨some [], 8, 0, 0, 8⟩ []
    9223372036854775808 (by decide) (by decide) (plainAllocator_grants _ (Nat.le_refl _))
    (by decide) (by decide)

theorem bcs_read_string_cases (r r1 : bcs_reader_t) (L max_length : Nat)
    (hlen : r.length < SIZE_MOD) (hbuf : r.length ≤ r.buffer.length)
    (hu : bcs_read_uleb128 r = (BCS_OK, r1, L)) (hL : r1.position + L ≤ r1.length) :
    ((bcs_read_string r max_length).1 = BCS_ERROR_BUFFER_TOO_SMALL ↔ L ≥ max_length) ∧
      (L < max_length →
        bcs_read_string r max_length =
            (BCS_OK, { r1 with position := r1.position + L }, bytes_ahead r1 L, L) ∧
          (bytes_ahead r1 L).length = L) := by
  have hpos : r.position ≤ r.length := by
    by_contra hc
    have : (bcs_read_uleb128 r).1 = BCS_ERROR_BUFFER_UNDERFLOW := by
      unfold bcs_read_uleb128 bcs_read_uleb128_loop
      rw [if_pos (by omega)]
    rw [hu] at this
    simp at this
  have hk := bcs_read_uleb128_kept r hpos
  rw [hu] at hk
  obtain ⟨k1, k2, k3⟩ := hk
  simp only at k1 k2 k3
  have hLs : L % SIZE_MOD = L := Nat.mod_eq_of_lt (by omega)
  unfold bcs_read_string
  rw [hu]
  simp only [ne_eq, not_true_eq_false, if_false]
  by_cases hm : L ≥ max_length
  · rw [if_pos hm]
    exact ⟨⟨fun _ => hm, fun _ => rfl⟩, fun h => by omega⟩
  · rw [if_neg hm, hLs, bcs_read_bytes_ok r1 L (by omega) hL]
    simp only [ne_eq, not_true_eq_false, if_false]
    refine ⟨⟨fun h => by simp at h, fun h => absurd h hm⟩, fun _ => ⟨trivial, ?_⟩⟩
    exact bytes_ahead_length r1 L (by rw [k1]; omega)

/-- C17. The capacity check of `bcs_read_string`: when the reader is at a ULEB128
length `L` (decoded by `bcs_read_uleb128`, which leaves the reader at `r1`) that
is followed by at least `L` bytes, then for every destination capacity
`max_length` the result is `BCS_ERROR_BUFFER_TOO_SMALL` if and only if
`L ≥ max_length`; otherwise the result is `BCS_OK`, the `L` bytes after the
length are copied (the terminator follows them), `actual_length` is `L` and the
cursor is past them. -/
theorem read_string_capacity_check (r r1 : bcs_reader_t) (L max_length : Nat)
    (hlen : r.length < SIZE_MOD) (hbuf : r.length ≤ r.buffer.length)
    (hu : bcs_read_uleb128 r = (BCS_OK, r1, L)) (hL : r1.position + L ≤ r1.length) :
    ((bcs_read_string r max_length).1 = BCS_ERROR_BUFFER_TOO_SMALL ↔ L ≥ max_length) ∧
      (L < max_length →
        bcs_read_string r max_length =
            (BCS_OK, { r1 with position := r1.position + L }, bytes_ahead r1 L, L) ∧
          (bytes_ahead r1 L).length = L) :=
  bcs_read_string_cases r r1 L max_length hlen hbuf hu hL

theorem read_string_capacity_check_witness :
    ((bcs_read_string ⟨[3, 97, 98, 99], 4, 0⟩ 4).1 = BCS_ERROR_BUFFER_TOO_SMALL ↔ 3 ≥ 4) ∧
      (3 < 4 →
        bcs_read_string ⟨[3, 97, 98, 99], 4, 0⟩ 4 =
            (BCS_OK, ⟨[3, 97, 98, 99], 4, 4⟩, bytes_ahead ⟨[3, 97, 98, 99], 4, 1⟩ 3, 3) ∧
          (bytes_ahead ⟨[3, 97, 98, 99], 4, 1⟩ 3).length = 3) :=
  read_string_capacity_check ⟨[3, 97, 98, 99], 4, 0⟩ ⟨[3, 97, 98, 99], 4, 1⟩ 3 4
    (by decide) (by decide) (by decide) (by decide)

theorem bcs_write_string_ok (h : Allocator) (inc bound : Nat) (w : bcs_writer_t)
    (b s : List Nat) (hw : unlimited_writer inc w b) (hg : grants_below h bound)
    (hb : bound ≤ SIZE_MOD) (hsz : b.length + 10 + s.length + inc < bound) :
    ∃ w2, bcs_write_string h w (some s) = some (BCS_OK, w2) ∧
      unlimited_writer inc w2 (b ++ (uleb_enc s.length ++ s)) := by
  have hS : SIZE_MOD = 4294967296 := rfl
  have hv : s.length < U64_MOD := by unfold U64_MOD; omega
  have hl : (uleb_enc s.length).length ≤ 10 :=
    uleb_enc_length_le 9 _ (Nat.lt_of_lt_of_le hv (by unfold U64_MOD; norm_num))
  obtain ⟨w1, e1, u1⟩ := bcs_write_uleb128_ok h inc bound w b s.length hv hw hg hb (by omega)
  obtain ⟨w2, e2, u2⟩ := bcs_write_fixed_bytes_ok h inc bound w1 (b ++ uleb_enc s.length) s u1
    hg hb (by simp only [List.length_append]; omega)
  refine ⟨w2, ?_, by simpa [List.append_assoc] using u2⟩
  unfold bcs_write_string bcs_write_bytes
  simp only [Option.isNone_some, Bool.false_eq_true, false_and, if_false]
  rw [e1]
  simp only [ne_eq, not_true_eq_false, if_false]
  exact e2

/-- C18. Length-prefixed string round trip: for every text `s`, `bcs_write_string`
into a fresh writer without maximum size succeeds and leaves exactly
`uleb(|s|) ++ s`; `bcs_read_string` on those bytes with a destination capacity
greater than `|s|` returns `BCS_OK` with the bytes `s` and `actual_length = |s|`,
the cursor at the end of what was written. -/
theorem string_round_trip (h : Allocator) (cap max_length : Nat) (s : List Nat)
    (hcap : 0 < cap) (hsz : cap + s.length + 11 ≤ SIZE_MOD)
    (hg : grants_below h (cap + s.length + 11)) (hmax : s.length < max_length) :
    fresh_write_yields h cap (fun w => bcs_write_string h w (some s))
        (uleb_enc s.length ++ s) ∧
      bcs_read_string
          (bcs_reader_init (uleb_enc s.length ++ s) (uleb_enc s.length ++ s).length)
          max_length =
        (BCS_OK,
          ⟨uleb_enc s.length ++ s, (uleb_enc s.length ++ s).length,
            (uleb_enc s.length ++ s).length⟩, s, s.length) := by
  have hS : SIZE_MOD = 4294967296 := rfl
  have hv : s.length < U64_MOD := by unfold U64_MOD; omega
  have hl : (uleb_enc s.length).length ≤ 10 :=
    uleb_enc_length_le 9 _ (Nat.lt_of_lt_of_le hv (by unfold U64_MOD; norm_num))
  constructor
  · apply fresh_write_of_ok h cap (cap + s.length + 11) hcap hg (by omega)
    intro w hw
    exact bcs_write_string_ok h cap (cap + s.length + 11) w [] s hw hg hsz
      (by simp only [List.length_nil]; omega)
  · have hu := bcs_read_uleb128_enc s.length hv
      (bcs_reader_init (uleb_enc s.length ++ s) (uleb_enc s.length ++ s).length) s
      (by simp [bcs_reader_init]) (by simp [bcs_reader_init])
    have hc := bcs_read_string_cases _ _ s.length max_length
      (by simp only [bcs_reader_init, List.length_append]; omega)
      (by simp [bcs_reader_init]) hu
      (by simp [bcs_reader_init])
    have hr := (hc.2 hmax).1
    rw [hr]
    have hb : bytes_ahead
        { bcs_reader_init (uleb_enc s.length ++ s) (uleb_enc s.length ++ s).length with
          position := (bcs_reader_init (uleb_enc s.length ++ s)
            (uleb_enc s.length ++ s).length).position + (uleb_enc s.length).length }
        s.length = s := by
      apply bytes_ahead_prefix _ s []
      simp [bcs_reader_init]
    rw [hb]
    simp [bcs_reader_init]

theorem string_round_trip_witness :
    fresh_write_yields plainAllocator 8
        (fun w => bcs_write_string plainAllocator w (some [115, 111, 105, 108]))
        (uleb_enc 4 ++ [115, 111, 105, 108]) ∧
      bcs_read_string
          (bcs_reader_init (uleb_enc 4 ++ [115, 111, 105, 108])
            (uleb_enc 4 ++ [115, 111, 105, 108]).length) 5 =
        (BCS_OK,
          ⟨uleb_enc 4 ++ [115, 111, 105, 108], (uleb_enc 4 ++ [115, 111, 105, 108]).length,
            (uleb_enc 4 ++ [115, 111, 105, 108]).length⟩, [115, 111, 105, 108], 4) :=
  string_round_trip plainAllocator 8 5 [115, 111, 105, 108] (by decide) (by decide)
    (by decide) (by decide)

theorem grow_capacity_least (inc req : Nat) (hinc : 0 < inc) (hreq : req + inc ≤ SIZE_MOD) :
    ∀ fuel nc, req - nc < fuel →
      ∃ k, grow_capacity fuel nc req inc = some (nc + k * inc) ∧ req ≤ nc + k * inc ∧
        (nc < req → 1 ≤ k) ∧ ∀ j, req ≤ nc + j * inc → k ≤ j := by
  intro fuel
  induction fuel with
  | zero => intro nc h; omega
  | succ fuel ih =>
    intro nc h
    unfold grow_capacity
    split
    · rename_i hlt
      have hm : (nc + inc) % SIZE_MOD = nc + inc := Nat.mod_eq_of_lt (by omega)
      rw [hm]
      obtain ⟨k, h1, h2, _, h4⟩ := ih (nc + inc) (by omega)
      refine ⟨k + 1, ?_, ?_, fun _ => by omega, fun j hj => ?_⟩
      · rw [h1, Nat.succ_mul]
        congr 1
        omega
      · rw [Nat.succ_mul]; omega
      · cases j with
        | zero => simp at hj; omega
        | succ j =>
          rw [Nat.succ_mul] at hj
          have := h4 j (by omega)
          omega
    · rename_i hge
      exact ⟨0, by simp, by omega, fun hlt => absurd hlt hge, fun j _ => Nat.zero_le j⟩

/-- C20. Writer growth rule: on a writer without maximum size whose growth increment
is positive, the capacity check for a write of `n` bytes succeeds (allocation
being served, sizes within the target's `size_t`); the capacity is unchanged when
`position + n ≤ capacity`, and otherwise becomes `capacity + k * increment` for
the least `k ≥ 1` with `capacity + k * increment ≥ position + n`. A writer
initialised with capacity 8 (so with increment 8) that receives 20 bytes, as one
20-byte write or as twenty 1-byte writes, ends with position 20 and capacity 24. -/
theorem writer_growth_rule (h : Allocator) (bound : Nat) (w : bcs_writer_t) (n : Nat)
    (hmax : w.max_size = 0) (hinc : 0 < w.allocate_size) (hg : grants_below h bound)
    (hb : bound ≤ SIZE_MOD) (hsz : w.position + n + w.allocate_size < bound) :
    (∃ w2, ensure_capacity h w n = some (BCS_OK, w2) ∧ w2.position = w.position ∧
        w2.allocate_size = w.allocate_size ∧ w2.max_size = 0 ∧
        (w.position + n ≤ w.capacity → w2.capacity = w.capacity) ∧
        (w.capacity < w.position + n →
          ∃ k, 1 ≤ k ∧ w2.capacity = w.capacity + k * w.allocate_size ∧
            w.position + n ≤ w.capacity + k * w.allocate_size ∧
            ∀ j, 1 ≤ j → w.position + n ≤ w.capacity + j * w.allocate_size → k ≤ j)) ∧
      (write_all plainAllocator (bcs_writer_init plainAllocator 8 0).2
          [write_op.fixed_bytes (some (List.replicate 20 0)) 20]).map
        (fun w2 => (w2.position, w2.capacity)) = some (20, 24) ∧
      (write_all plainAllocator (bcs_writer_init plainAllocator 8 0).2
          (List.replicate 20 (write_op.u8 0))).map
        (fun w2 => (w2.position, w2.capacity)) = some (20, 24) := by
  refine ⟨?_, by decide, by decide⟩
  have hm : (w.position + n) % SIZE_MOD = w.position + n := Nat.mod_eq_of_lt (by omega)
  unfold ensure_capacity
  simp only [hm]
  by_cases hle : w.position + n ≤ w.capacity
  · rw [if_pos hle]
    exact ⟨w, rfl, rfl, rfl, hmax, fun _ => rfl, fun hlt => by omega⟩
  · rw [if_neg hle, if_neg (by omega)]
    obtain ⟨k, h1, h2, h3, h4⟩ := grow_capacity_least w.allocate_size (w.position + n) hinc
      (by omega) SIZE_MOD w.capacity (by omega)
    have hk1 : 1 ≤ k := h3 (by omega)
    have hlt : w.capacity + k * w.allocate_size < w.position + n + w.allocate_size := by
      by_contra hc
      have := h4 (k - 1) (by
        have e : k = (k - 1) + 1 := by omega
        rw [e, Nat.succ_mul] at hc
        omega)
      omega
    rw [h1]
    simp only [hmax, Nat.lt_irrefl, false_and, if_false]
    rw [if_neg (by omega), hg _ (by omega)]
    simp only [if_true]
    exact ⟨_, rfl, rfl, rfl, rfl, fun hc => absurd hc hle,
      fun _ => ⟨k, hk1, rfl, h2, fun j _ hj => h4 j hj⟩⟩

theorem writer_growth_rule_witness :
    ∃ w2, ensure_capacity plainAllocator ⟨some [], 8, 0, 0, 8⟩ 20 = some (BCS_OK, w2) ∧
      w2.position = 0 ∧ w2.allocate_size = 8 ∧ w2.max_size = 0 ∧
      (0 + 20 ≤ 8 → w2.capacity = 8) ∧
      (8 < 0 + 20 →
        ∃ k, 1 ≤ k ∧ w2.capacity = 8 + k * 8 ∧ 0 + 20 ≤ 8 + k * 8 ∧
          ∀ j, 1 ≤ j → 0 + 20 ≤ 8 + j * 8 → k ≤ j) :=
  (writer_growth_rule plainAllocator 2147483648 ⟨some [], 8, 0, 0, 8⟩ 20 rfl (by decide)
    (plainAllocator_grants _ (Nat.le_refl _)) (by decide) (by decide)).1

theorem grow_capacity_reaches (req inc : Nat) :
    ∀ fuel nc r, grow_capacity fuel nc req inc = some r → req ≤ r := by
  intro fuel
  induction fuel with
  | zero => intro nc r h; simp [grow_capacity] at h
  | succ fuel ih =>
    intro nc r h
    unfold grow_capacity at h
    split at h
    · exact ih _ r h
    · simp only [Option.some.injEq] at h
      omega

/-- What a call of `ensure_capacity` that returns leaves behind. -/
theorem ensure_capacity_frame (h : Allocator) (w : bcs_writer_t) (n : Nat) (e : bcs_error_t)
    (w1 : bcs_writer_t) (he : ensure_capacity h w n = some (e, w1)) :
    w1.position = w.position ∧ w1.max_size = w.max_size ∧
      w1.allocate_size = w.allocate_size ∧ (e ≠ BCS_OK → w1 = w) ∧
      (e = BCS_OK → (w.position + n) % SIZE_MOD ≤ w1.capacity ∧
        w1.buffer.getD [] = w.buffer.getD [] ∧
        (w1 = w ∨ (w1.buffer = some (w.buffer.getD []) ∧ w.capacity < w1.capacity ∧
          (0 < w.max_size → w1.capacity ≤ w.max_size)))) := by
  unfold ensure_capacity at he
  simp only at he
  by_cases hle : (w.position + n) % SIZE_MOD ≤ w.capacity
  · rw [if_pos hle] at he
    simp only [Option.some.injEq, Prod.mk.injEq] at he
    obtain ⟨rfl, rfl⟩ := he
    exact ⟨rfl, rfl, rfl, fun hc => absurd rfl hc, fun _ => ⟨hle, rfl, Or.inl rfl⟩⟩
  rw [if_neg hle] at he
  by_cases hmax : w.max_size > 0 ∧ (w.position + n) % SIZE_MOD > w.max_size
  · rw [if_pos hmax] at he
    simp only [Option.some.injEq, Prod.mk.injEq] at he
    obtain ⟨rfl, rfl⟩ := he
    exact ⟨rfl, rfl, rfl, fun _ => rfl, fun hc => by simp at hc⟩
  rw [if_neg hmax] at he
  cases hgrow : grow_capacity SIZE_MOD w.capacity ((w.position + n) % SIZE_MOD)
      w.allocate_size with
  | none => rw [hgrow] at he; simp at he
  | some grown =>
    rw [hgrow] at he
    simp only at he
    have hreach := grow_capacity_reaches _ _ _ _ _ hgrow
    by_cases hnew : (if w.max_size > 0 ∧ grown > w.max_size then w.max_size else grown) <
        (w.position + n) % SIZE_MOD
    · rw [if_pos hnew] at he
      simp only [Option.some.injEq, Prod.mk.injEq] at he
      obtain ⟨rfl, rfl⟩ := he
      exact ⟨rfl, rfl, rfl, fun _ => rfl, fun hc => by simp at hc⟩
    rw [if_neg hnew] at he
    by_cases hgr : h.grants (if w.max_size > 0 ∧ grown > w.max_size then w.max_size
        else grown) = true
    · rw [if_pos hgr] at he
      simp only [Option.some.injEq, Prod.mk.injEq] at he
      obtain ⟨rfl, rfl⟩ := he
      refine ⟨rfl, rfl, rfl, fun hc => absurd rfl hc, fun _ => ⟨by simpa using hnew, rfl,
        Or.inr ⟨rfl, ?_, fun hpos => ?_⟩⟩⟩
      · simp only
        omega
      · simp only
        split
        · exact Nat.le_refl _
        · rename_i hc
          omega
    · rw [if_neg hgr] at he
      simp only [Option.some.injEq, Prod.mk.injEq] at he
      obtain ⟨rfl, rfl⟩ := he
      exact ⟨rfl, rfl, rfl, fun _ => rfl, fun hc => by simp at hc⟩

theorem bcs_write_u8_shape (h : Allocator) (w : bcs_writer_t) (v : Nat) :
    bcs_write_u8 h w v = capacity_then_put h w 1 [v % 256] := rfl

theorem bcs_write_u16_shape (h : Allocator) (w : bcs_writer_t) (v : Nat) :
    bcs_write_u16 h w v = capacity_then_put h w 2 (le_bytes 2 v) := rfl

theorem bcs_write_u32_shape (h : Allocator) (w : bcs_writer_t) (v : Nat) :
    bcs_write_u32 h w v = capacity_then_put h w 4 (le_bytes 4 v) := rfl

theorem bcs_write_u64_shape (h : Allocator) (w : bcs_writer_t) (v : Nat) :
    bcs_write_u64 h w v = capacity_then_put h w 8 (le_bytes 8 v) := rfl

theorem bcs_write_fixed_bytes_shape (h : Allocator) (w : bcs_writer_t) (d : List Nat)
    (n : Nat) : bcs_write_fixed_bytes h w (some d) n = capacity_then_put h w n (d.take n) := by
  unfold bcs_write_fixed_bytes capacity_then_put
  simp only [Option.isNone_some, Bool.false_eq_true, false_and, if_false, Option.getD_some]

theorem capacity_then_put_cases (h : Allocator) (w : bcs_writer_t) (n : Nat) (d : List Nat)
    (e : bcs_error_t) (w2 : bcs_writer_t) (hr : capacity_then_put h w n d = some (e, w2)) :
    ∃ w1, ensure_capacity h w n = some (e, w1) ∧
      ((e ≠ BCS_OK ∧ w2 = w1) ∨ (e = BCS_OK ∧ w2 = put_bytes w1 d n)) := by
  unfold capacity_then_put at hr
  cases hec : ensure_capacity h w n with
  | none => rw [hec] at hr; simp at hr
  | some p =>
    obtain ⟨e1, w1⟩ := p
    rw [hec] at hr
    simp only at hr
    by_cases he1 : e1 = BCS_OK
    · subst he1
      simp only [ne_eq, not_true_eq_false, if_false, Option.some.injEq, Prod.mk.injEq] at hr
      obtain ⟨rfl, rfl⟩ := hr
      exact ⟨w1, rfl, Or.inr ⟨rfl, rfl⟩⟩
    · rw [if_pos he1] at hr
      simp only [Option.some.injEq, Prod.mk.injEq] at hr
      obtain ⟨rfl, rfl⟩ := hr
      exact ⟨w1, rfl, Or.inl ⟨he1, rfl⟩⟩

theorem capacity_then_put_bounds (capped : Prop) (h : Allocator) (w : bcs_writer_t) (n : Nat)
    (d : List Nat) (e : bcs_error_t) (w2 : bcs_writer_t)
    (hr : capacity_then_put h w n d = some (e, w2)) (hb : writer_bounds capped w) :
    writer_bounds capped w2 := by
  obtain ⟨w1, hec, hcase⟩ := capacity_then_put_cases h w n d e w2 hr
  obtain ⟨f1, f2, f3, f4, f5⟩ := ensure_capacity_frame h w n e w1 hec
  rcases hcase with ⟨hne, rfl⟩ | ⟨rfl, rfl⟩
  · rw [f4 hne]; exact hb
  · obtain ⟨g1, _, g3⟩ := f5 rfl
    unfold writer_bounds put_bytes
    simp only
    rw [f1, f2]
    refine ⟨g1, fun hc hpos => ?_⟩
    rcases g3 with rfl | ⟨_, _, g4⟩
    · exact hb.2 hc hpos
    · exact g4 hpos

theorem bcs_write_u8_bounds (capped : Prop) (h : Allocator) (w : bcs_writer_t) (v : Nat)
    (e : bcs_error_t) (w2 : bcs_writer_t) (hr : bcs_write_u8 h w v = some (e, w2))
    (hb : writer_bounds capped w) : writer_bounds capped w2 :=
  capacity_then_put_bounds capped h w 1 _ e w2 (by rw [← bcs_write_u8_shape]; exact hr) hb

theorem bcs_write_u64_bounds (capped : Prop) (h : Allocator) (w : bcs_writer_t) (v : Nat)
    (e : bcs_error_t) (w2 : bcs_writer_t) (hr : bcs_write_u64 h w v = some (e, w2))
    (hb : writer_bounds capped w) : writer_bounds capped w2 :=
  capacity_then_put_bounds capped h w 8 _ e w2 (by rw [← bcs_write_u64_shape]; exact hr) hb

theorem bcs_write_fixed_bytes_bounds (capped : Prop) (h : Allocator) (w : bcs_writer_t)
    (data : Option (List Nat)) (n : Nat) (e : bcs_error_t) (w2 : bcs_writer_t)
    (hr : bcs_write_fixed_bytes h w data n = some (e, w2)) (hb : writer_bounds capped w) :
    writer_bounds capped w2 := by
  cases data with
  | some d =>
    exact capacity_then_put_bounds capped h w n _ e w2
      (by rw [← bcs_write_fixed_bytes_shape]; exact hr) hb
  | none =>
    unfold bcs_write_fixed_bytes at hr
    by_cases hn : n > 0
    · simp only [Option.isNone_none, true_and, hn, if_true, Option.some.injEq,
        Prod.mk.injEq] at hr
      rw [← hr.2]; exact hb
    · have hr2 : capacity_then_put h w n ([] : List Nat) = some (e, w2) := by
        unfold capacity_then_put
        simpa [hn] using hr
      exact capacity_then_put_bounds capped h w n _ e w2 hr2 hb

theorem bcs_write_u128_bounds (capped : Prop) (h : Allocator) (w : bcs_writer_t)
    (high low : Nat) (e : bcs_error_t) (w2 : bcs_writer_t)
    (hr : bcs_write_u128 h w high low = some (e, w2)) (hb : writer_bounds capped w) :
    writer_bounds capped w2 := by
  unfold bcs_write_u128 at hr
  cases h1 : bcs_write_u64 h w low with
  | none => rw [h1] at hr; simp at hr
  | some p =>
    obtain ⟨e1, w1⟩ := p
    have b1 := bcs_write_u64_bounds capped h w low e1 w1 h1 hb
    rw [h1] at hr
    simp only at hr
    by_cases he1 : e1 = BCS_OK
    · rw [if_neg (by simpa using he1)] at hr
      cases h2 : bcs_write_u64 h w1 high with
      | none => rw [h2] at hr; simp at hr
      | some q =>
        obtain ⟨e2, w3⟩ := q
        have b2 := bcs_write_u64_bounds capped h w1 high e2 w3 h2 b1
        rw [h2] at hr
        simp only at hr
        split at hr <;>
          (simp only [Option.some.injEq, Prod.mk.injEq] at hr; rw [← hr.2]; exact b2)
    · rw [if_pos he1] at hr
      simp only [Option.some.injEq, Prod.mk.injEq] at hr
      rw [← hr.2]; exact b1

theorem bcs_write_uleb128_loop_bounds (capped : Prop) (h : Allocator) :
    ∀ (fuel : Nat) (w : bcs_writer_t) (v : Nat) (e : bcs_error_t) (w2 : bcs_writer_t),
      bcs_write_uleb128_loop h fuel w v = some (e, w2) → writer_bounds capped w →
      writer_bounds capped w2 := by
  intro fuel
  induction fuel with
  | zero => intro w v e w2 hr; simp [bcs_write_uleb128_loop] at hr
  | succ fuel ih =>
    intro w v e w2 hr hb
    unfold bcs_write_uleb128_loop at hr
    simp only at hr
    cases h1 : bcs_write_u8 h w (if v >>> 7 ≠ 0 then v &&& 0x7F ||| 0x80 else v &&& 0x7F) with
    | none => rw [h1] at hr; simp at hr
    | some p =>
      obtain ⟨e1, w1⟩ := p
      have b1 := bcs_write_u8_bounds capped h w _ e1 w1 h1 hb
      rw [h1] at hr
      simp only at hr
      by_cases he1 : e1 = BCS_OK
      · rw [if_neg (by simpa using he1)] at hr
        split at hr
        · exact ih w1 _ e w2 hr b1
        · simp only [Option.some.injEq, Prod.mk.injEq] at hr
          rw [← hr.2]; exact b1
      · rw [if_pos he1] at hr
        simp only [Option.some.injEq, Prod.mk.injEq] at hr
        rw [← hr.2]; exact b1

theorem bcs_write_uleb128_bounds (capped : Prop) (h : Allocator) (w : bcs_writer_t) (v : Nat)
    (e : bcs_error_t) (w2 : bcs_writer_t) (hr : bcs_write_uleb128 h w v = some (e, w2))
    (hb : writer_bounds capped w) : writer_bounds capped w2 :=
  bcs_write_uleb128_loop_bounds capped h 10 w _ e w2 hr hb

theorem bcs_write_bytes_bounds (capped : Prop) (h : Allocator) (w : bcs_writer_t)
    (data : Option (List Nat)) (n : Nat) (e : bcs_error_t) (w2 : bcs_writer_t)
    (hr : bcs_write_bytes h w data n = some (e, w2)) (hb : writer_bounds capped w) :
    writer_bounds capped w2 := by
  unfold bcs_write_bytes at hr
  split at hr
  · simp only [Option.some.injEq, Prod.mk.injEq] at hr
    rw [← hr.2]; exact hb
  · cases h1 : bcs_write_uleb128 h w n with
    | none => rw [h1] at hr; simp at hr
    | some p =>
      obtain ⟨e1, w1⟩ := p
      have b1 := bcs_write_uleb128_bounds capped h w n e1 w1 h1 hb
      rw [h1] at hr
      simp only at hr
      by_cases he1 : e1 = BCS_OK
      · rw [if_neg (by simpa using he1)] at hr
        exact bcs_write_fixed_bytes_bounds capped h w1 data n e w2 hr b1
      · rw [if_pos he1] at hr
        simp only [Option.some.injEq, Prod.mk.injEq] at hr
        rw [← hr.2]; exact b1

theorem bcs_writer_free_bounds (capped : Prop) (w : bcs_writer_t)
    (hb : writer_bounds capped w) : writer_bounds capped (bcs_writer_free w) := by
  unfold bcs_writer_free
  split
  · exact ⟨Nat.le_refl _, fun _ _ => Nat.zero_le _⟩
  · exact hb

theorem writer_call_bounds (capped : Prop) (h : Allocator) (w : bcs_writer_t)
    (call : writer_call) (e : bcs_error_t) (w2 : bcs_writer_t)
    (hr : call.run h w = some (e, w2)) (hb : writer_bounds capped w) :
    writer_bounds capped w2 := by
  cases call with
  | write_u8 v => exact bcs_write_u8_bounds capped h w v e w2 hr hb
  | write_u16 v =>
    exact capacity_then_put_bounds capped h w 2 _ e w2
      (by rw [← bcs_write_u16_shape]; exact hr) hb
  | write_u32 v =>
    exact capacity_then_put_bounds capped h w 4 _ e w2
      (by rw [← bcs_write_u32_shape]; exact hr) hb
  | write_u64 v => exact bcs_write_u64_bounds capped h w v e w2 hr hb
  | write_u128 high low => exact bcs_write_u128_bounds capped h w high low e w2 hr hb
  | write_u256 bytes =>
    simp only [writer_call.run, bcs_write_u256] at hr
    split at hr
    · simp only [Option.some.injEq, Prod.mk.injEq] at hr
      rw [← hr.2]; exact hb
    · exact bcs_write_fixed_bytes_bounds capped h w bytes 32 e w2 hr hb
  | write_bool v => exact bcs_write_u8_bounds capped h w _ e w2 hr hb
  | write_uleb128 v => exact bcs_write_uleb128_bounds capped h w v e w2 hr hb
  | write_bytes data n => exact bcs_write_bytes_bounds capped h w data n e w2 hr hb
  | write_string str =>
    cases str with
    | none =>
      simp only [writer_call.run, bcs_write_string, Option.some.injEq, Prod.mk.injEq] at hr
      rw [← hr.2]; exact hb
    | some s => exact bcs_write_bytes_bounds capped h w (some s) s.length e w2 hr hb
  | write_vec_length n => exact bcs_write_uleb128_bounds capped h w n e w2 hr hb
  | write_fixed_bytes data n => exact bcs_write_fixed_bytes_bounds capped h w data n e w2 hr hb
  | write_option_some => exact bcs_write_u8_bounds capped h w 1 e w2 hr hb
  | write_option_none => exact bcs_write_u8_bounds capped h w 0 e w2 hr hb
  | free =>
    simp only [writer_call.run, Option.some.injEq, Prod.mk.injEq] at hr
    rw [← hr.2]; exact bcs_writer_free_bounds capped w hb

theorem writer_calls_bounds (capped : Prop) (h : Allocator) :
    ∀ (calls : List writer_call) (w w2 : bcs_writer_t), writer_calls h w calls = some w2 →
      writer_bounds capped w → writer_bounds capped w2 := by
  intro calls
  induction calls with
  | nil =>
    intro w w2 hr hb
    simp only [writer_calls, Option.some.injEq] at hr
    rw [← hr]; exact hb
  | cons call calls ih =>
    intro w w2 hr hb
    unfold writer_calls at hr
    cases h1 : call.run h w with
    | none => rw [h1] at hr; simp at hr
    | some p =>
      obtain ⟨e1, w1⟩ := p
      rw [h1] at hr
      exact ih w1 w2 hr (writer_call_bounds capped h w call e1 w1 h1 hb)

/-- C22. Writer invariant, length within capacity: in every writer state reached
from a successful `bcs_writer_init` by a finite sequence of `write_*` and
`bcs_writer_free` calls, successful or failing, the written length is at most
the capacity. -/
theorem writer_length_within_capacity (h : Allocator) (initial_capacity max_size : Nat)
    (w0 w : bcs_writer_t) (calls : List writer_call)
    (hinit : bcs_writer_init h initial_capacity max_size = (BCS_OK, w0))
    (hrun : writer_calls h w0 calls = some w) : w.position ≤ w.capacity := by
  have h0 : writer_bounds False w0 := by
    unfold bcs_writer_init at hinit
    split at hinit
    · simp at hinit
    · split at hinit
      · simp only [Prod.mk.injEq, true_and] at hinit
        rw [← hinit]
        exact ⟨Nat.zero_le _, fun hc => absurd hc (fun x => x)⟩
      · simp at hinit
  exact (writer_calls_bounds False h calls w0 w hrun h0).1

theorem writer_length_within_capacity_witness :
    (⟨some [1, 0, 2], 4, 3, 0, 2⟩ : bcs_writer_t).position ≤
      (⟨some [1, 0, 2], 4, 3, 0, 2⟩ : bcs_writer_t).capacity :=
  writer_length_within_capacity plainAllocator 2 0 ⟨some [], 2, 0, 0, 2⟩
    ⟨some [1, 0, 2], 4, 3, 0, 2⟩
    [.write_u8 7, .free, .write_u16 1, .write_string none, .write_u8 2]
    (by decide) (by decide)

/-- C23, the code at the failing input. `bcs_writer_init` with initial capacity 32
and maximum size 16 succeeds and leaves a writer whose capacity 32 exceeds its
maximum size 16; a write of 20 bytes then succeeds, so the written length
exceeds the maximum size too. -/
theorem writer_init_exceeds_max_size :
    bcs_writer_init plainAllocator 32 16 = (BCS_OK, ⟨some [], 32, 0, 16, 32⟩) ∧
      ¬ ((⟨some [], 32, 0, 16, 32⟩ : bcs_writer_t).capacity ≤
        (⟨some [], 32, 0, 16, 32⟩ : bcs_writer_t).max_size) ∧
      writer_calls plainAllocator ⟨some [], 32, 0, 16, 32⟩
          [.write_fixed_bytes (some (List.replicate 20 7)) 20] =
        some ⟨some (List.replicate 20 7), 32, 20, 16, 32⟩ := by
  decide

theorem writer_calls_capped (h : Allocator) (initial_capacity max_size : Nat)
    (w0 w : bcs_writer_t) (calls : List writer_call) (hle : initial_capacity ≤ max_size)
    (hinit : bcs_writer_init h initial_capacity max_size = (BCS_OK, w0))
    (hrun : writer_calls h w0 calls = some w) :
    w.position ≤ w.capacity ∧ (0 < w.max_size → w.capacity ≤ w.max_size) := by
  have h0 : writer_bounds True w0 := by
    unfold bcs_writer_init at hinit
    split at hinit
    · simp at hinit
    · split at hinit
      · simp only [Prod.mk.injEq, true_and] at hinit
        rw [← hinit]
        exact ⟨Nat.zero_le _, fun _ _ => hle⟩
      · simp at hinit
  have := writer_calls_bounds True h calls w0 w hrun h0
  exact ⟨this.1, this.2 trivial⟩

/-- C30 fails as stated: a writer without storage whose capacity is 8 and whose
position is 3 is left as it is by `bcs_writer_free`, so after the release its
capacity and written length are not 0. -/
theorem writer_free_skips_empty_writer :
    bcs_writer_free ⟨none, 8, 3, 0, 8⟩ = ⟨none, 8, 3, 0, 8⟩ ∧
      ¬ ((bcs_writer_free ⟨none, 8, 3, 0, 8⟩).buffer = none ∧
        (bcs_writer_free ⟨none, 8, 3, 0, 8⟩).capacity = 0 ∧
        (bcs_writer_free ⟨none, 8, 3, 0, 8⟩).position = 0) := by
  decide

/-- C30, amended. For every writer state, `bcs_writer_free` applied twice yields the
same state as applied once, and after the first release the writer has no
storage; a writer that held storage has capacity 0 and written length 0
afterwards, and a writer that held none is left unchanged. -/
theorem writer_free_idempotent (w : bcs_writer_t) :
    bcs_writer_free (bcs_writer_free w) = bcs_writer_free w ∧
      (bcs_writer_free w).buffer = none ∧
      (w.buffer.isSome = true →
        (bcs_writer_free w).capacity = 0 ∧ (bcs_writer_free w).position = 0) ∧
      (w.buffer = none → bcs_writer_free w = w) := by
  unfold bcs_writer_free
  cases hb : w.buffer with
  | none => simp [hb]
  | some b => simp

theorem writer_free_idempotent_witness :
    (bcs_writer_free ⟨some [1, 2], 8, 2, 0, 8⟩).capacity = 0 ∧
      (bcs_writer_free ⟨some [1, 2], 8, 2, 0, 8⟩).position = 0 :=
  (writer_free_idempotent ⟨some [1, 2], 8, 2, 0, 8⟩).2.2.1 (by decide)

theorem capacity_then_put_appends (h : Allocator) (w w2 : bcs_writer_t) (n : Nat)
    (d b : List Nat) (hr : capacity_then_put h w n d = some (BCS_OK, w2))
    (hbuf : w.buffer = some b) :
    w2.buffer = some (b ++ d) ∧ w2.position = (w.position + n) % SIZE_MOD := by
  obtain ⟨w1, hec, hcase⟩ := capacity_then_put_cases h w n d BCS_OK w2 hr
  obtain ⟨f1, _, _, _, f5⟩ := ensure_capacity_frame h w n BCS_OK w1 hec
  obtain ⟨_, _, g3⟩ := f5 rfl
  have hb1 : w1.buffer = some b := by
    rcases g3 with rfl | ⟨g, _, _⟩
    · exact hbuf
    · rw [g, hbuf]; rfl
  rcases hcase with ⟨hne, _⟩ | ⟨_, rfl⟩
  · exact absurd rfl hne
  · simp only [put_bytes, hb1, Option.map_some', f1, and_self]

theorem le_bytes_getD (n x i : Nat) (hi : i < n) :
    (le_bytes n x).getD i 0 = (x >>> (8 * i)) &&& 0xFF := by
  unfold le_bytes
  rw [List.getD_eq_getElem?_getD, List.getElem?_map, List.getElem?_range hi]
  simp [Nat.mul_comm]

/-- C24. Integer writers append fixed-width little-endian bytes: on a writer whose
written span is `written`, a successful `bcs_write_u16` / `_u32` / `_u64`
advances the written length by exactly 2 / 4 / 8 and a successful
`bcs_write_u128` by 16; the appended bytes are `(v >> 8i) & 0xFF` for
`i = 0, 1, ...` (for `u128` those of `low`, then those of `high`); the bytes
written before are unchanged, and `bcs_writer_get_bytes` afterwards returns the
old span followed by the new bytes, with their number as the length. -/
theorem integer_writers_append (h : Allocator) (w : bcs_writer_t) (written : List Nat)
    (v high low : Nat) (hbuf : w.buffer = some written) (hlen : written.length = w.position)
    (hpos : w.position + 16 < SIZE_MOD) :
    (∀ w2, bcs_write_u16 h w v = some (BCS_OK, w2) →
        w2.position = w.position + 2 ∧
        bcs_writer_get_bytes w2 = (some (written ++ le_bytes 2 v), written.length + 2)) ∧
      (∀ w2, bcs_write_u32 h w v = some (BCS_OK, w2) →
        w2.position = w.position + 4 ∧
        bcs_writer_get_bytes w2 = (some (written ++ le_bytes 4 v), written.length + 4)) ∧
      (∀ w2, bcs_write_u64 h w v = some (BCS_OK, w2) →
        w2.position = w.position + 8 ∧
        bcs_writer_get_bytes w2 = (some (written ++ le_bytes 8 v), written.length + 8)) ∧
      (∀ w2, bcs_write_u128 h w high low = some (BCS_OK, w2) →
        w2.position = w.position + 16 ∧
        bcs_writer_get_bytes w2 =
          (some (written ++ (le_bytes 8 low ++ le_bytes 8 high)), written.length + 16)) ∧
      (∀ n x i, i < n → (le_bytes n x).getD i 0 = (x >>> (8 * i)) &&& 0xFF) := by
  have step : ∀ (w1 w2 : bcs_writer_t) (b d : List Nat) (n : Nat),
      capacity_then_put h w1 n d = some (BCS_OK, w2) → w1.buffer = some b →
      b.length = w1.position → w1.position + n < SIZE_MOD →
      w2.position = w1.position + n ∧
        bcs_writer_get_bytes w2 = (some (b ++ d), b.length + n) := by
    intro w1 w2 b d n hr hb hl hp
    obtain ⟨a1, a2⟩ := capacity_then_put_appends h w1 w2 n d b hr hb
    rw [Nat.mod_eq_of_lt hp] at a2
    refine ⟨a2, ?_⟩
    unfold bcs_writer_get_bytes
    rw [a1, a2, hl]
  refine ⟨fun w2 hr => ?_, fun w2 hr => ?_, fun w2 hr => ?_, fun w2 hr => ?_, le_bytes_getD⟩
  · rw [bcs_write_u16_shape] at hr
    exact step w w2 written _ 2 hr hbuf hlen (by omega)
  · rw [bcs_write_u32_shape] at hr
    exact step w w2 written _ 4 hr hbuf hlen (by omega)
  · rw [bcs_write_u64_shape] at hr
    exact step w w2 written _ 8 hr hbuf hlen (by omega)
  · unfold bcs_write_u128 at hr
    cases h1 : bcs_write_u64 h w low with
    | none => rw [h1] at hr; simp at hr
    | some p =>
      obtain ⟨e1, w1⟩ := p
      rw [h1] at hr
      simp only at hr
      by_cases he1 : e1 = BCS_OK
      · subst he1
        simp only [ne_eq, not_true_eq_false, if_false] at hr
        rw [bcs_write_u64_shape] at h1
        obtain ⟨p1, g1⟩ := step w w1 written _ 8 h1 hbuf hlen (by omega)
        have hb1 : w1.buffer = some (written ++ le_bytes 8 low) := by
          have := congrArg Prod.fst g1
          simpa [bcs_writer_get_bytes] using this
        cases h2 : bcs_write_u64 h w1 high with
        | none => rw [h2] at hr; simp at hr
        | some q =>
          obtain ⟨e2, w3⟩ := q
          rw [h2] at hr
          simp only at hr
          by_cases he2 : e2 = BCS_OK
          · subst he2
            simp only [ne_eq, not_true_eq_false, if_false, Option.some.injEq,
              Prod.mk.injEq, true_and] at hr
            subst hr
            rw [bcs_write_u64_shape] at h2
            obtain ⟨p2, g2⟩ := step w1 w3 (written ++ le_bytes 8 low) _ 8 h2 hb1
              (by rw [List.length_append, le_bytes_length, hlen, p1]) (by omega)
            refine ⟨by omega, ?_⟩
            rw [g2, List.length_append, le_bytes_length, List.append_assoc]
          · rw [if_pos he2] at hr
            simp only [Option.some.injEq, Prod.mk.injEq] at hr
            exact absurd hr.1 he2
      · rw [if_pos he1] at hr
        simp only [Option.some.injEq, Prod.mk.injEq] at hr
        exact absurd hr.1 he1

theorem integer_writers_append_witness :
    (⟨some [9, 0x34, 0x12], 8, 3, 0, 8⟩ : bcs_writer_t).position =
        (⟨some [9], 8, 1, 0, 8⟩ : bcs_writer_t).position + 2 ∧
      bcs_writer_get_bytes ⟨some [9, 0x34, 0x12], 8, 3, 0, 8⟩ =
        (some ([9] ++ le_bytes 2 0x1234), [9].length + 2) :=
  (integer_writers_append plainAllocator ⟨some [9], 8, 1, 0, 8⟩ [9] 0x1234 0 0 rfl rfl
    (by decide)).1 ⟨some [9, 0x34, 0x12], 8, 3, 0, 8⟩ (by decide)

set_option maxRecDepth 100000 in

theorem hex_digit_code : ∀ n, n < 128 →
    ((decide (48 ≤ n) && decide (n ≤ 57)) || (decide (97 ≤ n) && decide (n ≤ 102)) ||
      (decide (65 ≤ n) && decide (n ≤ 70))) = true →
    (if n ≤ 57 then n - 48 else (if 65 ≤ n ∧ n ≤ 90 then n + 32 else n) - 97 + 10) < 16 ∧
      (hex_chars (if n ≤ 57 then n - 48
        else (if 65 ≤ n ∧ n ≤ 90 then n + 32 else n) - 97 + 10)).toNat =
        (if 65 ≤ n ∧ n ≤ 90 then n + 32 else n) := by
  decide

theorem isxdigit_code (c : Char) (h : isxdigit c = true) : c.toNat < 128 := by
  unfold isxdigit at h
  simp only [Bool.or_eq_true, Bool.and_eq_true, decide_eq_true_eq] at h
  omega

theorem hex_digit_value_spec (c : Char) (h : isxdigit c = true) :
    hex_digit_value c < 16 ∧ hex_chars (hex_digit_value c) = lower_char c := by
  have hc := hex_digit_code c.toNat (isxdigit_code c h) h
  have e := congrArg Char.ofNat hc.2
  rw [Char.ofNat_toNat] at e
  unfold hex_digit_value tolower lower_char
  refine ⟨hc.1, ?_⟩
  unfold tolower
  exact e

theorem nibbles_byte : ∀ v1, v1 < 16 → ∀ v2, v2 < 16 →
    ((v1 <<< 4) ||| v2) % 256 = 16 * v1 + v2 ∧
      ((((v1 <<< 4) ||| v2) % 256) >>> 4) &&& 0x0F = v1 ∧
      (((v1 <<< 4) ||| v2) % 256) &&& 0x0F = v2 := by
  decide

theorem skip_hex_prefix_digits (d : List Char) (hd : ∀ c ∈ d, isxdigit c = true) :
    skip_hex_prefix d = d := by
  unfold skip_hex_prefix
  split
  · have := hd 'x' (by simp)
    exact absurd this (by decide)
  · have := hd 'X' (by simp)
    exact absurd this (by decide)
  · rfl

theorem hex_decode_pairs_spec : ∀ (n : Nat) (d : List Char), d.length = 2 * n →
    ((∃ c ∈ d, isxdigit c = false) → hex_decode_pairs d = none) ∧
      ((∀ c ∈ d, isxdigit c = true) →
        ∃ bs, hex_decode_pairs d = some bs ∧ bs.length = n ∧
          (∀ i, i < n → bs.getD i 0 =
            16 * hex_digit_value (d.getD (2 * i) '0') +
              hex_digit_value (d.getD (2 * i + 1) '0')) ∧
          bcs_bytes_to_hex bs bs.length = d.map lower_char) := by
  intro n
  induction n with
  | zero =>
    intro d hl
    have : d = [] := List.length_eq_zero.mp (by omega)
    subst this
    refine ⟨fun ⟨c, hc, _⟩ => by simp at hc, fun _ => ⟨[], rfl, rfl, fun i hi => by omega, rfl⟩⟩
  | succ n ih =>
    intro d hl
    match d, hl with
    | [], hl => exact absurd hl (by simp only [List.length_nil]; omega)
    | [_], hl => exact absurd hl (by simp only [List.length_cons, List.length_nil]; omega)
    | c1 :: c2 :: t, hl =>
      have ht : t.length = 2 * n := by simp only [List.length_cons] at hl; omega
      obtain ⟨ih1, ih2⟩ := ih t ht
      refine ⟨fun ⟨c, hc, hx⟩ => ?_, fun hall => ?_⟩
      · simp only [hex_decode_pairs]
        by_cases hbad : (!isxdigit c1 || !isxdigit c2) = true
        · rw [if_pos hbad]
        · rw [if_neg hbad]
          have hct : c ∈ t := by
            simp only [List.mem_cons] at hc
            rcases hc with rfl | rfl | hc
            · simp [hx] at hbad
            · simp [hx] at hbad
            · exact hc
          rw [ih1 ⟨c, hct, hx⟩]
      · have x1 := hall c1 (by simp)
        have x2 := hall c2 (by simp)
        obtain ⟨bs, e1, e2, e3, e4⟩ := ih2 (fun c hc => hall c (by simp [hc]))
        obtain ⟨v1, l1⟩ := hex_digit_value_spec c1 x1
        obtain ⟨v2, l2⟩ := hex_digit_value_spec c2 x2
        obtain ⟨n1, n2, n3⟩ := nibbles_byte _ v1 _ v2
        refine ⟨((hex_digit_value c1 <<< 4) ||| hex_digit_value c2) % 256 :: bs, ?_,
          by simp [e2], fun i hi => ?_, ?_⟩
        · simp only [hex_decode_pairs, x1, x2, Bool.not_true, Bool.or_self,
            Bool.false_eq_true, if_false, e1]
        · cases i with
          | zero => simpa using n1
          | succ i =>
            have := e3 i (by omega)
            have e : 2 * (i + 1) = 2 * i + 2 := by omega
            simpa [e] using this
        · rw [bcs_bytes_to_hex_cons, n2, n3, l1, l2, e4]
          rfl

/-- C25. Hex round trip: for every well-formed hex string (an even number of hex
digits `digits`, with no prefix or preceded by `0x` or `0X`) and every
destination capacity of at least half the digit count, `bcs_hex_to_bytes`
returns `BCS_OK` with that many bytes, and `bcs_bytes_to_hex` of the decoded
bytes is the digit string with every letter lowercased. -/
theorem hex_decode_then_encode (pre digits : List Char) (m : Nat)
    (hpre : pre = [] ∨ pre = ['0', 'x'] ∨ pre = ['0', 'X'])
    (heven : digits.length % 2 = 0) (hdig : ∀ c ∈ digits, isxdigit c = true)
    (hm : digits.length / 2 ≤ m) :
    ∃ bytes, bcs_hex_to_bytes (pre ++ digits) m = (BCS_OK, bytes, digits.length / 2) ∧
      bcs_bytes_to_hex bytes (digits.length / 2) = digits.map lower_char := by
  have hskip : skip_hex_prefix (pre ++ digits) = digits := by
    rcases hpre with rfl | rfl | rfl
    · exact skip_hex_prefix_digits digits hdig
    · rfl
    · rfl
  obtain ⟨bs, e1, e2, _, e4⟩ := (hex_decode_pairs_spec (digits.length / 2) digits
    (by omega)).2 hdig
  refine ⟨bs, ?_, by rw [← e2]; exact e4⟩
  unfold bcs_hex_to_bytes
  simp only [hskip]
  rw [if_neg (by omega), if_neg (by omega), e1]

theorem hex_decode_then_encode_witness :
    ∃ bytes, bcs_hex_to_bytes (['0', 'X'] ++ "0aFf".toList) 2 =
        (BCS_OK, bytes, "0aFf".toList.length / 2) ∧
      bcs_bytes_to_hex bytes ("0aFf".toList.length / 2) = "0aFf".toList.map lower_char :=
  hex_decode_then_encode ['0', 'X'] "0aFf".toList 2 (by decide) (by decide) (by decide)
    (by decide)

/-- C26 fails as stated: `zz` has two characters, neither a hex digit, and with
destination capacity 0 the result is `BCS_ERROR_BUFFER_TOO_SMALL`, not
`BCS_ERROR_INVALID_INPUT`: the capacity is checked before the characters are
looked at. -/
theorem hex_capacity_checked_before_digits :
    skip_hex_prefix "zz".toList = "zz".toList ∧
      (∃ c ∈ "zz".toList, isxdigit c = false) ∧
      bcs_hex_to_bytes "zz".toList 0 = (BCS_ERROR_BUFFER_TOO_SMALL, [], 0) := by
  decide

/-- C26, amended. Error classification of `bcs_hex_to_bytes`, for every string and
destination capacity, with `d` the string after one optional `0x`/`0X` prefix
is removed: `BCS_ERROR_INVALID_INPUT` when `d` has an odd number of characters;
otherwise `BCS_ERROR_BUFFER_TOO_SMALL` when half that number exceeds the
capacity; otherwise `BCS_ERROR_INVALID_INPUT` when `d` contains a character that
is not a hex digit; otherwise `BCS_OK` with the decoded bytes and their count. -/
theorem hex_decode_classification (s : List Char) (m : Nat) :
    (( skip_hex_prefix s).length % 2 ≠ 0 →
        (bcs_hex_to_bytes s m).1 = BCS_ERROR_INVALID_INPUT) ∧
      (( skip_hex_prefix s).length % 2 = 0 → m < ( skip_hex_prefix s).length / 2 →
        (bcs_hex_to_bytes s m).1 = BCS_ERROR_BUFFER_TOO_SMALL) ∧
      (( skip_hex_prefix s).length % 2 = 0 → ( skip_hex_prefix s).length / 2 ≤ m →
        (∃ c ∈ skip_hex_prefix s, isxdigit c = false) →
        (bcs_hex_to_bytes s m).1 = BCS_ERROR_INVALID_INPUT) ∧
      (( skip_hex_prefix s).length % 2 = 0 → ( skip_hex_prefix s).length / 2 ≤ m →
        (∀ c ∈ skip_hex_prefix s, isxdigit c = true) →
        ∃ bytes, bcs_hex_to_bytes s m = (BCS_OK, bytes, ( skip_hex_prefix s).length / 2) ∧
          bytes.length = ( skip_hex_prefix s).length / 2 ∧
          ∀ i, i < ( skip_hex_prefix s).length / 2 → bytes.getD i 0 =
            16 * hex_digit_value (( skip_hex_prefix s).getD (2 * i) '0') +
              hex_digit_value (( skip_hex_prefix s).getD (2 * i + 1) '0')) := by
  unfold bcs_hex_to_bytes
  simp only
  refine ⟨fun h1 => ?_, fun h1 h2 => ?_, fun h1 h2 h3 => ?_, fun h1 h2 h3 => ?_⟩
  · rw [if_pos h1]
  · rw [if_neg (by omega), if_pos (by omega)]
  · rw [if_neg (by omega), if_neg (by omega),
      (hex_decode_pairs_spec (( skip_hex_prefix s).length / 2) _ (by omega)).1 h3]
  · obtain ⟨bs, e1, e2, e3, _⟩ :=
      (hex_decode_pairs_spec (( skip_hex_prefix s).length / 2) _ (by omega)).2 h3
    rw [if_neg (by omega), if_neg (by omega), e1]
    exact ⟨bs, rfl, e2, e3⟩

theorem hex_decode_classification_witness :
    (bcs_hex_to_bytes "0x1".toList 4).1 = BCS_ERROR_INVALID_INPUT ∧
      (bcs_hex_to_bytes "0x12zz".toList 4).1 = BCS_ERROR_INVALID_INPUT :=
  ⟨(hex_decode_classification "0x1".toList 4).1 (by decide),
    (hex_decode_classification "0x12zz".toList 4).2.2.1 (by decide) (by decide) (by decide)⟩

theorem hex_chars_lowercase : ∀ i, i < 16 → hex_chars i ∈ "0123456789abcdef".toList := by
  decide

theorem bcs_bytes_to_hex_chars (bs : List Nat) :
    ∀ c ∈ bcs_bytes_to_hex bs bs.length, c ∈ "0123456789abcdef".toList := by
  induction bs with
  | nil => intro c hc; simp [bcs_bytes_to_hex] at hc
  | cons b bs ih =>
    intro c hc
    rw [bcs_bytes_to_hex_cons] at hc
    have m15 : ∀ x : Nat, x &&& 0x0F < 16 := fun x =>
      Nat.lt_of_le_of_lt Nat.and_le_right (by decide)
    simp only [List.mem_cons] at hc
    rcases hc with rfl | rfl | hc
    · exact hex_chars_lowercase _ (m15 _)
    · exact hex_chars_lowercase _ (m15 _)
    · exact ih c hc

/-- C27. Hex encode then decode is the identity: for every byte sequence `b`,
`bcs_bytes_to_hex` yields exactly `2 * |b|` characters, all of them among
`0123456789abcdef`, and `bcs_hex_to_bytes` on that string with a capacity of at
least `|b|` returns `BCS_OK` with exactly `b` and the count `|b|`. -/
theorem hex_encode_then_decode (b : List Nat) (m : Nat) (hb : IsBytes b)
    (hm : b.length ≤ m) :
    (bcs_bytes_to_hex b b.length).length = 2 * b.length ∧
      (∀ c ∈ bcs_bytes_to_hex b b.length, c ∈ "0123456789abcdef".toList) ∧
      bcs_hex_to_bytes (bcs_bytes_to_hex b b.length) m = (BCS_OK, b, b.length) :=
  ⟨bcs_bytes_to_hex_length b, bcs_bytes_to_hex_chars b, hex_round_trip b hb m hm⟩

theorem hex_encode_then_decode_witness :
    (bcs_bytes_to_hex [0x0a, 0xff, 0x00] 3).length = 2 * 3 ∧
      (∀ c ∈ bcs_bytes_to_hex [0x0a, 0xff, 0x00] 3, c ∈ "0123456789abcdef".toList) ∧
      bcs_hex_to_bytes (bcs_bytes_to_hex [0x0a, 0xff, 0x00] 3) 3 =
        (BCS_OK, [0x0a, 0xff, 0x00], 3) :=
  hex_encode_then_decode [0x0a, 0xff, 0x00] 3 (by decide) (by decide)

theorem write_op_string_bytes (str : Option (List Nat))
    (hl : (name_field str).length < SIZE_MOD) :
    write_op.bytes (.string str) = name_field str := by
  cases str with
  | none => rfl
  | some s =>
    simp only [name_field, List.length_append] at hl
    simp only [write_op.bytes, name_field, u64_mod_small _ (show s.length < SIZE_MOD by omega)]

theorem sensor_transaction_writes_fields (params : transaction_builder_t)
    (ht : params_typed params)
    (hml : (name_field params.module_name).length < SIZE_MOD)
    (hfl : (name_field params.function_name).length < SIZE_MOD) :
    (sensor_transaction_writes params).flatMap write_op.bytes =
      sensor_transaction_layout_fields params (name_field params.module_name)
        (name_field params.function_name) := by
  obtain ⟨h1, _, h2, _, h3, _, h4, _, _⟩ := ht
  have hloop : ((List.range 8).flatMap (fun i => [write_op.u8 0x01, write_op.u16 i])).flatMap
      write_op.bytes = (List.range 8).flatMap (fun i => 0x01 :: le_bytes 2 i) := by decide
  have e8 : uleb_enc (8 % U64_MOD) = [8] := by decide
  have e12 : uleb_enc (12 % U64_MOD) = [12] := by decide
  have e4 : uleb_enc (4 % U64_MOD) = [4] := by decide
  have e0 : uleb_enc 0 = [0] := by decide
  have e1 : uleb_enc (1 % U64_MOD) = [1] := by decide
  have t1 : List.take 32 params.package_id = params.package_id :=
    List.take_of_length_le (by omega)
  have t2 : List.take 32 params.sender = params.sender := List.take_of_length_le (by omega)
  have t3 : List.take 32 params.gas_object.object_id = params.gas_object.object_id :=
    List.take_of_length_le (by omega)
  have t4 : List.take 32 params.gas_object.digest = params.gas_object.digest :=
    List.take_of_length_le (by omega)
  have t5 : List.take 32 clock_object_id = List.replicate 31 0 ++ [0x06] := by decide
  have t6 : List.take 12 (c_str "esp32-device") = c_str "esp32-device" := by decide
  have t7 : List.take 4 (c_str "soil") = c_str "soil" := by decide
  have s1 := write_op_string_bytes params.module_name hml
  have s2 := write_op_string_bytes params.function_name hfl
  unfold sensor_transaction_writes sensor_transaction_layout_fields
  rw [List.flatMap_append, List.flatMap_append, hloop]
  simp only [List.flatMap_cons, List.flatMap_nil, s1, s2]
  simp only [write_op.bytes, e8, e12, e4, e0, e1,
    t1, t2, t3, t4, t5, t6, t7, Option.getD_some, Nat.zero_mod, Nat.reduceMod]
  simp only [List.append_assoc, List.cons_append, List.nil_append, List.append_nil]

theorem sensor_transaction_layout_fields_length (params : transaction_builder_t)
    (mf ff : List Nat) (ht : params_typed params) :
    (sensor_transaction_layout_fields params mf ff).length = 326 + mf.length + ff.length := by
  obtain ⟨h1, _, h2, _, h3, _, h4, _, _⟩ := ht
  have hloop : ((List.range 8).flatMap (fun i => 0x01 :: le_bytes 2 i)).length = 24 := by decide
  have c1 : (c_str "esp32-device").length = 12 := by decide
  have c2 : (c_str "soil").length = 4 := by decide
  unfold sensor_transaction_layout_fields
  simp only [List.length_append, List.length_cons, List.length_nil, le_bytes_length, hloop,
    c1, c2, h1, h2, h3, h4, List.length_replicate]
  omega

set_option maxRecDepth 1000000 in
/-- C28, the code at the failing input. For the sample record with the module name
absent the encode step `bcs_write_string` returns `BCS_ERROR_INVALID_INPUT` and
leaves the writer as it was, yet `sui_build_sensor_transaction` returns `BCS_OK`
and stores an output: the 682 hex characters of the layout of C7 without the
module-name field (neither length prefix nor characters). -/
theorem assembler_accepts_absent_name :
    ({ sample_params with module_name := none } : transaction_builder_t).module_name = none ∧
      (∀ w, bcs_write_string plainAllocator w none = some (BCS_ERROR_INVALID_INPUT, w)) ∧
      (sui_build_sensor_transaction plainAllocator
        { sample_params with module_name := none }).map (fun r => (r.1, r.2.isSome)) =
        some (BCS_OK, true) ∧
      sui_build_sensor_transaction plainAllocator { sample_params with module_name := none } =
        some (BCS_OK, some
          (bcs_bytes_to_hex
            (sensor_transaction_layout_fields sample_params []
              (name_field sample_params.function_name)) 341, 682)) := by
  refine ⟨rfl, fun _ => rfl, by decide, by decide⟩

theorem sui_build_sensor_transaction_fields (h : Allocator) (bound : Nat)
    (params : transaction_builder_t) (ht : params_typed params) (hg : grants_below h bound)
    (hb : bound ≤ SIZE_MOD)
    (hsz : 2 * ((name_field params.module_name).length +
      (name_field params.function_name).length) + 900 < bound) :
    sui_build_sensor_transaction h params =
      some (BCS_OK, some
        (bcs_bytes_to_hex
          (sensor_transaction_layout_fields params (name_field params.module_name)
            (name_field params.function_name))
          (sensor_transaction_layout_fields params (name_field params.module_name)
            (name_field params.function_name)).length,
         2 * (326 + (name_field params.module_name).length +
           (name_field params.function_name).length))) := by
  have hbytes := sensor_transaction_writes_fields params ht (by omega) (by omega)
  have hlen := sensor_transaction_layout_fields_length params (name_field params.module_name)
    (name_field params.function_name) ht
  obtain ⟨hi, hw⟩ := bcs_writer_init_ok h 512 bound (by decide) hg (by omega)
  obtain ⟨w2, h2, hw2⟩ := write_all_ok h 512 bound hg hb (sensor_transaction_writes params) _ []
    hw (sensor_transaction_writes_fit params ht)
    (by rw [hbytes, hlen]; simp only [List.length_nil]; omega)
  rw [hbytes, List.nil_append] at hw2
  unfold sui_build_sensor_transaction
  rw [hi]
  simp only [h2]
  rw [writer_to_hex_ok h 512 bound w2 _ hw2 hg hb (by rw [hlen]; omega), hlen]

theorem sensor_value_bytes_spec (x : Nat) (hx : x < U64_MOD) :
    sensor_value_bytes x = le_bytes 8 x ∧ (sensor_value_bytes x).length = 8 ∧
      IsBytes (sensor_value_bytes x) ∧ le_value (sensor_value_bytes x) = x := by
  have e : sensor_value_bytes x = le_bytes 8 x := rfl
  refine ⟨e, by rw [e, le_bytes_length], by rw [e]; exact le_bytes_isBytes 8 x, ?_⟩
  rw [e, le_value_le_bytes]
  exact Nat.mod_eq_of_lt (by unfold U64_MOD at hx; omega)

/-- C29. The convenience entry point: for every transaction hex and every present
sensor record, `sui_modify_transaction_with_sensor_data` returns exactly what
`sui_modify_transaction_with_pure_values` returns for the same hex and a list of
exactly five payloads, each 8 bytes long, each the little-endian 64-bit
encoding of one field of the record: `value1`, `value2`, `value4`, `value3` (the
16-bit readings zero-extended) and the timestamp last. With an absent record the
result is `BCS_ERROR_INVALID_INPUT` and no output. -/
theorem sensor_data_entry_point (h : Allocator) (hex_tx : List Char) (data : sensor_data_t)
    (ht : sensor_data_typed data) :
    (∃ pures, sui_modify_transaction_with_sensor_data h hex_tx (some data) =
          sui_modify_transaction_with_pure_values h hex_tx pures ∧
        pures.length = 5 ∧ (∀ p ∈ pures, p.length = 8 ∧ IsBytes p) ∧
        pures = [le_bytes 8 data.value1, le_bytes 8 data.value2, le_bytes 8 data.value4,
          le_bytes 8 data.value3, le_bytes 8 data.timestamp] ∧
        pures.map le_value =
          [data.value1, data.value2, data.value4, data.value3, data.timestamp]) ∧
      sui_modify_transaction_with_sensor_data h hex_tx none =
        some (BCS_ERROR_INVALID_INPUT, none) := by
  obtain ⟨t1, t2, t3, t4, t5⟩ := ht
  have lt : ∀ x, x < 65536 → x < U64_MOD := fun x hx => by unfold U64_MOD; omega
  obtain ⟨a1, a2, a3, a4⟩ := sensor_value_bytes_spec data.value1 (lt _ t1)
  obtain ⟨b1, b2, b3, b4⟩ := sensor_value_bytes_spec data.value2 (lt _ t2)
  obtain ⟨c1, c2, c3, c4⟩ := sensor_value_bytes_spec data.value4 (lt _ t4)
  obtain ⟨d1, d2, d3, d4⟩ := sensor_value_bytes_spec data.value3 (lt _ t3)
  obtain ⟨e1, e2, e3, e4⟩ := sensor_value_bytes_spec data.timestamp t5
  refine ⟨⟨[sensor_value_bytes data.value1, sensor_value_bytes data.value2,
    sensor_value_bytes data.value4, sensor_value_bytes data.value3,
    sensor_value_bytes data.timestamp], rfl, rfl, ?_, ?_, ?_⟩, rfl⟩
  · intro p hp
    simp only [List.mem_cons, List.mem_singleton, List.not_mem_nil, or_false] at hp
    rcases hp with rfl | rfl | rfl | rfl | rfl
    · exact ⟨a2, a3⟩
    · exact ⟨b2, b3⟩
    · exact ⟨c2, c3⟩
    · exact ⟨d2, d3⟩
    · exact ⟨e2, e3⟩
  · rw [a1, b1, c1, d1, e1]
  · simp only [List.map_cons, List.map_nil, a4, b4, c4, d4, e4]

theorem sensor_data_entry_point_witness :
    ∃ pures, sui_modify_transaction_with_sensor_data plainAllocator "0000010001aa".toList
          (some ⟨2350, 6540, 10132, 850, 1730822400⟩) =
        sui_modify_transaction_with_pure_values plainAllocator "0000010001aa".toList pures ∧
      pures.length = 5 ∧ (∀ p ∈ pures, p.length = 8 ∧ IsBytes p) ∧
      pures = [le_bytes 8 2350, le_bytes 8 6540, le_bytes 8 850, le_bytes 8 10132,
        le_bytes 8 1730822400] ∧
      pures.map le_value = [2350, 6540, 850, 10132, 1730822400] :=
  (sensor_data_entry_point plainAllocator "0000010001aa".toList
    ⟨2350, 6540, 10132, 850, 1730822400⟩ (by decide)).1

theorem capacity_then_put_failure (h : Allocator) (w : bcs_writer_t) (n : Nat) (d : List Nat)
    (e : bcs_error_t) (w2 : bcs_writer_t) (hr : capacity_then_put h w n d = some (e, w2))
    (he : e ≠ BCS_OK) : w2 = w := by
  obtain ⟨w1, hec, hcase⟩ := capacity_then_put_cases h w n d e w2 hr
  obtain ⟨_, _, _, f4, _⟩ := ensure_capacity_frame h w n e w1 hec
  rcases hcase with ⟨_, rfl⟩ | ⟨rfl, _⟩
  · exact f4 he
  · exact absurd rfl he

/-- C36. Single-step writes are atomic on failure: for every writer state, a call of
`bcs_write_u8`, `_u16`, `_u32`, `_u64` or `bcs_write_fixed_bytes` that returns an
error leaves the writer exactly as it was: written length, capacity and written
bytes (and the other fields) are unchanged. -/
theorem single_step_write_failure_atomic (h : Allocator) (w w2 : bcs_writer_t) (v n : Nat)
    (data : Option (List Nat)) (e : bcs_error_t) (he : e ≠ BCS_OK) :
    (bcs_write_u8 h w v = some (e, w2) → w2 = w) ∧
      (bcs_write_u16 h w v = some (e, w2) → w2 = w) ∧
      (bcs_write_u32 h w v = some (e, w2) → w2 = w) ∧
      (bcs_write_u64 h w v = some (e, w2) → w2 = w) ∧
      (bcs_write_fixed_bytes h w data n = some (e, w2) → w2 = w) := by
  refine ⟨fun hr => ?_, fun hr => ?_, fun hr => ?_, fun hr => ?_, fun hr => ?_⟩
  · rw [bcs_write_u8_shape] at hr
    exact capacity_then_put_failure h w 1 _ e w2 hr he
  · rw [bcs_write_u16_shape] at hr
    exact capacity_then_put_failure h w 2 _ e w2 hr he
  · rw [bcs_write_u32_shape] at hr
    exact capacity_then_put_failure h w 4 _ e w2 hr he
  · rw [bcs_write_u64_shape] at hr
    exact capacity_then_put_failure h w 8 _ e w2 hr he
  · cases data with
    | some d =>
      rw [bcs_write_fixed_bytes_shape] at hr
      exact capacity_then_put_failure h w n _ e w2 hr he
    | none =>
      unfold bcs_write_fixed_bytes at hr
      by_cases hn : n > 0
      · simp only [Option.isNone_none, true_and, hn, if_true, Option.some.injEq,
          Prod.mk.injEq] at hr
        exact hr.2.symm
      · have hr2 : capacity_then_put h w n ([] : List Nat) = some (e, w2) := by
          unfold capacity_then_put
          simpa [hn] using hr
        exact capacity_then_put_failure h w n _ e w2 hr2 he

theorem single_step_write_failure_atomic_witness :
    (⟨some [1, 2, 3], 8, 3, 16, 8⟩ : bcs_writer_t) = ⟨some [1, 2, 3], 8, 3, 16, 8⟩ ∧
      bcs_write_fixed_bytes plainAllocator ⟨some [1, 2, 3], 8, 3, 16, 8⟩ none 4 =
        some (BCS_ERROR_INVALID_INPUT, ⟨some [1, 2, 3], 8, 3, 16, 8⟩) :=
  ⟨(single_step_write_failure_atomic plainAllocator ⟨some [1, 2, 3], 8, 3, 16, 8⟩
      ⟨some [1, 2, 3], 8, 3, 16, 8⟩ 0 20 (some (List.replicate 20 0))
      BCS_ERROR_BUFFER_TOO_SMALL (by decide)).2.2.2.2 (by decide),
    by decide⟩

set_option maxRecDepth 1000000 in

/-- C32, the code at the failing input. The transaction assembled for the sample
record is given to the Mutator with the four payloads `le64(1) .. le64(4)` on an
allocator that overwrites released blocks. The Mutator returns `BCS_OK`, but the
three text inputs, for which no replacement is left, are copied out of their
released temporaries: their payloads come out as `fe` bytes, where the
transaction assembled for the record with the values 1 .. 4 has `esp32-device`,
`soil` and the empty string. On an allocator whose released blocks keep their
bytes the Mutator returns exactly that transaction. -/
theorem mutator_scrubs_assembled_text_inputs :
    ((sui_build_sensor_transaction scrubbingAllocator sample_params).bind fun built =>
        built.2.bind fun tx =>
          (sui_modify_transaction_with_pure_values scrubbingAllocator tx.1
            [le_bytes 8 1, le_bytes 8 2, le_bytes 8 3, le_bytes 8 4]).map fun r =>
              (r.1, r.2.map fun out => text_inputs_hex out.1)) =
        some (BCS_OK, some "000dfefefefefefefefefefefefefe0005fefefefefe0001fe".toList) ∧
      (sui_build_sensor_transaction scrubbingAllocator
          { sample_params with sensor_data := ⟨1, 2, 3, 4, 1730822400⟩ }).map (fun r =>
            (r.1, r.2.map fun out => text_inputs_hex out.1)) =
        some (BCS_OK, some "000d0c65737033322d646576696365000504736f696c000100".toList) ∧
      ((sui_build_sensor_transaction plainAllocator sample_params).bind fun built =>
        built.2.bind fun tx =>
          sui_modify_transaction_with_pure_values plainAllocator tx.1
            [le_bytes 8 1, le_bytes 8 2, le_bytes 8 3, le_bytes 8 4]) =
        sui_build_sensor_transaction plainAllocator
          { sample_params with sensor_data := ⟨1, 2, 3, 4, 1730822400⟩ } := by
  decide

set_option maxRecDepth 1000000 in

/-- C33, the code at the failing input. The transaction assembled for the sample
record is given to `sui_modify_transaction_with_sensor_data` with the sensor
record `value1 .. value4 = 1, 2, 3, 4`. In the result the third Pure input holds
4 and the fourth holds 3, whereas the transaction assembled for that sensor
record has 3 in the third and 4 in the fourth. -/
theorem sensor_entry_point_swaps_values :
    ((sui_build_sensor_transaction plainAllocator sample_params).bind fun built =>
        built.2.bind fun tx =>
          (sui_modify_transaction_with_sensor_data plainAllocator tx.1
            (some ⟨1, 2, 3, 4, 1730822400⟩)).map fun r =>
              (r.1, r.2.map fun out => first_four_inputs_hex out.1)) =
        some (BCS_OK, some
          ("00080100000000000000" ++ "00080200000000000000" ++ "00080400000000000000" ++
            "00080300000000000000").toList) ∧
      (sui_build_sensor_transaction plainAllocator
          { sample_params with sensor_data := ⟨1, 2, 3, 4, 1730822400⟩ }).map (fun r =>
            (r.1, r.2.map fun out => first_four_inputs_hex out.1)) =
        some (BCS_OK, some
          ("00080100000000000000" ++ "00080200000000000000" ++ "00080300000000000000" ++
            "00080400000000000000").toList) := by
  decide

/-- C34, the code at the failing input. The transaction `00 00 01 | 00 01 aa` with an
empty replacement list, on an allocator whose released blocks do not keep their
contents: the first run returns `BCS_OK` with the output `0000010001ab`, and the
run on that output returns `BCS_OK` with `0000010001ac`, not with its input. On an
allocator whose released blocks keep their bytes the run returns its input. -/
theorem mutator_not_idempotent_on_fallback :
    sui_modify_transaction_with_pure_values driftingAllocator "0000010001aa".toList [] =
        some (BCS_OK, some ("0000010001ab".toList, 12)) ∧
      sui_modify_transaction_with_pure_values driftingAllocator "0000010001ab".toList [] =
        some (BCS_OK, some ("0000010001ac".toList, 12)) ∧
      sui_modify_transaction_with_pure_values plainAllocator "0000010001aa".toList [] =
        some (BCS_OK, some ("0000010001aa".toList, 12)) := by
  decide

set_option maxRecDepth 100000 in

theorem byte_low : ∀ b, b < 256 → b &&& 0x80 = 0 → b < 128 := by decide

set_option maxRecDepth 100000 in

theorem byte_high : ∀ b, b < 256 → b &&& 0x80 ≠ 0 → 128 ≤ b := by decide

theorem uleb_value_lt : ∀ (bs : List Nat), uleb_value bs < 128 ^ bs.length := by
  intro bs
  induction bs with
  | nil => simp [uleb_value]
  | cons b bs ih =>
    simp only [uleb_value, List.length_cons, pow_succ]
    have := Nat.mod_lt b (show 0 < 128 by decide)
    omega

theorem uleb_value_last : ∀ (bs : List Nat), bs ≠ [] →
    uleb_value bs < 128 ^ (bs.length - 1) * (bs.getD (bs.length - 1) 0 % 128 + 1) := by
  intro bs
  induction bs with
  | nil => intro h; exact absurd rfl h
  | cons b bs ih =>
    intro _
    cases bs with
    | nil => simp [uleb_value]
    | cons c t =>
      have := ih (by simp)
      have hb := Nat.mod_lt b (show 0 < 128 by decide)
      have hthis : uleb_value (c :: t) <
          128 ^ t.length * ((c :: t).getD t.length 0 % 128 + 1) := this
      show uleb_value (b :: c :: t) <
        128 ^ (t.length + 1) * ((c :: t).getD t.length 0 % 128 + 1)
      have key : 128 ^ (t.length + 1) * ((c :: t).getD t.length 0 % 128 + 1) =
          128 * (128 ^ t.length * ((c :: t).getD t.length 0 % 128 + 1)) := by
        rw [pow_succ]; ring
      rw [key, uleb_value]
      generalize 128 ^ t.length * ((c :: t).getD t.length 0 % 128 + 1) = X at hthis ⊢
      omega

theorem uleb_enc_of_terminated : ∀ (bs : List Nat), uleb_terminated bs → IsBytes bs →
    (bs.length = 1 ∨ bs.getD (bs.length - 1) 0 ≠ 0) → uleb_enc (uleb_value bs) = bs := by
  intro bs
  induction bs with
  | nil => intro h; exact absurd h (by simp [uleb_terminated])
  | cons b bs ih =>
    intro ht hb hc
    cases bs with
    | nil =>
      have hlow : b < 128 := byte_low b (hb b (by simp)) (by simpa [uleb_terminated] using ht)
      simp only [uleb_value, Nat.mul_zero, Nat.add_zero]
      rw [Nat.mod_eq_of_lt hlow, uleb_enc_eq, if_pos hlow]
    | cons c t =>
      simp only [uleb_terminated] at ht
      have hhigh : 128 ≤ b := byte_high b (hb b (by simp)) ht.1
      have hb256 : b < 256 := hb b (by simp)
      have hlast : (c :: t).getD ((c :: t).length - 1) 0 ≠ 0 := by
        rcases hc with hc | hc
        · simp at hc
        · simpa using hc
      have hrec := ih ht.2 (fun x hx => hb x (by simp [hx])) (Or.inr hlast)
      have hv : uleb_value (c :: t) ≠ 0 := by
        intro h0
        rw [h0] at hrec
        have e0 : uleb_enc 0 = [0] := by decide
        rw [e0] at hrec
        simp only [List.cons.injEq] at hrec
        obtain ⟨rfl, rfl⟩ := hrec
        simp at hlast
      rw [uleb_value, uleb_enc_eq, if_neg (by omega)]
      have e1 : (b % 128 + 128 * uleb_value (c :: t)) % 128 + 128 = b := by omega
      have e2 : (b % 128 + 128 * uleb_value (c :: t)) / 128 = uleb_value (c :: t) := by omega
      rw [e1, e2, hrec]

theorem bytes_ahead_succ (r : bcs_reader_t) (n : Nat) (h : r.position < r.buffer.length) :
    bytes_ahead r (n + 1) =
      byte_at r r.position :: bytes_ahead { r with position := r.position + 1 } n := by
  unfold bytes_ahead byte_at
  rw [List.drop_eq_getElem_cons h, List.take_succ_cons, List.getD_eq_getElem _ _ h]

theorem bcs_read_uleb128_loop_consumed (fuel : Nat) :
    ∀ (r : bcs_reader_t) (acc shift : Nat) (r2 : bcs_reader_t) (v : Nat),
      bcs_read_uleb128_loop fuel r acc shift = (BCS_OK, r2, v) →
      r.length ≤ r.buffer.length →
      r.position < r2.position ∧ r2.position ≤ r.position + fuel ∧ r2.position ≤ r.length ∧
        uleb_terminated (bytes_ahead r (r2.position - r.position)) := by
  induction fuel with
  | zero =>
    intro r acc shift r2 v h
    simp [bcs_read_uleb128_loop] at h
  | succ fuel ih =>
    intro r acc shift r2 v h hfit
    unfold bcs_read_uleb128_loop at h
    by_cases hp : r.position ≥ r.length
    · rw [if_pos hp] at h; simp at h
    rw [if_neg hp] at h
    simp only at h
    by_cases hc : byte_at r r.position &&& 0x80 = 0
    · rw [if_pos hc] at h
      simp only [Prod.mk.injEq, true_and] at h
      obtain ⟨rfl, _⟩ := h
      simp only
      refine ⟨by omega, by omega, by omega, ?_⟩
      have e : r.position + 1 - r.position = 0 + 1 := by omega
      rw [e, bytes_ahead_succ r 0 (by omega)]
      simpa [bytes_ahead, uleb_terminated] using hc
    · rw [if_neg hc] at h
      by_cases hs : shift + 7 ≥ 64
      · rw [if_pos hs] at h; simp at h
      rw [if_neg hs] at h
      obtain ⟨g1, g2, g3, g4⟩ := ih _ _ _ r2 v h hfit
      simp only at g1 g2 g3 g4
      refine ⟨by omega, by omega, g3, ?_⟩
      have e : r2.position - r.position = (r2.position - (r.position + 1)) + 1 := by omega
      rw [e, bytes_ahead_succ r _ (by omega)]
      cases hb : bytes_ahead { r with position := r.position + 1 }
          (r2.position - (r.position + 1)) with
      | nil => rw [hb] at g4; simp [uleb_terminated] at g4
      | cons c t =>
        rw [hb] at g4
        exact ⟨hc, g4⟩

theorem bcs_read_uleb128_loop_lt (fuel : Nat) :
    ∀ (r : bcs_reader_t) (acc shift : Nat), acc < U64_MOD →
      (bcs_read_uleb128_loop fuel r acc shift).2.2 < U64_MOD := by
  induction fuel with
  | zero => intro r acc shift h; exact h
  | succ fuel ih =>
    intro r acc shift h
    have hor : acc ||| ((byte_at r r.position &&& 0x7F) <<< shift) % U64_MOD < U64_MOD :=
      Nat.or_lt_two_pow (n := 64) h (Nat.mod_lt _ (by decide))
    unfold bcs_read_uleb128_loop
    split
    · exact h
    · simp only
      split
      · exact hor
      · split
        · exact hor
        · exact ih _ _ _ hor

/-- C35 fails as stated: `80 00` decodes to 0 with two bytes consumed, and the
encoding of 0 is the single byte `00`; `00` and `80 00` are two byte sequences
that decode to the same value. -/
theorem uleb128_accepts_padded_zero :
    bcs_read_uleb128 ⟨[0x80, 0x00], 2, 0⟩ = (BCS_OK, ⟨[0x80, 0x00], 2, 2⟩, 0) ∧
      bcs_read_uleb128 ⟨[0x00], 1, 0⟩ = (BCS_OK, ⟨[0x00], 1, 1⟩, 0) ∧
      bcs_write_uleb128 plainAllocator ⟨some [], 8, 0, 0, 8⟩ 0 =
        some (BCS_OK, ⟨some [0x00], 8, 1, 0, 8⟩) ∧
      [0x00] ≠ bytes_ahead ⟨[0x80, 0x00], 2, 0⟩ 2 := by
  decide

/-- C35, amended. `bcs_read_uleb128` does not check that an encoding is canonical.
For every byte sequence on which it returns `BCS_OK` with value `v` after
consuming `k` bytes (a ten-byte sequence having a last byte of at most 1, so that
the encoded value fits 64 bits), `bcs_write_uleb128` of `v` appends `uleb_enc v`,
and this is exactly the `k` consumed bytes if and only if the sequence is
canonical: `k = 1` or the last consumed byte is not zero. -/
theorem uleb128_decode_reencode (h : Allocator) (inc bound : Nat) (w : bcs_writer_t)
    (written : List Nat) (r r2 : bcs_reader_t) (v : Nat)
    (hw : unlimited_writer inc w written) (hg : grants_below h bound)
    (hb : bound ≤ SIZE_MOD) (hsz : written.length + 10 + inc < bound)
    (hfit : r.length ≤ r.buffer.length) (hbytes : IsBytes r.buffer)
    (hread : bcs_read_uleb128 r = (BCS_OK, r2, v))
    (hwide : r2.position - r.position = 10 → (bytes_ahead r 10).getD 9 0 ≤ 1) :
    (∃ w2, bcs_write_uleb128 h w v = some (BCS_OK, w2) ∧
        unlimited_writer inc w2 (written ++ uleb_enc v)) ∧
      (uleb_enc v = bytes_ahead r (r2.position - r.position) ↔
        (r2.position - r.position = 1 ∨
          (bytes_ahead r (r2.position - r.position)).getD (r2.position - r.position - 1) 0
            ≠ 0)) := by
  have hv : v < U64_MOD := by
    have := bcs_read_uleb128_loop_lt 10 r 0 0 (by decide)
    unfold bcs_read_uleb128 at hread
    rw [hread] at this
    exact this
  have h70 : v < 128 ^ (9 + 1) := Nat.lt_of_lt_of_le hv (by unfold U64_MOD; norm_num)
  have hl : (uleb_enc v).length ≤ 10 := uleb_enc_length_le 9 v h70
  obtain ⟨c1, c2, c3, c4⟩ := bcs_read_uleb128_loop_consumed 10 r 0 0 r2 v hread hfit
  have hlen : (bytes_ahead r (r2.position - r.position)).length = r2.position - r.position :=
    bytes_ahead_length r _ (by omega)
  refine ⟨bcs_write_uleb128_ok h inc bound w written v hv hw hg hb (by omega), ?_, ?_⟩
  · intro he
    obtain ⟨_, _, s3⟩ := uleb_enc_shape 9 v h70
    by_cases h0 : v = 0
    · left
      rw [← hlen, ← he, h0]
      decide
    · right
      have := s3 h0
      rw [he, hlen] at this
      exact this
  · intro hcanon
    generalize hbs : bytes_ahead r (r2.position - r.position) = bs at c4 hlen hcanon ⊢
    have hib : IsBytes bs := by
      intro x hx
      rw [← hbs] at hx
      unfold bytes_ahead at hx
      exact hbytes x (List.mem_of_mem_drop (List.mem_of_mem_take hx))
    have henc := uleb_enc_of_terminated bs c4 hib (by rw [hlen]; exact hcanon)
    have hne : bs ≠ [] := by
      intro hnil
      rw [hnil] at hlen
      simp only [List.length_nil] at hlen
      omega
    have hval : uleb_value bs < U64_MOD := by
      by_cases h10 : r2.position - r.position = 10
      · have hlast := uleb_value_last bs hne
        have hw10 := hwide h10
        rw [h10] at hbs
        rw [hbs] at hw10
        rw [hlen, h10] at hlast
        have e : (128 : Nat) ^ (10 - 1) = 9223372036854775808 := by norm_num
        rw [e] at hlast
        have : bs.getD (10 - 1) 0 % 128 + 1 ≤ 2 := by
          have : bs.getD 9 0 % 128 ≤ bs.getD 9 0 := Nat.mod_le _ _
          show bs.getD 9 0 % 128 + 1 ≤ 2
          omega
        have := Nat.mul_le_mul_left 9223372036854775808 this
        unfold U64_MOD
        omega
      · have hlt := uleb_value_lt bs
        have : (128 : Nat) ^ bs.length ≤ 128 ^ 9 :=
          Nat.pow_le_pow_right (by decide) (by omega)
        have e : (128 : Nat) ^ 9 = 9223372036854775808 := by norm_num
        unfold U64_MOD
        omega
    have hdrop : r.buffer.drop r.position = uleb_enc (uleb_value bs) ++
        r.buffer.drop (r.position + (r2.position - r.position)) := by
      rw [henc, ← hbs]
      unfold bytes_ahead
      rw [← List.drop_drop, List.take_append_drop]
    have hdec := bcs_read_uleb128_enc (uleb_value bs) hval r _ hdrop
      (by rw [henc, hlen]; omega)
    rw [hread] at hdec
    simp only [Prod.mk.injEq] at hdec
    rw [hdec.2.2, henc]

theorem uleb128_decode_reencode_witness :
    uleb_enc 300 = bytes_ahead ⟨[0xAC, 0x02, 0xFF], 3, 0⟩ (2 - 0) :=
  (uleb128_decode_reencode plainAllocator 8 2147483648 ⟨some [], 8, 0, 0, 8⟩ []
    ⟨[0xAC, 0x02, 0xFF], 3, 0⟩ ⟨[0xAC, 0x02, 0xFF], 3, 2⟩ 300 (by decide)
    (plainAllocator_grants _ (Nat.le_refl _)) (by decide) (by decide) (by decide) (by decide)
    (by decide) (by decide)).2.2 (Or.inr (by decide))

theorem mutate_inputs_same_frame (h : Allocator) :
    ∀ (inputs : List tx_input) (idx : Nat),
      List.Forall₂ tx_input.same_frame inputs (mutate_inputs h [] idx inputs) ∧
        ((mutate_inputs h [] idx inputs).flatMap tx_input.encode).length =
          (inputs.flatMap tx_input.encode).length := by
  intro inputs
  induction inputs with
  | nil => intro idx; exact ⟨List.Forall₂.nil, rfl⟩
  | cons x xs ih =>
    intro idx
    cases x with
    | pure p =>
      obtain ⟨f, l⟩ := ih (idx + 1)
      refine ⟨?_, ?_⟩
      · simp only [mutate_inputs, List.length_nil, Nat.not_lt_zero, if_false]
        exact List.Forall₂.cons (read_released_length h p p.length) f
      · simp only [mutate_inputs, List.length_nil, Nat.not_lt_zero, if_false,
          List.flatMap_cons, List.length_append, tx_input.encode, List.length_cons,
          read_released_length, l]
    | object v id fl =>
      obtain ⟨f, l⟩ := ih idx
      refine ⟨?_, ?_⟩
      · simp only [mutate_inputs]
        exact List.Forall₂.cons rfl f
      · simp only [mutate_inputs, List.flatMap_cons, List.length_append, l]
    | other t =>
      obtain ⟨f, l⟩ := ih idx
      refine ⟨?_, ?_⟩
      · simp only [mutate_inputs]
        exact List.Forall₂.cons rfl f
      · simp only [mutate_inputs, List.flatMap_cons, List.length_append, l]

theorem mutate_inputs_no_pure (h : Allocator) :
    ∀ (inputs : List tx_input) (idx : Nat), (∀ x ∈ inputs, ∀ p, x ≠ tx_input.pure p) →
      mutate_inputs h [] idx inputs = inputs := by
  intro inputs
  induction inputs with
  | nil => intro idx _; rfl
  | cons x xs ih =>
    intro idx hx
    have hxs := ih idx (fun y hy => hx y (by simp [hy]))
    cases x with
    | pure p => exact absurd rfl (hx _ (by simp) p)
    | object v id fl => simp [mutate_inputs, hxs]
    | other t => simp [mutate_inputs, hxs]

/-- C5, amended. For every hex string (any case, with or without `0x`) that decodes
to a transaction whose input count and Pure length prefixes are canonical
ULEB128 and whose inputs are Pure, Object or of another tag, the Mutator with an
empty replacement list returns `BCS_OK`, and its output is the lowercase hex of a
transaction `out` with the same version byte, kind byte, input count and
trailing bytes, in which every input that is not Pure is the input itself and
every Pure input has the same length prefix and a payload of the same length
(the payload bytes are those found in the released temporary and are not
stated); the output has as many bytes as the input. The output is the lowercase
hex of exactly the input bytes when the transaction has no Pure input, and
when the bytes found in a released temporary are still the payload. -/
theorem mutator_no_replacements (h : Allocator) (bound : Nat) (hg : grants_below h bound)
    (hb : bound ≤ SIZE_MOD) (hex_tx : List Char)
    (version kind : Nat) (inputs : List tx_input) (rest : List Nat)
    (hhex : bcs_hex_to_bytes hex_tx (hex_tx.length / 2) =
      (BCS_OK, tx_bytes version kind inputs rest, (tx_bytes version kind inputs rest).length))
    (hwf : ∀ x ∈ inputs, x.wf)
    (hsz : 2 * (hex_tx.length / 2) + 513 < bound) :
    ∃ out, sui_modify_transaction_with_pure_values h hex_tx [] =
        some (BCS_OK, some
          (bcs_bytes_to_hex (tx_bytes version kind out rest)
            (tx_bytes version kind out rest).length,
           2 * (tx_bytes version kind out rest).length)) ∧
      List.Forall₂ tx_input.same_frame inputs out ∧
      (tx_bytes version kind out rest).length = (tx_bytes version kind inputs rest).length ∧
      ((∀ x ∈ inputs, ∀ p, x ≠ tx_input.pure p) → out = inputs) ∧
      ((∀ (d : List Nat) (i : Nat), i < d.length → h.stale d i = d.getD i 0) →
        out = inputs) := by
  have hbytes := bcs_hex_to_bytes_isBytes _ _ _ _ hhex
  have hle := (bcs_hex_to_bytes_length _ _ _ _ hhex).2
  have hfm : IsBytes (inputs.flatMap tx_input.encode) := by
    unfold tx_bytes at hbytes
    exact (isBytes_append.mp (isBytes_append.mp hbytes).1).2
  obtain ⟨hframe, hlen⟩ := mutate_inputs_same_frame h inputs 0
  have hcount := mutate_inputs_length h [] inputs 0
  have htx : (tx_bytes version kind (mutate_inputs h [] 0 inputs) rest).length =
      (tx_bytes version kind inputs rest).length := by
    unfold tx_bytes
    simp only [List.length_append, hlen, hcount]
  refine ⟨mutate_inputs h [] 0 inputs, ?_, hframe, htx, mutate_inputs_no_pure h inputs 0,
    fun hstale => mutate_inputs_none h hstale inputs 0 hfm⟩
  exact mutate_spec_hex h bound [] hg hb hex_tx version kind inputs rest hhex (by omega)
    hwf hbytes (by omega) (by rw [htx]; omega) hcount

theorem mutator_no_replacements_witness :
    (∃ out, sui_modify_transaction_with_pure_values scrubbingAllocator
          "0X0000020001AA0509".toList [] =
        some (BCS_OK, some
          (bcs_bytes_to_hex (tx_bytes 0 0 out [9]) (tx_bytes 0 0 out [9]).length,
           2 * (tx_bytes 0 0 out [9]).length)) ∧
      List.Forall₂ tx_input.same_frame [.pure [0xAA], .other 5] out ∧
      (tx_bytes 0 0 out [9]).length = (tx_bytes 0 0 [.pure [0xAA], .other 5] [9]).length) ∧
    (∃ out, sui_modify_transaction_with_pure_values plainAllocator
          "0X0000020001AA0509".toList [] =
        some (BCS_OK, some
          (bcs_bytes_to_hex (tx_bytes 0 0 out [9]) (tx_bytes 0 0 out [9]).length,
           2 * (tx_bytes 0 0 out [9]).length)) ∧
      out = [.pure [0xAA], .other 5]) ∧
    (∃ out, sui_modify_transaction_with_pure_values scrubbingAllocator
          "0000000909".toList [] =
        some (BCS_OK, some
          (bcs_bytes_to_hex (tx_bytes 0 0 out [9, 9]) (tx_bytes 0 0 out [9, 9]).length,
           2 * (tx_bytes 0 0 out [9, 9]).length)) ∧
      out = []) :=
  ⟨match mutator_no_replacements scrubbingAllocator 2147483648
      (scrubbingAllocator_grants _ (Nat.le_refl _)) (by decide) "0X0000020001AA0509".toList
      0 0 [.pure [0xAA], .other 5] [9] (by decide) (by decide) (by decide) with
    | ⟨out, h1, h2, h3, _, _⟩ => ⟨out, h1, h2, h3⟩,
   match mutator_no_replacements plainAllocator 2147483648
      (plainAllocator_grants _ (Nat.le_refl _)) (by decide) "0X0000020001AA0509".toList
      0 0 [.pure [0xAA], .other 5] [9] (by decide) (by decide) (by decide) with
    | ⟨out, h1, _, _, _, h5⟩ => ⟨out, h1, h5 (fun _ _ _ => rfl)⟩,
   match mutator_no_replacements scrubbingAllocator 2147483648
      (scrubbingAllocator_grants _ (Nat.le_refl _)) (by decide) "0000000909".toList
      0 0 [] [9, 9] (by decide) (by decide) (by decide) with
    | ⟨out, h1, _, _, h4, _⟩ => ⟨out, h1, h4 (fun _ hx => absurd hx (List.not_mem_nil _))⟩⟩

theorem bcs_read_uleb128_loop_failed (fuel : Nat) :
    ∀ (r : bcs_reader_t) (value shift : Nat), shift + 7 * fuel = 70 →
      (bcs_read_uleb128_loop fuel r value shift).1 ≠ BCS_OK →
      (bcs_read_uleb128_loop fuel r value shift).2.1 =
        { r with position :=
            if r.position + fuel ≤ r.length then r.position + fuel
            else max r.position r.length } := by
  induction fuel with
  | zero =>
    intro r value shift _ _
    cases r with
    | mk b l p =>
      simp only [bcs_read_uleb128_loop, Nat.add_zero]
      congr 1
      by_cases h : p ≤ l
      · rw [if_pos h]
      · rw [if_neg h]; omega
  | succ fuel ih =>
    intro r value shift hs herr
    unfold bcs_read_uleb128_loop at herr ⊢
    by_cases h1 : r.position ≥ r.length
    · rw [if_pos h1]
      cases r with
      | mk b l p =>
        simp only at h1 ⊢
        congr 1
        rw [if_neg (by omega)]; omega
    · rw [if_neg h1] at herr ⊢
      simp only at herr ⊢
      by_cases h2 : byte_at r r.position &&& 0x80 = 0
      · rw [if_pos h2] at herr; exact absurd rfl herr
      · rw [if_neg h2] at herr ⊢
        by_cases h3 : shift + 7 ≥ 64
        · rw [if_pos h3]
          have hf : fuel = 0 := by omega
          subst hf
          simp only
          congr 1
          rw [if_pos (by omega)]
        · rw [if_neg h3] at herr ⊢
          rw [ih _ _ _ (by omega) herr]
          simp only
          congr 1
          by_cases h4 : r.position + (fuel + 1) ≤ r.length
          · rw [if_pos h4, if_pos (by omega)]; omega
          · rw [if_neg h4, if_neg (by omega)]; omega

theorem bcs_read_uleb128_failed (r : bcs_reader_t) (herr : (bcs_read_uleb128 r).1 ≠ BCS_OK) :
    (bcs_read_uleb128 r).2.1 =
      { r with position :=
          if r.position + 10 ≤ r.length then r.position + 10 else max r.position r.length } :=
  bcs_read_uleb128_loop_failed 10 r 0 0 (by decide) herr

theorem bcs_read_u8_failed_tag (r : bcs_reader_t) (b : Bool)
    (x : bcs_error_t × bcs_reader_t × Bool)
    (hx : x = (match bcs_read_u8 r with
      | (err, reader, byte) =>
        if err ≠ BCS_OK then (err, reader, false)
        else if byte > 1 then (BCS_ERROR_INVALID_INPUT, reader, false)
        else (BCS_OK, reader, b)))
    (herr : x.1 ≠ BCS_OK) :
    x.2.1 = if r.position ≥ r.length then r else { r with position := r.position + 1 } := by
  subst hx
  unfold bcs_read_u8 at herr ⊢
  by_cases h : r.position ≥ r.length
  · simp only [if_pos h]
    simp
  · simp only [if_neg h] at herr ⊢
    simp only [ne_eq, not_true_eq_false, if_false] at herr ⊢
    split
    · rfl
    · rename_i h2; simp [h2] at herr

/-- C8, amended. A read that returns an error leaves the reader in the following
state, buffer and length always unchanged. A read that checks the remaining
bytes once (`bcs_read_u8`, `_u16`, `_u32`, `_u64`, `_u256`, `_bytes`): the reader
exactly as it was. `bcs_read_u128`: as it was when the low half could not be read,
else the cursor eight bytes further, past the low half. `bcs_read_bool` and
`bcs_read_option_tag`: as it was when no byte was left, else the cursor one byte
further, past the offending byte. `bcs_read_uleb128` and `bcs_read_vec_length`:
the cursor ten bytes further when ten bytes were left, else at the length (where
it was, if it was already beyond the length). `bcs_read_string`: the reader as the
read of its length prefix leaves it. No failing read moves the cursor back. -/
theorem failed_read_cursor (r : bcs_reader_t) (op : read_op)
    (herr : (read_call r op).1 ≠ BCS_OK) :
    (op.single_step = true → (read_call r op).2 = r) ∧
      (op = read_op.u128 →
        (read_call r op).2 =
          if (r.position + 8) % SIZE_MOD > r.length then r
          else { r with position := (r.position + 8) % SIZE_MOD }) ∧
      (op = read_op.bool ∨ op = read_op.option_tag →
        (read_call r op).2 =
          if r.position ≥ r.length then r else { r with position := r.position + 1 }) ∧
      (op = read_op.uleb128 ∨ op = read_op.vec_length →
        (read_call r op).2 =
          { r with position :=
              if r.position + 10 ≤ r.length then r.position + 10
              else max r.position r.length }) ∧
      (∀ max_length, op = read_op.string max_length →
        (read_call r op).2 = (read_call r read_op.uleb128).2) ∧
      (r.position ≤ r.length → reader_fits r →
        r.position ≤ (read_call r op).2.position) := by
  have hu128 : op = read_op.u128 →
      (read_call r op).2 =
        if (r.position + 8) % SIZE_MOD > r.length then r
        else { r with position := (r.position + 8) % SIZE_MOD } := by
    intro hop
    subst hop
    simp only [read_call] at herr ⊢
    unfold bcs_read_u128 at herr ⊢
    simp only at herr ⊢
    by_cases h1 : (r.position + 8) % SIZE_MOD > r.length
    · have e : bcs_read_u64 r = (BCS_ERROR_BUFFER_UNDERFLOW, r, 0) := by
        unfold bcs_read_u64; rw [if_pos h1]
      rw [e, if_pos h1]
      simp
    · have e : (bcs_read_u64 r).1 = BCS_OK ∧
          (bcs_read_u64 r).2.1 = { r with position := (r.position + 8) % SIZE_MOD } := by
        unfold bcs_read_u64; rw [if_neg h1]; exact ⟨rfl, rfl⟩
      rw [if_neg h1]
      simp only [e.1, ne_eq, not_true_eq_false, if_false] at herr ⊢
      have h2 : (bcs_read_u64 (bcs_read_u64 r).2.1).2.1 = (bcs_read_u64 r).2.1 := by
        generalize (bcs_read_u64 r).2.1 = r2 at herr ⊢
        unfold bcs_read_u64 at herr ⊢
        split
        · rfl
        · rename_i h3; simp [h3] at herr
      split <;> (rw [h2]; exact e.2)
  refine ⟨?_, hu128, ?_, ?_, ?_, ?_⟩
  · intro hs
    cases op <;> simp only [read_op.single_step] at hs <;> try contradiction
    all_goals
      simp only [read_call, bcs_read_u8, bcs_read_u16, bcs_read_u32, bcs_read_u64,
        bcs_read_u256, bcs_read_bytes] at herr ⊢
      split <;> simp_all
  · intro hop
    rcases hop with hop | hop <;> subst hop
    · exact bcs_read_u8_failed_tag r _ (bcs_read_bool r) rfl herr
    · exact bcs_read_u8_failed_tag r _ (bcs_read_option_tag r) rfl herr
  · intro hop
    rcases hop with hop | hop <;> subst hop
    · exact bcs_read_uleb128_failed r herr
    · simp only [read_call] at herr ⊢
      unfold bcs_read_vec_length at herr ⊢
      simp only at herr ⊢
      by_cases h : (bcs_read_uleb128 r).1 = BCS_OK
      · simp [h] at herr
      · rw [if_pos h]
        exact bcs_read_uleb128_failed r h
  · intro m hop
    subst hop
    simp only [read_call] at herr ⊢
    unfold bcs_read_string at herr ⊢
    simp only at herr ⊢
    split
    · rfl
    · split
      · rfl
      · rename_i h1 h2
        simp only [h1, h2, if_false] at herr
        by_cases hbe : (bcs_read_bytes (bcs_read_uleb128 r).2.1
            ((bcs_read_uleb128 r).2.2 % SIZE_MOD)).1 = BCS_OK
        · simp [hbe] at herr
        · rw [if_pos hbe]
          exact bcs_read_bytes_err _ _ hbe
  · intro hpos hfit
    obtain ⟨hlen, hb, hsz⟩ := hfit
    have hm : ∀ n, n ≤ 8 → (r.position + n) % SIZE_MOD = r.position + n := by
      intro n hn; apply Nat.mod_eq_of_lt; omega
    have hu64 : r.position ≤ (bcs_read_u64 r).2.1.position := by
      unfold bcs_read_u64; split
      · exact Nat.le_refl _
      · simp only; rw [hm 8 (by omega)]; omega
    have hu8 : r.position ≤ (bcs_read_u8 r).2.1.position := by
      unfold bcs_read_u8; split
      · exact Nat.le_refl _
      · simp only; omega
    have hul : r.position ≤ (bcs_read_uleb128 r).2.1.position :=
      bcs_read_uleb128_loop_ahead 10 r 0 0
    cases op with
    | u8 => exact hu8
    | u64 => exact hu64
    | u16 =>
      simp only [read_call]; unfold bcs_read_u16; split
      · exact Nat.le_refl _
      · simp only; rw [hm 2 (by omega)]; omega
    | u32 =>
      simp only [read_call]; unfold bcs_read_u32; split
      · exact Nat.le_refl _
      · simp only; rw [hm 4 (by omega)]; omega
    | u256 =>
      simp only [read_call, bcs_read_u256, bcs_read_bytes] at herr ⊢
      split <;> simp_all
    | bytes n =>
      simp only [read_call, bcs_read_bytes] at herr ⊢
      split <;> simp_all
    | uleb128 => exact hul
    | vec_length =>
      simp only [read_call]; unfold bcs_read_vec_length
      simp only; split <;> exact hul
    | bool =>
      simp only [read_call]; unfold bcs_read_bool
      simp only; split
      · exact hu8
      · split <;> exact hu8
    | option_tag =>
      simp only [read_call]; unfold bcs_read_option_tag
      simp only; split
      · exact hu8
      · split <;> exact hu8
    | string m =>
      simp only [read_call] at herr ⊢
      unfold bcs_read_string at herr ⊢
      simp only at herr ⊢
      split
      · exact hul
      · split
        · exact hul
        · rename_i h1 h2
          simp only [h1, h2, if_false] at herr
          by_cases hbe : (bcs_read_bytes (bcs_read_uleb128 r).2.1
              ((bcs_read_uleb128 r).2.2 % SIZE_MOD)).1 = BCS_OK
          · simp [hbe] at herr
          · rw [bcs_read_bytes_err _ _ hbe]
            split <;> exact hul
    | u128 =>
      rw [hu128 rfl]
      split
      · exact Nat.le_refl _
      · simp only; rw [hm 8 (by omega)]; omega

theorem failed_read_cursor_witness :
    (read_call ⟨[0x80], 1, 0⟩ read_op.uleb128).1 ≠ BCS_OK ∧
      (read_op.uleb128 = read_op.uleb128 ∨ read_op.uleb128 = read_op.vec_length) ∧
      (read_call ⟨[0x80], 1, 0⟩ read_op.uleb128).2 = ⟨[0x80], 1, 1⟩ ∧
      (⟨[0x80], 1, 0⟩ : bcs_reader_t).position ≤ (⟨[0x80], 1, 0⟩ : bcs_reader_t).length ∧
      reader_fits ⟨[0x80], 1, 0⟩ ∧
      (⟨[0x80], 1, 0⟩ : bcs_reader_t).position ≤
        (read_call ⟨[0x80], 1, 0⟩ read_op.uleb128).2.position :=
  ⟨by decide, Or.inl rfl,
    (failed_read_cursor ⟨[0x80], 1, 0⟩ read_op.uleb128 (by decide)).2.2.2.1 (Or.inl rfl),
    by decide, by decide,
    (failed_read_cursor ⟨[0x80], 1, 0⟩ read_op.uleb128 (by decide)).2.2.2.2.2
      (by decide) (by decide)⟩

set_option maxRecDepth 100000 in
theorem decode_transaction_samples :
    decode_transaction plainAllocator "0x0000020001aa0509".toList = BCS_OK ∧
      decode_transaction plainAllocator "000005".toList = BCS_ERROR_BUFFER_UNDERFLOW ∧
      decode_transaction plainAllocator "0000010005aa".toList = BCS_ERROR_BUFFER_UNDERFLOW ∧
      decode_transaction plainAllocator "00000c0080808080808080808080".toList =
        BCS_ERROR_OVERFLOW ∧
      decode_transaction plainAllocator "0000zz".toList = BCS_ERROR_INVALID_INPUT ∧
      decode_transaction plainAllocator "000".toList = BCS_ERROR_INVALID_INPUT := by
  decide

set_option maxRecDepth 1000000 in
/-- C31, the code at the failing input. The sample record with a module name of 400
bytes is assembled twice. Where every request is served the result is `BCS_OK`
with 1486 hex characters. Where the request that grows the writer to 1024 bytes
is refused, the write of the 400 name bytes fails, its result is not looked at,
and the result is again `BCS_OK`, with 686 hex characters: same record, same
result code, different output. -/
theorem assembler_output_depends_on_allocator :
    (sui_build_sensor_transaction plainAllocator
        { sample_params with module_name := some (List.replicate 400 0x61) }).map
        (fun r => (r.1, r.2.map Prod.snd)) = some (BCS_OK, some 1486) ∧
      (sui_build_sensor_transaction fragmentedAllocator
        { sample_params with module_name := some (List.replicate 400 0x61) }).map
        (fun r => (r.1, r.2.map Prod.snd)) = some (BCS_OK, some 686) ∧
      sui_build_sensor_transaction plainAllocator
          { sample_params with module_name := some (List.replicate 400 0x61) } ≠
        sui_build_sensor_transaction fragmentedAllocator
          { sample_params with module_name := some (List.replicate 400 0x61) } := by
  decide
